import Mathlib

/-!
# malloclab: an implicit-free-list allocator with boundary tags (`mm.c`)

A shallow embedding of `src/malloclab-handout/mm.c`.

* Memory is a total map from byte addresses to byte values; a word is four
  consecutive bytes, least significant first.
* `uint32_t` values are naturals reduced modulo `2 ^ 32` where the C code can
  wrap; `size_t` locals are naturals (they never wrap below for arenas smaller
  than `2 ^ 32` bytes, and the places that can wrap are reduced explicitly).
* Pointers are natural-number addresses; a pointer-or-`NULL` result is an
  `Option`.
* The globals `heap_listp`, `heap_nextp` and `count`, together with the state of
  the arena-growth primitive, form an explicit `State`.
-/

set_option linter.unusedVariables false

namespace Malloclab

/-! ## Constants and word access -/

/-- Byte-addressed memory. -/
abbrev Mem := Nat → Nat

/-- The modulus of `uint32_t` arithmetic. -/
def U32 : Nat := 4294967296

/-- Word size in bytes: `#define WSIZE 4`. -/
def WSIZE : Nat := 4

/-- Doubleword size in bytes: `#define DSIZE 8`. -/
def DSIZE : Nat := 8

/-- Initial heap size in bytes: `#define CHUNKSIZE (1<<12)`. -/
def CHUNKSIZE : Nat := 4096

/-- Overhead of header and footer in bytes: `#define OVERHEAD 8`. -/
def OVERHEAD : Nat := 8

/-- Conversion of an unsigned value to a C `int` (low 32 bits, two's complement). -/
def toInt32 (x : Nat) : Int :=
  if x % U32 < 2147483648 then ((x % U32 : Nat) : Int) else ((x % U32 : Nat) : Int) - 4294967296

/-- The function `static inline int MAX(int x, int y)`. -/
def MAX (x y : Int) : Int := if x > y then x else y

/-- The function `PACK(uint32_t size, int alloc)`: `size | (alloc & 0x1)`. -/
def PACK (size alloc : Nat) : Nat := (size % U32) ||| (alloc &&& 1)

/-- The function `GET(p)`: the 32-bit word stored at address `p`. -/
def GET (m : Mem) (p : Nat) : Nat :=
  m p % 256 + 256 * (m (p + 1) % 256) + 65536 * (m (p + 2) % 256) + 16777216 * (m (p + 3) % 256)

/-- The function `PUT(p, val)`: store the 32-bit word `val` at address `p`. -/
def PUT (m : Mem) (p val : Nat) : Mem := fun a =>
  if a = p then val % 256
  else if a = p + 1 then val / 256 % 256
  else if a = p + 2 then val / 65536 % 256
  else if a = p + 3 then val / 16777216 % 256
  else m a

/-- The function `GET_SIZE(p)`: `GET(p) & ~0x7`. -/
def GET_SIZE (m : Mem) (p : Nat) : Nat := GET m p &&& 0xFFFFFFF8

/-- The function `GET_ALLOC(p)`: `GET(p) & 0x1`. -/
def GET_ALLOC (m : Mem) (p : Nat) : Nat := GET m p &&& 1

/-- The function `HDRP(bp)`: address of the header of block `bp`. -/
def HDRP (bp : Nat) : Nat := bp - WSIZE

/-- The function `FTRP(bp)`: address of the footer of block `bp`. -/
def FTRP (m : Mem) (bp : Nat) : Nat := bp + GET_SIZE m (HDRP bp) - DSIZE

/-- The function `NEXT_BLKP(bp)`: the block after `bp`. -/
def NEXT_BLKP (m : Mem) (bp : Nat) : Nat := bp + GET_SIZE m (bp - WSIZE)

/-- The function `PREV_BLKP(bp)`: the block before `bp`. -/
def PREV_BLKP (m : Mem) (bp : Nat) : Nat := bp - GET_SIZE m (bp - DSIZE)

/-- The function `memcpy(dst, src, n)` for non-overlapping regions. -/
def memcpy (m : Mem) (dst src n : Nat) : Mem := fun a =>
  if dst ≤ a ∧ a < dst + n then m (src + (a - dst)) else m a

/-! ## Allocator state -/

/-- The globals of `mm.c` (`heap_listp`, `heap_nextp`, `count`), the memory, and the
state of the arena-growth primitive (`mem_brk`, `mem_max_addr`). -/
structure State where
  /-- Contents of memory. -/
  mem : Mem
  /-- First address past the arena. -/
  mem_brk : Nat
  /-- First address past the backing region of the arena. -/
  mem_max_addr : Nat
  /-- Global `heap_listp`: pointer to the first block. -/
  heap_listp : Nat
  /-- Global `heap_nextp`: the search cursor. -/
  heap_nextp : Nat
  /-- Global `count`. -/
  count : Nat

/-- Modelled from the spec: the arena-growth primitive `mem_sbrk` (its source,
`memlib.c`, is not part of `src/`). It "extends the managed byte region by a requested
amount or signals exhaustion"; it "owns a bounded backing region and reports exhaustion
once its limit is reached". On success it returns the old end of the arena, which is the
start of the new region. `none` is the exhaustion signal `(void *)-1`. -/
def mem_sbrk (s : State) (incr : Nat) : Option (Nat × State) :=
  if s.mem_brk + incr > s.mem_max_addr then none
  else some (s.mem_brk, { s with mem_brk := s.mem_brk + incr })

/-! ## The allocator -/

/-- The function `coalesce(bp)`: boundary-tag coalescing; returns the merged block. -/
def coalesce (s : State) (bp : Nat) : Nat × State :=
  let prev_alloc := GET_ALLOC s.mem (FTRP s.mem (PREV_BLKP s.mem bp))
  let next_alloc := GET_ALLOC s.mem (HDRP (NEXT_BLKP s.mem bp))
  let size := GET_SIZE s.mem (HDRP bp)
  if prev_alloc ≠ 0 ∧ next_alloc ≠ 0 then
    (bp, s)
  else if prev_alloc ≠ 0 ∧ next_alloc = 0 then
    let s1 := if s.heap_nextp = NEXT_BLKP s.mem bp then { s with heap_nextp := bp } else s
    let size := size + GET_SIZE s1.mem (HDRP (NEXT_BLKP s1.mem bp))
    let s2 := { s1 with mem := PUT s1.mem (HDRP bp) (PACK size 0) }
    let s3 := { s2 with mem := PUT s2.mem (FTRP s2.mem bp) (PACK size 0) }
    (bp, { s3 with heap_nextp := bp })
  else if prev_alloc = 0 ∧ next_alloc ≠ 0 then
    let s1 := if s.heap_nextp = bp then { s with heap_nextp := PREV_BLKP s.mem bp } else s
    let size := size + GET_SIZE s1.mem (HDRP (PREV_BLKP s1.mem bp))
    let s2 := { s1 with mem := PUT s1.mem (FTRP s1.mem bp) (PACK size 0) }
    let s3 := { s2 with mem := PUT s2.mem (HDRP (PREV_BLKP s2.mem bp)) (PACK size 0) }
    let bp1 := PREV_BLKP s3.mem bp
    (bp1, { s3 with heap_nextp := bp1 })
  else
    let s1 :=
      if s.heap_nextp = bp ∨ s.heap_nextp = NEXT_BLKP s.mem bp then
        { s with heap_nextp := PREV_BLKP s.mem bp }
      else s
    let size := size + (GET_SIZE s1.mem (HDRP (PREV_BLKP s1.mem bp))
      + GET_SIZE s1.mem (FTRP s1.mem (NEXT_BLKP s1.mem bp)))
    let s2 := { s1 with mem := PUT s1.mem (HDRP (PREV_BLKP s1.mem bp)) (PACK size 0) }
    let s3 := { s2 with mem := PUT s2.mem (FTRP s2.mem (NEXT_BLKP s2.mem bp)) (PACK size 0) }
    let bp1 := PREV_BLKP s3.mem bp
    (bp1, { s3 with heap_nextp := bp1 })

/-- The function `extend_heap(words)`: extend the heap with a free block and return its
block pointer, or `none` for `NULL`. -/
def extend_heap (s : State) (words : Nat) : Option Nat × State :=
  let words := words % U32
  let size := if words % 2 ≠ 0 then ((words + 1) * WSIZE) % U32 else (words * WSIZE) % U32
  match mem_sbrk s size with
  | none => (none, s)
  | some (bp, s1) =>
    let s2 := { s1 with mem := PUT s1.mem (HDRP bp) (PACK size 0) }
    let s3 := { s2 with mem := PUT s2.mem (FTRP s2.mem bp) (PACK size 0) }
    let s4 := { s3 with mem := PUT s3.mem (HDRP (NEXT_BLKP s3.mem bp)) (PACK 0 1) }
    let r := coalesce s4 bp
    (some r.1, r.2)

/-- The function `mm_init`: `some s` is a return of `0` in state `s`; `none` is a return
of `-1` (the allocator is unusable afterwards). -/
def mm_init (s : State) : Option State :=
  match mem_sbrk s (4 * WSIZE) with
  | none => none
  | some (p, s1) =>
    let s2 := { s1 with heap_listp := p }
    let s3 := { s2 with mem := PUT s2.mem s2.heap_listp 0 }
    let s4 := { s3 with mem := PUT s3.mem (s3.heap_listp + 1 * WSIZE) (PACK DSIZE 1) }
    let s5 := { s4 with mem := PUT s4.mem (s4.heap_listp + 2 * WSIZE) (PACK DSIZE 1) }
    let s6 := { s5 with mem := PUT s5.mem (s5.heap_listp + 3 * WSIZE) (PACK 0 1) }
    let s7 := { s6 with heap_listp := s6.heap_listp + 2 * WSIZE }
    match extend_heap s7 (CHUNKSIZE / WSIZE) with
    | (none, _) => none
    | (some _, s8) =>
      let s9 := { s8 with heap_listp := s8.heap_listp + 2 * WSIZE }
      some { s9 with heap_nextp := s9.heap_listp }

/-- The loop of `find_fit`. The first argument bounds the number of iterations; `none`
means the bound was reached, `some none` is the exit through `return NULL`, and
`some (some bp)` the exit through `return bp`. -/
def find_fit_loop (m : Mem) (asize : Nat) : Nat → Nat → Option (Option Nat)
  | 0, _ => none
  | fuel + 1, bp =>
    if GET_SIZE m (HDRP bp) ≠ 0 then
      if GET_ALLOC m (HDRP bp) = 0 ∧ asize ≤ GET_SIZE m (HDRP bp) then
        some (some bp)
      else
        find_fit_loop m asize fuel (bp + GET_SIZE m (HDRP bp))
    else
      some none

/-- The function `find_fit(asize)`: scan from the cursor for a free block of at least
`asize` bytes. Every iteration advances by at least 8 bytes, so `mem_brk` iterations
reach past the arena; the outer `none` means the scan left the arena without meeting a
zero size (which never happens on a well-formed heap). -/
def find_fit (s : State) (asize : Nat) : Option (Option Nat × State) :=
  match find_fit_loop s.mem (asize % U32) s.mem_brk s.heap_nextp with
  | none => none
  | some none => some (none, s)
  | some (some bp) => some (some bp, { s with heap_nextp := bp })

/-- The function `place(bp, asize)`: place a block of `asize` bytes at the start of the
free block `bp`, splitting off the remainder. -/
def place (s : State) (bp asize : Nat) : State :=
  let asize := asize % U32
  let size := GET_SIZE s.mem (HDRP bp)
  if size < (asize + 8) % U32 then
    let s1 := { s with mem := PUT s.mem (HDRP bp) (PACK asize 1) }
    { s1 with mem := PUT s1.mem (FTRP s1.mem bp) (PACK asize 1) }
  else
    let s1 := { s with mem := PUT s.mem (HDRP bp + size - WSIZE) (PACK (size + U32 - asize) 0) }
    let s2 := { s1 with mem := PUT s1.mem (HDRP bp + asize) (PACK (size + U32 - asize) 0) }
    let s3 := { s2 with mem := PUT s2.mem (HDRP bp + asize - WSIZE) (PACK asize 1) }
    { s3 with mem := PUT s3.mem (HDRP bp) (PACK asize 1) }

/-- The adjusted block size computed by `mm_malloc` for a request of `size` bytes. -/
def adjust (size : Nat) : Nat :=
  if size ≤ DSIZE then 2 * DSIZE
  else (DSIZE * (((size + DSIZE + (DSIZE - 1)) % U32) / DSIZE)) % U32

/-- The function `mm_malloc(size)`. The outer `Option` is `none` only when the scan of
`find_fit` leaves the arena; the inner one is the returned pointer (`none` for `NULL`). -/
def mm_malloc (s : State) (size : Nat) : Option (Option Nat × State) :=
  let s0 := { s with count := s.count + 1 }
  if size = 0 then some (none, s0)
  else
    let asize := adjust size
    match find_fit s0 asize with
    | none => none
    | some (some bp, s1) => some (some bp, place s1 bp asize)
    | some (none, s1) =>
      let extendsize := (MAX (toInt32 asize) (CHUNKSIZE : Int)).toNat
      match extend_heap s1 (extendsize / WSIZE) with
      | (none, s2) => some (none, s2)
      | (some bp, s2) => some (some bp, place s2 bp asize)

/-- The function `mm_free(bp)`. -/
def mm_free (s : State) (bp : Nat) : State :=
  let s0 := { s with count := s.count + 1 }
  let size := GET_SIZE s0.mem (HDRP bp)
  let s1 := { s0 with mem := PUT s0.mem (HDRP bp) (PACK size 0) }
  let s2 := { s1 with mem := PUT s1.mem (FTRP s1.mem bp) (PACK size 0) }
  (coalesce s2 bp).2

/-- How a call of `mm_realloc` ends: it returns a pointer (`none` for `NULL`), or the
process is terminated by `exit(code)`. -/
inductive Outcome where
  | ret (p : Option Nat) (s : State)
  | exit (code : Nat) (s : State)

/-- The function `mm_realloc(ptr, size)`. The outer `Option` is that of `mm_malloc`. -/
def mm_realloc (s : State) (ptr size : Nat) : Option Outcome :=
  match mm_malloc s size with
  | none => none
  | some (none, s1) => some (Outcome.exit 1 s1)
  | some (some newp, s1) =>
    let copySize := GET_SIZE s1.mem (HDRP ptr)
    let copySize := if size < copySize then size else copySize
    let s2 := { s1 with mem := memcpy s1.mem newp ptr copySize }
    some (Outcome.ret (some newp) (mm_free s2 ptr))

/-! ## Walking the block sequence -/

/-- The block pointers met by the loop `for (bp = start; GET_SIZE(HDRP(bp)) > 0;
bp = NEXT_BLKP(bp))` (the loop of `mm_checkheap` and `printheap`), at most `fuel` of
them. -/
def walk (m : Mem) : Nat → Nat → List Nat
  | 0, _ => []
  | fuel + 1, bp =>
    if GET_SIZE m (HDRP bp) = 0 then [] else bp :: walk m fuel (NEXT_BLKP m bp)

/-- The block pointers of all blocks between `heap_listp` and the epilogue. -/
def blocks (s : State) : List Nat := walk s.mem s.mem_brk s.heap_listp

/-! ## The abstract view of the arena -/

/-- A block as described by its boundary tags. -/
structure Blk where
  /-- Size in bytes, header and footer included. -/
  size : Nat
  /-- The allocated bit. -/
  alloc : Bool
deriving DecidableEq, Repr

/-- The header (and footer) word of a block. -/
def Blk.word (b : Blk) : Nat := b.size + (if b.alloc then 1 else 0)

/-- Total size of a sequence of blocks. -/
def total : List Blk → Nat
  | [] => 0
  | b :: bs => b.size + total bs

/-- Memory `m` holds the blocks `bs` back to back, the first with block pointer `bp`:
every block has a size that is a multiple of 8 and at least 8, and its header and footer
both hold its word. -/
def Seg (m : Mem) : Nat → List Blk → Prop
  | _, [] => True
  | bp, b :: bs =>
    8 ≤ b.size ∧ b.size % 8 = 0 ∧ GET m (bp - 4) = b.word ∧ GET m (bp + b.size - 8) = b.word ∧
      Seg m (bp + b.size) bs

/-- The blocks of a sequence paired with their block pointers. -/
def starts : Nat → List Blk → List (Nat × Blk)
  | _, [] => []
  | bp, b :: bs => (bp, b) :: starts (bp + b.size) bs

/-- No two neighbouring blocks of the sequence are both free. -/
def NoAdjFree (bs : List Blk) : Prop :=
  List.Chain' (fun x y => x.alloc = true ∨ y.alloc = true) bs

/-- The prologue block written by `mm_init`: size `DSIZE`, allocated. -/
def prologue : Blk := ⟨8, true⟩

/-- Well-formedness of the heap in state `s`, with `bs` the blocks between the prologue
and the epilogue: the prologue followed by `bs` is laid out from `heap_listp - 8`, the
epilogue header `PACK(0, 1)` is the last word of the arena, the arena lies within its
backing region, which is smaller than `2 ^ 32` bytes, no two neighbours are free, and the
cursor is the block pointer of one of the blocks. -/
structure Heap (s : State) (bs : List Blk) : Prop where
  lo : 16 ≤ s.heap_listp
  seg : Seg s.mem (s.heap_listp - 8) (prologue :: bs)
  epi : GET s.mem (s.heap_listp + total bs - 4) = 1
  brk : s.mem_brk = s.heap_listp + total bs
  max : s.mem_brk ≤ s.mem_max_addr
  lim : s.mem_max_addr + 16 < s.heap_listp + U32
  nadj : NoAdjFree bs
  cur : ∃ b, (s.heap_nextp, b) ∈ starts s.heap_listp bs

/-- Pointer `p` is live in a heap with blocks `bs`: it is the block pointer of an
allocated block. -/
def LiveIn (lp : Nat) (bs : List Blk) (p : Nat) : Prop :=
  ∃ b, (p, b) ∈ starts lp bs ∧ b.alloc = true

/-- A well-formed heap state: some block sequence describes it. -/
def WellFormed (s : State) : Prop := ∃ bs, Heap s bs

/-- The states reached from a successful `mm_init` on an arena starting at address `a0`
by `mm_malloc` calls with request sizes at most `2 ^ 31 - 16`, `mm_free` calls on pointers
returned by `mm_malloc` and not yet freed, and writes of the user into the payloads of
such pointers. The list holds the pointers returned by `mm_malloc` and not yet freed. The
backing region given to `mm_init` is smaller than `2 ^ 32` bytes. -/
inductive Reach (a0 : Nat) : State → List Nat → Prop
  | init (s0 s : State) (h0 : s0.mem_brk = a0) (hlim : s0.mem_max_addr < s0.mem_brk + U32)
      (h : mm_init s0 = some s) : Reach a0 s []
  | malloc (s s1 : State) (live : List Nat) (n : Nat) (r : Option Nat)
      (hr : Reach a0 s live) (hn : n ≤ 2 ^ 31 - 16) (h : mm_malloc s n = some (r, s1)) :
      Reach a0 s1 (match r with
        | some p => p :: live
        | none => live)
  | free (s : State) (live : List Nat) (p : Nat) (hr : Reach a0 s live) (hp : p ∈ live) :
      Reach a0 (mm_free s p) (live.filter (fun q => decide (q ≠ p)))
  | write (s : State) (live : List Nat) (p a v : Nat) (hr : Reach a0 s live) (hp : p ∈ live)
      (h1 : p ≤ a) (h2 : a + DSIZE < p + GET_SIZE s.mem (HDRP p)) :
      Reach a0 { s with mem := Function.update s.mem a v } live

/-- The blocks that `place` leaves in the place of a free block `b`. -/
def placeL (b : Blk) (asize : Nat) : List Blk :=
  if b.size < asize + 8 then [⟨asize, true⟩] else [⟨asize, true⟩, ⟨b.size - asize, false⟩]

/-- Whether the block after a given one is allocated, `rest` being the blocks that follow
it; past the last block comes the epilogue, which is allocated. -/
def headAlloc : List Blk → Bool
  | [] => true
  | n :: _ => n.alloc

/-- The blocks that `coalesce` leaves in the place of the predecessor `pb`, the free
block `b` and the blocks `rest` after it. -/
def coalL (pb b : Blk) : List Blk → List Blk
  | [] => if pb.alloc then [pb, b] else [⟨b.size + pb.size, false⟩]
  | n :: r =>
    if pb.alloc then
      if n.alloc then pb :: b :: n :: r else pb :: ⟨b.size + n.size, false⟩ :: r
    else
      if n.alloc then ⟨b.size + pb.size, false⟩ :: n :: r
      else ⟨b.size + (pb.size + n.size), false⟩ :: r

/-- The block pointer returned by `coalesce` on block `bp` with predecessor `pb`. -/
def coalP (pb : Blk) (bp : Nat) : Nat := if pb.alloc then bp else bp - pb.size

/-! ## Further definitions used by the statements -/

/-- The invariant of reachable states. -/
def Inv (a0 : Nat) (s : State) (live : List Nat) : Prop :=
  ∃ bs, Heap s bs ∧ s.heap_listp = a0 + 16 ∧ ∀ p ∈ live, LiveIn s.heap_listp bs p

/-- The walk of the block sequence from block pointer `bp` is sound: it meets `k` blocks,
each with a positive size that is a multiple of 8 and with equal header and footer words,
the next one starting where the previous one ends, and then an epilogue header
`PACK(0, 1)` that occupies the last word before `brk`. -/
def WalkOk (m : Mem) (brk : Nat) : Nat → Nat → Prop
  | 0, bp => GET m (HDRP bp) = PACK 0 1 ∧ HDRP bp + WSIZE = brk
  | k + 1, bp =>
    0 < GET_SIZE m (HDRP bp) ∧ GET_SIZE m (HDRP bp) % 8 = 0 ∧
      GET m (HDRP bp) = GET m (FTRP m bp) ∧ WalkOk m brk k (NEXT_BLKP m bp)

/-- The address range from `lo` to `hi` lies inside a free block of the sequence. -/
def Cov (lp : Nat) (bs : List Blk) (lo hi : Nat) : Prop :=
  ∃ q f, (q, f) ∈ starts lp bs ∧ f.alloc = false ∧ q ≤ lo ∧ hi ≤ q + f.size

/-- A fresh arena starting at address 4096 with a backing region of 8192 bytes. -/
def demoInit : State :=
  { mem := fun _ => 0, mem_brk := 4096, mem_max_addr := 12288, heap_listp := 0,
    heap_nextp := 0, count := 0 }

/-- The state after `mm_init` on the fresh arena `demoInit`. -/
def demoHeap : State := (mm_init demoInit).getD demoInit

/-- The state in which a call `mm_malloc(n)` made in state `s` leaves the allocator. -/
def afterMalloc (s : State) (n : Nat) : State := ((mm_malloc s n).getD (none, s)).2

/-- The state after `mm_malloc(100)` in `demoHeap`; the call returns 4112. -/
def demoLive : State := afterMalloc demoHeap 100

/-- The state after `mm_malloc(10)`, `mm_malloc(20)` and `mm_malloc(30)` in `demoHeap`;
the calls return 4112, 4136 and 4168. -/
def demoThree : State := afterMalloc (afterMalloc (afterMalloc demoHeap 10) 20) 30

/-- The state after `mm_malloc(150)` in `demoLive`; the call returns 4224. -/
def demoMoved : State := afterMalloc demoLive 150

/-- The number of bytes that `extend_heap(words)` asks of `mem_sbrk`: the value of its
local `size`. -/
def extend_size (words : Nat) : Nat :=
  if (words % U32) % 2 ≠ 0 then ((words % U32 + 1) * WSIZE) % U32
  else ((words % U32) * WSIZE) % U32

/-- The state after `mm_malloc(100)`, `mm_malloc(3976)` and `mm_free(4112)` in `demoHeap`:
the two blocks 4112 (112 bytes, free) and 4224 (3984 bytes, allocated) fill the arena, and
the cursor stands on the second one. -/
def demoPast : State := mm_free (afterMalloc demoLive 3976) 4112

/-- A line printed by `mm_checkheap`, `printblock` or `checkblock`. The first three are
the lines of the verbose listing, the last four the error diagnostics. -/
inductive Line where
  | heap (p : Nat)
  | block (bp hsize halloc fsize falloc : Nat)
  | eol (bp : Nat)
  | badPrologue
  | notAligned (bp : Nat)
  | headerFooter
  | badEpilogue
deriving DecidableEq, Repr

/-- The function `printblock(bp)`, as the lines it prints. -/
def printblock (m : Mem) (bp : Nat) : List Line :=
  let hsize := GET_SIZE m (HDRP bp)
  let halloc := GET_ALLOC m (HDRP bp)
  let fsize := GET_SIZE m (FTRP m bp)
  let falloc := GET_ALLOC m (FTRP m bp)
  if hsize = 0 then [Line.eol bp] else [Line.block bp hsize halloc fsize falloc]

/-- The function `checkblock(bp)`, as the lines it prints. -/
def checkblock (m : Mem) (bp : Nat) : List Line :=
  (if bp % 8 ≠ 0 then [Line.notAligned bp] else []) ++
    (if GET m (HDRP bp) ≠ GET m (FTRP m bp) then [Line.headerFooter] else [])

/-- The loop of `mm_checkheap`: the lines it prints and the value of `bp` on exit. The
first argument bounds the number of iterations; `none` means the bound was reached. -/
def checkheap_loop (m : Mem) (verbose : Int) : Nat → Nat → Option (List Line × Nat)
  | 0, _ => none
  | fuel + 1, bp =>
    if GET_SIZE m (HDRP bp) > 0 then
      match checkheap_loop m verbose fuel (NEXT_BLKP m bp) with
      | none => none
      | some (out, e) =>
        some ((if verbose ≠ 0 then printblock m bp else []) ++ checkblock m bp ++ out, e)
    else some ([], bp)

/-- The function `mm_checkheap(verbose)`, as the lines it prints; it writes to no word of
the arena and to no global. With `verbose = 0` every line is an error diagnostic. The
loop gets `mem_brk` iterations, as that of `find_fit`. -/
def mm_checkheap (s : State) (verbose : Int) : Option (List Line) :=
  let out1 := if verbose ≠ 0 then [Line.heap s.heap_listp] else []
  let out2 :=
    if GET_SIZE s.mem (HDRP s.heap_listp) ≠ DSIZE ∨ GET_ALLOC s.mem (HDRP s.heap_listp) = 0
    then [Line.badPrologue] else []
  let out3 := checkblock s.mem s.heap_listp
  match checkheap_loop s.mem verbose s.mem_brk s.heap_listp with
  | none => none
  | some (out4, bp) =>
    let out5 := if verbose ≠ 0 then printblock s.mem bp else []
    let out6 :=
      if GET_SIZE s.mem (HDRP bp) ≠ 0 ∨ GET_ALLOC s.mem (HDRP bp) = 0
      then [Line.badEpilogue] else []
    some (out1 ++ out2 ++ out3 ++ out4 ++ out5 ++ out6)

/-- The number of bytes that `mm_malloc(size)` asks of `mem_sbrk` when `find_fit` finds no
block: `extend_heap` is called with `MAX(asize, CHUNKSIZE) / WSIZE` words. -/
def grow_request (size : Nat) : Nat :=
  extend_size ((MAX (toInt32 (adjust size)) (CHUNKSIZE : Int)).toNat / WSIZE)

/-- The adjusted size in the words of the specification: the larger of 16 and `n + 8`
rounded up to the next multiple of 8, computed over the naturals. -/
def adjusted_size_spec (n : Nat) : Nat := max 16 ((n + 8 + 7) / 8 * 8)

/-- The state after `mm_init` on a fresh arena starting at address 4096 whose backing
region has room for almost `2 ^ 32` bytes. -/
def demoRoomy : State :=
  (mm_init { mem := fun _ => 0, mem_brk := 4096, mem_max_addr := 4294967295, heap_listp := 0, heap_nextp := 0, count := 0 }).getD demoInit

/-- The layout part of well-formedness, with `bs` the blocks between the prologue and the
epilogue: everything `Heap` asks for except that no two neighbours are free and that the
cursor is on a block. This is what holds when `mm_free` and `extend_heap` call `coalesce`
on a block whose neighbours may be free. -/
def Layout (s : State) (bs : List Blk) : Prop :=
  16 ≤ s.heap_listp ∧ Seg s.mem (s.heap_listp - 8) (prologue :: bs) ∧
    GET s.mem (s.heap_listp + total bs - 4) = 1 ∧ s.mem_brk = s.heap_listp + total bs ∧
    s.mem_brk ≤ s.mem_max_addr ∧ s.mem_max_addr + 16 < s.heap_listp + U32

/-- Deciding `Seg` on a given block sequence. -/
instance decSeg (m : Mem) : (a : Nat) → (bs : List Blk) → Decidable (Seg m a bs)
  | _, [] => isTrue trivial
  | a, b :: bs =>
    have : Decidable (Seg m (a + b.size) bs) := decSeg m (a + b.size) bs
    (inferInstance : Decidable (8 ≤ b.size ∧ b.size % 8 = 0 ∧ GET m (a - 4) = b.word ∧
      GET m (a + b.size - 8) = b.word ∧ Seg m (a + b.size) bs))

/-- Deciding `Layout` on a given block sequence. -/
instance decLayout (s : State) (bs : List Blk) : Decidable (Layout s bs) :=
  (inferInstance : Decidable (16 ≤ s.heap_listp ∧ Seg s.mem (s.heap_listp - 8) (prologue :: bs) ∧
    GET s.mem (s.heap_listp + total bs - 4) = 1 ∧ s.mem_brk = s.heap_listp + total bs ∧
    s.mem_brk ≤ s.mem_max_addr ∧ s.mem_max_addr + 16 < s.heap_listp + U32))

/-- The state in which `mm_free(bp)` calls `coalesce(bp)`: the header and the footer of
the block have been rewritten with the allocated bit cleared. -/
def freeMarked (s : State) (bp : Nat) : State :=
  let s0 := { s with count := s.count + 1 }
  let size := GET_SIZE s0.mem (HDRP bp)
  let s1 := { s0 with mem := PUT s0.mem (HDRP bp) (PACK size 0) }
  { s1 with mem := PUT s1.mem (FTRP s1.mem bp) (PACK size 0) }

/-- The state inside `mm_free(4136)`, at the call of `coalesce`, after `mm_malloc(10)`,
`mm_malloc(20)`, `mm_malloc(30)`, `mm_free(4112)` and `mm_free(4168)`: the blocks at 4112
(24 bytes), 4136 (32 bytes) and 4168 (4040 bytes) are all free. -/
def demoMerge : State := freeMarked (mm_free (mm_free demoThree 4112) 4168) 4136

/-- The local `prev_alloc` of `coalesce(bp)`. -/
def prev_alloc (m : Mem) (bp : Nat) : Nat := GET_ALLOC m (FTRP m (PREV_BLKP m bp))

/-- The local `next_alloc` of `coalesce(bp)`. -/
def next_alloc (m : Mem) (bp : Nat) : Nat := GET_ALLOC m (HDRP (NEXT_BLKP m bp))

/-- The size of block `bp` plus the sizes of exactly those of its two neighbours that are
free. -/
def merged_size (m : Mem) (bp : Nat) : Nat :=
  GET_SIZE m (HDRP bp) + (if prev_alloc m bp = 0 then GET_SIZE m (HDRP (PREV_BLKP m bp)) else 0)
    + (if next_alloc m bp = 0 then GET_SIZE m (HDRP (NEXT_BLKP m bp)) else 0)

/-- Byte `x` lies in the header word or in the footer word of a block of the sequence `bs`
laid out from block pointer `a`. -/
def TagL (a : Nat) (bs : List Blk) (x : Nat) : Prop :=
  ∃ q c, (q, c) ∈ starts a bs ∧ ((q - 4 ≤ x ∧ x < q) ∨ (q + c.size - 8 ≤ x ∧ x < q + c.size - 4))

/-- Byte `x` lies in block `q` of state `s`, header and footer included. -/
def InBlock (s : State) (q x : Nat) : Prop :=
  HDRP q ≤ x ∧ x < HDRP q + GET_SIZE s.mem (HDRP q)

/-- Byte `x` lies in the header word or in the footer word of a block of the block
sequence of state `s`, or in its epilogue header. -/
def IsTag (s : State) (x : Nat) : Prop :=
  (∃ q ∈ blocks s, (HDRP q ≤ x ∧ x < HDRP q + WSIZE) ∨
      (FTRP s.mem q ≤ x ∧ x < FTRP s.mem q + WSIZE)) ∨
    (s.mem_brk - WSIZE ≤ x ∧ x < s.mem_brk)

/-! ## Words -/

theorem and_mask_eq (x : Nat) (h : x < 2 ^ 32) : x &&& 4294967288 = x - x % 8 := by
  have h1 : x - x % 8 = 2 ^ 3 * (x >>> 3) := by
    rw [Nat.shiftRight_eq_div_pow]; omega
  have h2 : (4294967288 : Nat) = 2 ^ 3 * (2 ^ 29 - 1) := by norm_num
  rw [h1, h2]
  apply Nat.eq_of_testBit_eq
  intro i
  rw [Nat.testBit_and, Nat.testBit_mul_pow_two, Nat.testBit_mul_pow_two,
    Nat.testBit_two_pow_sub_one, Nat.testBit_shiftRight]
  by_cases hi : i ≥ 3
  · have e : 3 + (i - 3) = i := by omega
    rw [e]
    by_cases h29 : i - 3 < 29
    · simp [hi, h29]
    · have hx : x.testBit i = false := by
        apply Nat.testBit_lt_two_pow
        calc x < 2 ^ 32 := h
          _ ≤ 2 ^ i := Nat.pow_le_pow_right (by norm_num) (by omega)
      simp [hx]
  · simp [hi]

theorem or_bit_eq (s a : Nat) (hs : s % 2 = 0) (ha : a < 2) : s ||| a = s + a := by
  have h : s = 2 ^ 1 * (s / 2) := by omega
  rw [h]
  exact (Nat.mul_add_lt_is_or (by simpa using ha) _).symm

theorem GET_lt (m : Mem) (p : Nat) : GET m p < U32 := by
  unfold GET U32; omega

theorem GET_PUT_same (m : Mem) (p v : Nat) : GET (PUT m p v) p = v % U32 := by
  unfold GET PUT U32
  simp only [if_true, Nat.add_right_eq_self, OfNat.ofNat_ne_zero, if_false, add_right_inj,
    Nat.reduceEqDiff, one_ne_zero]
  omega

theorem PUT_other (m : Mem) (p v a : Nat) (h : a < p ∨ p + 4 ≤ a) : PUT m p v a = m a := by
  unfold PUT
  have h0 : a ≠ p := by omega
  have h1 : a ≠ p + 1 := by omega
  have h2 : a ≠ p + 2 := by omega
  have h3 : a ≠ p + 3 := by omega
  simp [h0, h1, h2, h3]

theorem GET_congr (m m1 : Mem) (p : Nat) (h : ∀ a, p ≤ a → a < p + 4 → m1 a = m a) :
    GET m1 p = GET m p := by
  unfold GET
  rw [h p (by omega) (by omega), h (p + 1) (by omega) (by omega), h (p + 2) (by omega) (by omega),
    h (p + 3) (by omega) (by omega)]

theorem GET_PUT_other (m : Mem) (p v q : Nat) (h : q + 4 ≤ p ∨ p + 4 ≤ q) :
    GET (PUT m p v) q = GET m q :=
  GET_congr _ _ _ (fun a h1 h2 => PUT_other m p v a (by omega))

theorem PACK_eq (s a : Nat) (hs : s % 8 = 0) (hlt : s < U32) (ha : a ≤ 1) : PACK s a = s + a := by
  unfold PACK
  rw [Nat.mod_eq_of_lt hlt, Nat.and_one_is_mod, Nat.mod_eq_of_lt (by omega : a < 2)]
  exact or_bit_eq s a (by omega) (by omega)

theorem GET_SIZE_eq (m : Mem) (p : Nat) : GET_SIZE m p = GET m p - GET m p % 8 := by
  unfold GET_SIZE
  exact and_mask_eq _ (GET_lt m p)

theorem GET_ALLOC_eq (m : Mem) (p : Nat) : GET_ALLOC m p = GET m p % 2 := by
  unfold GET_ALLOC
  exact Nat.and_one_is_mod _

/-! ## Block sequences -/

theorem word_size (m : Mem) (p : Nat) (b : Blk) (hs : b.size % 8 = 0) (h : GET m p = b.word) :
    GET_SIZE m p = b.size := by
  rw [GET_SIZE_eq, h]; unfold Blk.word; split <;> omega

theorem word_alloc (m : Mem) (p : Nat) (b : Blk) (hs : b.size % 8 = 0) (h : GET m p = b.word) :
    GET_ALLOC m p = if b.alloc then 1 else 0 := by
  rw [GET_ALLOC_eq, h]; unfold Blk.word; split <;> omega

theorem word_lt (m : Mem) (p : Nat) (b : Blk) (h : GET m p = b.word) : b.size < U32 := by
  have h1 := GET_lt m p
  rw [h] at h1; unfold Blk.word at h1; omega

theorem total_append (xs ys : List Blk) : total (xs ++ ys) = total xs + total ys := by
  induction xs with
  | nil => simp [total]
  | cons b xs ih => simp [total, ih]; omega

theorem starts_append (a : Nat) (xs ys : List Blk) :
    starts a (xs ++ ys) = starts a xs ++ starts (a + total xs) ys := by
  induction xs generalizing a with
  | nil => simp [starts, total]
  | cons b xs ih => simp [starts, total, ih, Nat.add_assoc]

theorem Seg_append (m : Mem) (a : Nat) (xs ys : List Blk) :
    Seg m a (xs ++ ys) ↔ Seg m a xs ∧ Seg m (a + total xs) ys := by
  induction xs generalizing a with
  | nil => simp [Seg, total]
  | cons b xs ih => simp [Seg, total, ih, Nat.add_assoc, and_assoc]

theorem Seg_congr (m m1 : Mem) (a : Nat) (bs : List Blk) (ha : 4 ≤ a)
    (h : ∀ x, a - 4 ≤ x → x < a + total bs - 4 → m1 x = m x) (hs : Seg m a bs) :
    Seg m1 a bs := by
  induction bs generalizing a with
  | nil => trivial
  | cons b bs ih =>
    obtain ⟨h8, hm, hh, hf, hr⟩ := hs
    simp only [total] at h
    refine ⟨h8, hm, ?_, ?_, ?_⟩
    · rw [← hh]; exact GET_congr _ _ _ (fun x h1 h2 => h x h1 (by omega))
    · rw [← hf]; exact GET_congr _ _ _ (fun x h1 h2 => h x (by omega) (by omega))
    · exact ih (a + b.size) (by omega) (fun x h1 h2 => h x (by omega) (by omega)) hr

theorem mem_starts_split (a : Nat) (bs : List Blk) (p : Nat) (b : Blk)
    (h : (p, b) ∈ starts a bs) : ∃ pre post, bs = pre ++ b :: post ∧ p = a + total pre := by
  induction bs generalizing a with
  | nil => simp [starts] at h
  | cons c bs ih =>
    simp only [starts, List.mem_cons, Prod.mk.injEq] at h
    rcases h with ⟨h1, h2⟩ | h
    · exact ⟨[], bs, by simp [h2], by simp [total, h1]⟩
    · obtain ⟨pre, post, e1, e2⟩ := ih _ h
      exact ⟨c :: pre, post, by simp [e1], by simp [total, e2]; omega⟩

theorem mem_starts_mid (a : Nat) (pre post : List Blk) (b : Blk) :
    (a + total pre, b) ∈ starts a (pre ++ b :: post) := by
  rw [starts_append]; simp [starts]

theorem mem_starts_ge (a : Nat) (bs : List Blk) (p : Nat) (b : Blk)
    (h : (p, b) ∈ starts a bs) : a ≤ p ∧ p + b.size ≤ a + total bs := by
  obtain ⟨pre, post, e1, e2⟩ := mem_starts_split a bs p b h
  subst e1; rw [total_append]; simp only [total]; omega

/-- Replacing a run of blocks by another run of the same total size, when memory
changes only inside the run. -/
theorem Seg_replace (m m1 : Mem) (a : Nat) (pre mid mid1 post : List Blk) (ha : 4 ≤ a)
    (hs : Seg m a (pre ++ mid ++ post))
    (hfr : ∀ x, x < a + total pre - 4 ∨ a + total pre + total mid - 4 ≤ x → m1 x = m x)
    (hmid : Seg m1 (a + total pre) mid1) (htot : total mid1 = total mid) :
    Seg m1 a (pre ++ mid1 ++ post) := by
  rw [Seg_append, Seg_append] at hs ⊢
  obtain ⟨⟨h1, _⟩, h3⟩ := hs
  refine ⟨⟨?_, hmid⟩, ?_⟩
  · exact Seg_congr m m1 a pre ha (fun x h1 h2 => hfr x (by omega)) h1
  · rw [total_append] at h3 ⊢
    rw [htot]
    exact Seg_congr m m1 _ post (by omega) (fun x h1 h2 => hfr x (by omega)) h3

/-! ## `place` -/

theorem GET_PUT_PACK (m : Mem) (p s a : Nat) (hs : s % 8 = 0) (hlt : s < U32) (ha : a ≤ 1) :
    GET (PUT m p (PACK s a)) p = s + a := by
  rw [GET_PUT_same, PACK_eq s a hs hlt ha]
  apply Nat.mod_eq_of_lt
  unfold U32 at *; omega

theorem place_fields (s : State) (bp asize : Nat) :
    (place s bp asize).mem_brk = s.mem_brk ∧ (place s bp asize).mem_max_addr = s.mem_max_addr ∧
    (place s bp asize).heap_listp = s.heap_listp ∧ (place s bp asize).heap_nextp = s.heap_nextp ∧
    (place s bp asize).count = s.count := by
  unfold place
  simp only []
  split <;> simp

theorem place_spec (s : State) (bp asize : Nat) (b : Blk) (hbp : 4 ≤ bp)
    (hseg : Seg s.mem bp [b]) (ha8 : asize % 8 = 0) (ha : 8 ≤ asize) (hfit : asize ≤ b.size)
    (hlt : asize + 8 < U32) :
    Seg (place s bp asize).mem bp (placeL b asize) ∧
    (∀ x, x < bp - 4 ∨ bp + b.size - 4 ≤ x → (place s bp asize).mem x = s.mem x) := by
  obtain ⟨h8, hm, hh, hf, -⟩ := hseg
  have hsz : GET_SIZE s.mem (bp - 4) = b.size := word_size _ _ b hm hh
  have hblt : b.size < U32 := word_lt _ _ b hh
  have hU : U32 = 4294967296 := rfl
  have e1 : asize % U32 = asize := Nat.mod_eq_of_lt (by omega)
  have e2 : (asize + 8) % U32 = asize + 8 := Nat.mod_eq_of_lt hlt
  unfold place placeL
  simp only [hsz, e1, e2, HDRP, WSIZE]
  by_cases hc : b.size < asize + 8
  · have hbe : b.size = asize := by omega
    simp only [hc, if_true]
    have hsz1 : GET_SIZE (PUT s.mem (bp - 4) (PACK asize 1)) (bp - 4) = asize := by
      rw [GET_SIZE_eq]
      rw [GET_PUT_PACK _ _ _ _ ha8 (by omega) (by omega)]; omega
    refine ⟨⟨ha, ha8, ?_, ?_, trivial⟩, ?_⟩
    · simp only [FTRP, HDRP, WSIZE, hsz1, DSIZE, Blk.word, if_true]
      rw [GET_PUT_other _ _ _ _ (by omega), GET_PUT_PACK _ _ _ _ ha8 (by omega) (by omega)]
    · simp only [FTRP, HDRP, WSIZE, hsz1, DSIZE, Blk.word, if_true]
      rw [GET_PUT_PACK _ _ _ _ ha8 (by omega) (by omega)]
    · intro x hx
      simp only [FTRP, HDRP, WSIZE, hsz1, DSIZE]
      rw [PUT_other _ _ _ _ (by omega), PUT_other _ _ _ _ (by omega)]
  · simp only [hc, if_false]
    have e3 : PACK (b.size + U32 - asize) 0 = b.size - asize := by
      unfold PACK
      have : (b.size + U32 - asize) % U32 = b.size - asize := by
        have : b.size + U32 - asize = (b.size - asize) + U32 := by omega
        rw [this, Nat.add_mod_right]; exact Nat.mod_eq_of_lt (by omega)
      rw [this]; simp
    have e4 : PACK asize 1 = asize + 1 := PACK_eq _ _ ha8 (by omega) (by omega)
    have m1 : (b.size - asize) % U32 = b.size - asize := Nat.mod_eq_of_lt (by omega)
    have m2 : (asize + 1) % U32 = asize + 1 := Nat.mod_eq_of_lt (by omega)
    rw [e3, e4]
    refine ⟨⟨ha, ha8, ?_, ?_, ⟨by simp; omega, by simp; omega, ?_, ?_, trivial⟩⟩, ?_⟩
    · simp only [Blk.word, if_true]
      rw [GET_PUT_same, m2]
    · simp only [Blk.word, if_true]
      rw [GET_PUT_other _ _ _ _ (by omega)]
      have : bp - 4 + asize - 4 = bp + asize - 8 := by omega
      rw [this, GET_PUT_same, m2]
    · simp only [Blk.word]
      rw [GET_PUT_other _ _ _ _ (by omega), GET_PUT_other _ _ _ _ (by omega)]
      have : bp - 4 + asize = bp + asize - 4 := by omega
      rw [this, GET_PUT_same, m1]; simp
    · simp only [Blk.word]
      rw [GET_PUT_other _ _ _ _ (by omega), GET_PUT_other _ _ _ _ (by omega),
        GET_PUT_other _ _ _ _ (by omega)]
      have : bp - 4 + b.size - 4 = bp + asize + (b.size - asize) - 8 := by omega
      rw [this, GET_PUT_same, m1]; simp
    · intro x hx
      rw [PUT_other _ _ _ _ (by omega), PUT_other _ _ _ _ (by omega),
        PUT_other _ _ _ _ (by omega), PUT_other _ _ _ _ (by omega)]

/-! ## `find_fit` -/

theorem epilogue_size (m : Mem) (p : Nat) (h : GET m p = 1) : GET_SIZE m p = 0 := by
  rw [GET_SIZE_eq, h]

theorem epilogue_alloc (m : Mem) (p : Nat) (h : GET m p = 1) : GET_ALLOC m p = 1 := by
  rw [GET_ALLOC_eq, h]

theorem find_fit_loop_spec (m : Mem) (asize : Nat) (post : List Blk) (cur fuel : Nat)
    (hseg : Seg m cur post) (hepi : GET m (cur + total post - 4) = 1)
    (hfuel : post.length < fuel) :
    (∃ q b r, post = q ++ b :: r ∧ (∀ x ∈ q, x.alloc = true ∨ x.size < asize) ∧
      b.alloc = false ∧ asize ≤ b.size ∧
      find_fit_loop m asize fuel cur = some (some (cur + total q))) ∨
    ((∀ x ∈ post, x.alloc = true ∨ x.size < asize) ∧
      find_fit_loop m asize fuel cur = some none) := by
  induction post generalizing cur fuel with
  | nil =>
    right
    obtain ⟨f, rfl⟩ : ∃ f, fuel = f + 1 := ⟨fuel - 1, by simp at hfuel; omega⟩
    simp only [total, Nat.add_zero] at hepi
    simp [find_fit_loop, HDRP, WSIZE, epilogue_size m _ hepi]
  | cons b bs ih =>
    obtain ⟨f, rfl⟩ : ∃ f, fuel = f + 1 := ⟨fuel - 1, by simp at hfuel; omega⟩
    obtain ⟨h8, hm, hh, hf, hr⟩ := hseg
    have hsz : GET_SIZE m (cur - 4) = b.size := word_size _ _ b hm hh
    have hal : GET_ALLOC m (cur - 4) = if b.alloc then 1 else 0 := word_alloc _ _ b hm hh
    have hne : b.size ≠ 0 := by omega
    by_cases hc : b.alloc = false ∧ asize ≤ b.size
    · left
      refine ⟨[], b, bs, rfl, by simp, hc.1, hc.2, ?_⟩
      simp [find_fit_loop, HDRP, WSIZE, hsz, hal, hc.1, hc.2, hne, total]
    · have hstep : find_fit_loop m asize (f + 1) cur = find_fit_loop m asize f (cur + b.size) := by
        simp only [find_fit_loop, HDRP, WSIZE, hsz, hal, hne, ne_eq, not_false_eq_true, if_true]
        rw [if_neg]
        intro hx
        apply hc
        cases hb : b.alloc <;> simp_all
      have hnot : b.alloc = true ∨ b.size < asize := by
        cases hb : b.alloc
        · right; simp [hb] at hc; omega
        · left; rfl
      have hepi1 : GET m (cur + b.size + total bs - 4) = 1 := by
        simp only [total] at hepi; rw [← hepi]; congr 1; omega
      rcases ih (cur + b.size) f hr hepi1 (by simp at hfuel; omega) with
        ⟨q, c, r, e, hq, hc1, hc2, hres⟩ | ⟨hall, hres⟩
      · left
        refine ⟨b :: q, c, r, by simp [e], ?_, hc1, hc2, ?_⟩
        · intro x hx
          simp only [List.mem_cons] at hx
          rcases hx with rfl | hx
          · exact hnot
          · exact hq x hx
        · rw [hstep, hres]; simp [total]; omega
      · right
        refine ⟨?_, by rw [hstep, hres]⟩
        intro x hx
        simp only [List.mem_cons] at hx
        rcases hx with rfl | hx
        · exact hnot
        · exact hall x hx

/-! ## `coalesce` -/

theorem GET_SIZE_congr (m m1 : Mem) (p : Nat) (h : ∀ a, p ≤ a → a < p + 4 → m1 a = m a) :
    GET_SIZE m1 p = GET_SIZE m p := by
  unfold GET_SIZE; rw [GET_congr m m1 p h]

theorem GET_SIZE_PUT_other (m : Mem) (p v q : Nat) (h : q + 4 ≤ p ∨ p + 4 ≤ q) :
    GET_SIZE (PUT m p v) q = GET_SIZE m q := by
  unfold GET_SIZE; rw [GET_PUT_other m p v q h]

theorem GET_SIZE_PUT_PACK (m : Mem) (p s a : Nat) (hs : s % 8 = 0) (hlt : s < U32) (ha : a ≤ 1) :
    GET_SIZE (PUT m p (PACK s a)) p = s := by
  rw [GET_SIZE_eq, GET_PUT_PACK m p s a hs hlt ha]; omega

theorem head_alloc (m : Mem) (a : Nat) (rest : List Blk) (hseg : Seg m a rest)
    (hepi : GET m (a + total rest - 4) = 1) :
    GET_ALLOC m (a - 4) = if headAlloc rest then 1 else 0 := by
  cases rest with
  | nil => simp only [total, Nat.add_zero] at hepi; simp [headAlloc, epilogue_alloc m _ hepi]
  | cons n r => exact word_alloc _ _ n hseg.2.1 hseg.2.2.1

theorem Seg_PUT_other (m : Mem) (a : Nat) (bs : List Blk) (p v : Nat) (ha : 4 ≤ a)
    (h : p + 4 ≤ a - 4 ∨ a + total bs - 4 ≤ p) (hs : Seg m a bs) : Seg (PUT m p v) a bs :=
  Seg_congr m _ a bs ha (fun x h1 h2 => PUT_other m p v x (by omega)) hs

theorem ite_nextp_mem (c : Prop) [Decidable c] (s : State) (x : Nat) :
    (if c then { s with heap_nextp := x } else s).mem = s.mem := by
  split <;> rfl

theorem ite_nextp_brk (c : Prop) [Decidable c] (s : State) (x : Nat) :
    (if c then { s with heap_nextp := x } else s).mem_brk = s.mem_brk := by
  split <;> rfl

theorem ite_nextp_max (c : Prop) [Decidable c] (s : State) (x : Nat) :
    (if c then { s with heap_nextp := x } else s).mem_max_addr = s.mem_max_addr := by
  split <;> rfl

theorem ite_nextp_listp (c : Prop) [Decidable c] (s : State) (x : Nat) :
    (if c then { s with heap_nextp := x } else s).heap_listp = s.heap_listp := by
  split <;> rfl

theorem ite_nextp_count (c : Prop) [Decidable c] (s : State) (x : Nat) :
    (if c then { s with heap_nextp := x } else s).count = s.count := by
  split <;> rfl

theorem coalesce_spec (s : State) (bp : Nat) (pb b : Blk) (rest : List Blk)
    (hbp : 4 + pb.size ≤ bp) (hseg : Seg s.mem (bp - pb.size) (pb :: b :: rest))
    (hepi : GET s.mem (bp + b.size + total rest - 4) = 1)
    (hlt : pb.size + b.size + total rest < U32) :
    (coalesce s bp).1 = coalP pb bp ∧
    Seg (coalesce s bp).2.mem (bp - pb.size) (coalL pb b rest) ∧
    (∀ x, x < coalP pb bp - 4 ∨
        bp + b.size + (if headAlloc rest then 0 else total (rest.take 1)) - 4 ≤ x →
      (coalesce s bp).2.mem x = s.mem x) ∧
    (coalesce s bp).2.heap_nextp =
      (if pb.alloc = true ∧ headAlloc rest = true then s.heap_nextp else coalP pb bp) ∧
    (coalesce s bp).2.mem_brk = s.mem_brk ∧
    (coalesce s bp).2.mem_max_addr = s.mem_max_addr ∧
    (coalesce s bp).2.heap_listp = s.heap_listp ∧
    (coalesce s bp).2.count = s.count := by
  obtain ⟨hp8, hpm, hph, hpf, hb8, hbm, hbh, hbf, hr⟩ := hseg
  have ebp : bp - pb.size + pb.size = bp := by omega
  rw [ebp] at hbh hbf hr
  have e8 : bp - pb.size + pb.size - 8 = bp - 8 := by omega
  rw [e8] at hpf
  have hU : U32 = 4294967296 := rfl
  have hprev : PREV_BLKP s.mem bp = bp - pb.size := by
    unfold PREV_BLKP DSIZE; rw [word_size _ _ pb hpm hpf]
  have hpsz : GET_SIZE s.mem (bp - pb.size - 4) = pb.size := word_size _ _ pb hpm hph
  have hpal : GET_ALLOC s.mem (bp - 8) = if pb.alloc then 1 else 0 := word_alloc _ _ pb hpm hpf
  have hbsz : GET_SIZE s.mem (bp - 4) = b.size := word_size _ _ b hbm hbh
  have hnext : NEXT_BLKP s.mem bp = bp + b.size := by
    unfold NEXT_BLKP WSIZE; rw [hbsz]
  have hnal : GET_ALLOC s.mem (bp + b.size - 4) = if headAlloc rest then 1 else 0 :=
    head_alloc _ _ rest hr hepi
  have hfp : FTRP s.mem (bp - pb.size) = bp - 8 := by
    unfold FTRP HDRP WSIZE DSIZE; rw [hpsz]; omega
  by_cases hpa : pb.alloc = true
  · by_cases hna : headAlloc rest = true
    · have hco : coalesce s bp = (bp, s) := by
        unfold coalesce
        simp [hprev, hfp, hpal, hnext, HDRP, WSIZE, hnal, hpa, hna]
      rw [hco]
      refine ⟨by simp [coalP, hpa], ?_, fun _ _ => rfl, by simp [hpa, hna], rfl, rfl, rfl, rfl⟩
      have : coalL pb b rest = pb :: b :: rest := by
        cases rest with
        | nil => simp [coalL, hpa]
        | cons n r => simp only [headAlloc] at hna; simp [coalL, hpa, hna]
      rw [this]
      exact ⟨hp8, hpm, hph, by rw [e8]; exact hpf, by rw [ebp]; exact ⟨hb8, hbm, hbh, hbf, hr⟩⟩
    · obtain ⟨n, r, rfl, hnf⟩ : ∃ n r, rest = n :: r ∧ n.alloc = false := by
        cases rest with
        | nil => simp [headAlloc] at hna
        | cons n r => exact ⟨n, r, rfl, by simpa [headAlloc] using hna⟩
      obtain ⟨hn8, hnm, hnh, hnf1, hr1⟩ := hr
      have hnsz : GET_SIZE s.mem (bp + b.size - 4) = n.size := word_size _ _ n hnm hnh
      simp only [total] at hlt hepi
      have hpk : PACK (b.size + n.size) 0 = b.size + n.size := by
        rw [PACK_eq (b.size + n.size) 0 (by omega) (by omega) (by omega), Nat.add_zero]
      have hco : coalesce s bp = (bp, { s with
          mem := PUT (PUT s.mem (bp - 4) (b.size + n.size)) (bp + (b.size + n.size) - 8)
            (b.size + n.size),
          heap_nextp := bp }) := by
        have h1 := GET_SIZE_PUT_PACK s.mem (bp - 4) (b.size + n.size) 0 (by omega) (by omega)
          (by omega)
        rw [hpk] at h1
        have h2 : FTRP (PUT s.mem (bp - 4) (b.size + n.size)) bp = bp + (b.size + n.size) - 8 := by
          unfold FTRP HDRP WSIZE DSIZE; rw [h1]
        unfold coalesce
        simp [hprev, hfp, hpal, hnext, HDRP, WSIZE, hnal, hpa, hna, hnsz, hbsz, ite_nextp_mem,
          ite_nextp_brk, ite_nextp_max, ite_nextp_listp, ite_nextp_count, hpk, h2]
      rw [hco]
      refine ⟨by simp [coalP, hpa], ?_, ?_, by simp [hpa, hna, coalP], rfl, rfl, rfl, rfl⟩
      · have hl : coalL pb b (n :: r) = pb :: ⟨b.size + n.size, false⟩ :: r := by
          simp [coalL, hpa, hnf]
        rw [hl]
        refine ⟨hp8, hpm, ?_, ?_, by simp only []; omega, by simp only []; omega, ?_, ?_, ?_⟩
        · simp only []
          rw [GET_PUT_other _ _ _ _ (by omega), GET_PUT_other _ _ _ _ (by omega)]; exact hph
        · simp only []
          rw [GET_PUT_other _ _ _ _ (by omega), GET_PUT_other _ _ _ _ (by omega), e8]; exact hpf
        · simp only [ebp]
          rw [GET_PUT_other _ _ _ _ (by omega), GET_PUT_same]
          simp only [Blk.word]
          rw [Nat.mod_eq_of_lt (by omega)]; simp
        · simp only [ebp]
          rw [GET_PUT_same]
          simp only [Blk.word]
          rw [Nat.mod_eq_of_lt (by omega)]; simp
        · simp only [ebp]
          have e : bp + (b.size + n.size) = bp + b.size + n.size := by omega
          rw [e]
          exact Seg_PUT_other _ _ _ _ _ (by omega) (by omega)
            (Seg_PUT_other _ _ _ _ _ (by omega) (by omega) hr1)
      · intro x hx
        simp [coalP, hpa, headAlloc, hnf, total] at hx
        simp only []
        rw [PUT_other _ _ _ _ (by omega), PUT_other _ _ _ _ (by omega)]
  · have hpa0 : pb.alloc = false := by simpa using hpa
    by_cases hna : headAlloc rest = true
    · have hpk : PACK (b.size + pb.size) 0 = b.size + pb.size := by
        rw [PACK_eq (b.size + pb.size) 0 (by omega) (by omega) (by omega), Nat.add_zero]
      have hco : coalesce s bp = (bp - pb.size, { s with
          mem := PUT (PUT s.mem (bp + b.size - 8) (b.size + pb.size)) (bp - pb.size - 4)
            (b.size + pb.size),
          heap_nextp := bp - pb.size }) := by
        have h1 : FTRP s.mem bp = bp + b.size - 8 := by
          unfold FTRP HDRP WSIZE DSIZE; rw [hbsz]
        have h2 : PREV_BLKP (PUT s.mem (bp + b.size - 8) (b.size + pb.size)) bp = bp - pb.size := by
          unfold PREV_BLKP DSIZE
          rw [GET_SIZE_PUT_other _ _ _ _ (by omega), word_size _ _ pb hpm hpf]
        have h3 : PREV_BLKP (PUT (PUT s.mem (bp + b.size - 8) (b.size + pb.size))
            (bp - pb.size - 4) (b.size + pb.size)) bp = bp - pb.size := by
          unfold PREV_BLKP DSIZE
          rw [GET_SIZE_PUT_other _ _ _ _ (by omega), GET_SIZE_PUT_other _ _ _ _ (by omega),
            word_size _ _ pb hpm hpf]
        unfold coalesce
        simp [hprev, hfp, hpal, hnext, HDRP, WSIZE, hnal, hpa0, hna, hbsz, hpsz, ite_nextp_mem,
          ite_nextp_brk, ite_nextp_max, ite_nextp_listp, ite_nextp_count, hpk, h1, h2, h3]
      rw [hco]
      refine ⟨by simp [coalP, hpa0], ?_, ?_, by simp [hpa0, coalP], rfl, rfl, rfl, rfl⟩
      · have hl : coalL pb b rest = ⟨b.size + pb.size, false⟩ :: rest := by
          cases rest with
          | nil => simp [coalL, hpa0]
          | cons n r => simp only [headAlloc] at hna; simp [coalL, hpa0, hna]
        rw [hl]
        refine ⟨by simp only []; omega, by simp only []; omega, ?_, ?_, ?_⟩
        · simp only []
          rw [GET_PUT_same]
          simp only [Blk.word]
          rw [Nat.mod_eq_of_lt (by omega)]; simp
        · simp only []
          have e : bp - pb.size + (b.size + pb.size) - 8 = bp + b.size - 8 := by omega
          rw [e, GET_PUT_other _ _ _ _ (by omega), GET_PUT_same]
          simp only [Blk.word]
          rw [Nat.mod_eq_of_lt (by omega)]; simp
        · have e : bp - pb.size + (b.size + pb.size) = bp + b.size := by omega
          simp only [e]
          exact Seg_PUT_other _ _ _ _ _ (by omega) (by omega)
            (Seg_PUT_other _ _ _ _ _ (by omega) (by omega) hr)
      · intro x hx
        simp [coalP, hpa0, hna] at hx
        simp only []
        rw [PUT_other _ _ _ _ (by omega), PUT_other _ _ _ _ (by omega)]
    · obtain ⟨n, r, rfl, hnf⟩ : ∃ n r, rest = n :: r ∧ n.alloc = false := by
        cases rest with
        | nil => simp [headAlloc] at hna
        | cons n r => exact ⟨n, r, rfl, by simpa [headAlloc] using hna⟩
      obtain ⟨hn8, hnm, hnh, hnf1, hr1⟩ := hr
      have hnsz : GET_SIZE s.mem (bp + b.size - 4) = n.size := word_size _ _ n hnm hnh
      have hnsz1 : GET_SIZE s.mem (bp + b.size + n.size - 8) = n.size := word_size _ _ n hnm hnf1
      simp only [total] at hlt hepi
      have hpk : PACK (b.size + (pb.size + n.size)) 0 = b.size + (pb.size + n.size) := by
        rw [PACK_eq (b.size + (pb.size + n.size)) 0 (by omega) (by omega) (by omega), Nat.add_zero]
      have hco : coalesce s bp = (bp - pb.size, { s with
          mem := PUT (PUT s.mem (bp - pb.size - 4) (b.size + (pb.size + n.size)))
            (bp + b.size + n.size - 8) (b.size + (pb.size + n.size)),
          heap_nextp := bp - pb.size }) := by
        have h0 : FTRP s.mem (bp + b.size) = bp + b.size + n.size - 8 := by
          unfold FTRP HDRP WSIZE DSIZE; rw [hnsz]
        have h1 : NEXT_BLKP (PUT s.mem (bp - pb.size - 4) (b.size + (pb.size + n.size))) bp
            = bp + b.size := by
          unfold NEXT_BLKP WSIZE
          rw [GET_SIZE_PUT_other _ _ _ _ (by omega), hbsz]
        have h2 : FTRP (PUT s.mem (bp - pb.size - 4) (b.size + (pb.size + n.size))) (bp + b.size)
            = bp + b.size + n.size - 8 := by
          unfold FTRP HDRP WSIZE DSIZE
          rw [GET_SIZE_PUT_other _ _ _ _ (by omega), hnsz]
        have h3 : PREV_BLKP (PUT (PUT s.mem (bp - pb.size - 4) (b.size + (pb.size + n.size)))
            (bp + b.size + n.size - 8) (b.size + (pb.size + n.size))) bp = bp - pb.size := by
          unfold PREV_BLKP DSIZE
          rw [GET_SIZE_PUT_other _ _ _ _ (by omega), GET_SIZE_PUT_other _ _ _ _ (by omega),
            word_size _ _ pb hpm hpf]
        unfold coalesce
        simp [hprev, hfp, hpal, hnext, HDRP, WSIZE, hnal, hpa0, hna, hbsz, hpsz, ite_nextp_mem,
          ite_nextp_brk, ite_nextp_max, ite_nextp_listp, ite_nextp_count, hpk, h0, h1, h2, h3,
          hnsz1]
      rw [hco]
      refine ⟨by simp [coalP, hpa0], ?_, ?_, by simp [hpa0, coalP], rfl, rfl, rfl, rfl⟩
      · have hl : coalL pb b (n :: r) = ⟨b.size + (pb.size + n.size), false⟩ :: r := by
          simp [coalL, hpa0, hnf]
        rw [hl]
        refine ⟨by simp only []; omega, by simp only []; omega, ?_, ?_, ?_⟩
        · simp only []
          rw [GET_PUT_other _ _ _ _ (by omega), GET_PUT_same]
          simp only [Blk.word]
          rw [Nat.mod_eq_of_lt (by omega)]; simp
        · simp only []
          have e : bp - pb.size + (b.size + (pb.size + n.size)) - 8 = bp + b.size + n.size - 8 := by
            omega
          rw [e, GET_PUT_same]
          simp only [Blk.word]
          rw [Nat.mod_eq_of_lt (by omega)]; simp
        · have e : bp - pb.size + (b.size + (pb.size + n.size)) = bp + b.size + n.size := by omega
          simp only [e]
          exact Seg_PUT_other _ _ _ _ _ (by omega) (by omega)
            (Seg_PUT_other _ _ _ _ _ (by omega) (by omega) hr1)
      · intro x hx
        simp [coalP, hpa0, headAlloc, hnf, total] at hx
        simp only []
        rw [PUT_other _ _ _ _ (by omega), PUT_other _ _ _ _ (by omega)]

theorem total_coalL (pb b : Blk) (rest : List Blk) :
    total (coalL pb b rest) = pb.size + (b.size + total rest) := by
  cases rest with
  | nil =>
    simp only [coalL]
    split_ifs
    · simp only [total]
    · simp only [total]; omega
  | cons n r => simp only [coalL]; split_ifs <;> simp only [total] <;> omega

/-! ## `mm_free` -/

theorem free_seg (s : State) (a p : Nat) (pre : List Blk) (pb b : Blk) (post : List Blk)
    (ha : 4 ≤ a) (hseg : Seg s.mem a (pre ++ pb :: b :: post))
    (hepi : GET s.mem (a + total (pre ++ pb :: b :: post) - 4) = 1)
    (hlt : total (pre ++ pb :: b :: post) < U32) (hp : p = a + total pre + pb.size) :
    Seg (mm_free s p).mem a (pre ++ coalL pb ⟨b.size, false⟩ post) ∧
    GET (mm_free s p).mem (a + total (pre ++ pb :: b :: post) - 4) = 1 ∧
    (∀ x, x < coalP pb p - 4 ∨
        p + b.size + (if headAlloc post then 0 else total (post.take 1)) - 4 ≤ x →
      (mm_free s p).mem x = s.mem x) ∧
    (mm_free s p).heap_nextp =
      (if pb.alloc = true ∧ headAlloc post = true then s.heap_nextp else coalP pb p) ∧
    (mm_free s p).mem_brk = s.mem_brk ∧
    (mm_free s p).mem_max_addr = s.mem_max_addr ∧
    (mm_free s p).heap_listp = s.heap_listp ∧
    (mm_free s p).count = s.count + 1 := by
  rw [Seg_append] at hseg
  obtain ⟨hpre, hmid⟩ := hseg
  have hmid0 := hmid
  obtain ⟨hp8, hpm, hph, hpf, hb8, hbm, hbh, hbf, hr⟩ := hmid
  rw [total_append] at hepi hlt
  simp only [total] at hepi hlt
  have ep : a + total pre + pb.size = p := hp.symm
  rw [ep] at hbh hbf hr
  have hbsz : GET_SIZE s.mem (p - 4) = b.size := word_size _ _ b hbm hbh
  have hpk : PACK b.size 0 = b.size := by
    rw [PACK_eq b.size 0 hbm (by omega) (by omega), Nat.add_zero]
  have hU : U32 = 4294967296 := rfl
  have hsz1 := GET_SIZE_PUT_PACK s.mem (p - 4) b.size 0 hbm (by omega) (by omega)
  rw [hpk] at hsz1
  -- the state after the block has been marked free
  have hfree : mm_free s p = (coalesce { s with
      mem := PUT (PUT s.mem (p - 4) b.size) (p + b.size - 8) b.size,
      count := s.count + 1 } p).2 := by
    unfold mm_free
    simp [HDRP, WSIZE, hbsz, hpk, FTRP, DSIZE, hsz1]
  have hseg2 : Seg (PUT (PUT s.mem (p - 4) b.size) (p + b.size - 8) b.size) (p - pb.size)
      (pb :: ⟨b.size, false⟩ :: post) := by
    have e1 : p - pb.size = a + total pre := by omega
    rw [e1]
    have := Seg_replace s.mem (PUT (PUT s.mem (p - 4) b.size) (p + b.size - 8) b.size)
      (a + total pre) [pb] [b] [⟨b.size, false⟩] post (by omega) (by simpa using hmid0)
      (by
        intro x hx
        simp only [total] at hx
        rw [PUT_other _ _ _ _ (by omega), PUT_other _ _ _ _ (by omega)])
      (by
        simp only [total, Nat.add_zero, ep]
        refine ⟨hb8, hbm, ?_, ?_, trivial⟩
        · simp only [Blk.word]
          rw [GET_PUT_other _ _ _ _ (by omega), GET_PUT_same, Nat.mod_eq_of_lt (by omega)]; simp
        · simp only [Blk.word]
          rw [GET_PUT_same, Nat.mod_eq_of_lt (by omega)]; simp)
      (by simp [total])
    simpa using this
  have hepi2 : GET (PUT (PUT s.mem (p - 4) b.size) (p + b.size - 8) b.size)
      (p + b.size + total post - 4) = 1 := by
    rw [GET_PUT_other _ _ _ _ (by omega), GET_PUT_other _ _ _ _ (by omega), ← hepi]
    congr 1; omega
  obtain ⟨c1, c2, c3, c4, c5, c6, c7, c8⟩ := coalesce_spec { s with
      mem := PUT (PUT s.mem (p - 4) b.size) (p + b.size - 8) b.size,
      count := s.count + 1 } p pb ⟨b.size, false⟩ post (by omega) hseg2 hepi2
      (by simp only []; omega)
  simp only [] at c1 c2 c3 c4 c5 c6 c7 c8
  rw [hfree]
  have hfr : ∀ x, x < coalP pb p - 4 ∨
        p + b.size + (if headAlloc post then 0 else total (post.take 1)) - 4 ≤ x →
      (coalesce { s with
        mem := PUT (PUT s.mem (p - 4) b.size) (p + b.size - 8) b.size,
        count := s.count + 1 } p).2.mem x = s.mem x := by
    intro x hx
    rw [c3 x hx]
    have hc : coalP pb p ≤ p := by unfold coalP; split <;> omega
    rw [PUT_other _ _ _ _ (by omega), PUT_other _ _ _ _ (by omega)]
  have hc : coalP pb p ≤ p ∧ p - pb.size ≤ coalP pb p := by unfold coalP; split <;> omega
  refine ⟨?_, ?_, hfr, c4, c5, c6, c7, c8⟩
  · rw [Seg_append]
    refine ⟨?_, ?_⟩
    · exact Seg_congr _ _ a pre ha (fun x h1 h2 => hfr x (by omega)) hpre
    · have e1 : a + total pre = p - pb.size := by omega
      rw [e1]; exact c2
  · rw [total_append]; simp only [total]
    have hle : (if headAlloc post then 0 else total (post.take 1)) ≤ total post := by
      cases post with
      | nil => simp [total]
      | cons n r => simp [total]; split <;> omega
    exact (GET_congr _ _ _ (fun x h1 h2 => hfr x (by omega))).trans hepi

theorem nadj_left (L T : List Blk) (h : NoAdjFree (L ++ T)) : NoAdjFree L :=
  (List.chain'_append.1 h).1

theorem nadj_right (L T : List Blk) (h : NoAdjFree (L ++ T)) : NoAdjFree T :=
  (List.chain'_append.1 h).2.1

theorem nadj_last (L : List Blk) (x : Blk) (T : List Blk) (h : NoAdjFree (L ++ x :: T))
    (hx : x.alloc = false) : ∀ y ∈ L.getLast?, y.alloc = true := by
  intro y hy
  have h1 := (List.chain'_append.1 h).2.2 y hy x (by simp)
  simpa [hx] using h1

theorem nadj_head (L : List Blk) (x : Blk) (T : List Blk) (h : NoAdjFree (L ++ x :: T))
    (hx : x.alloc = false) : ∀ y ∈ T.head?, y.alloc = true := by
  intro y hy
  have h1 := (List.chain'_cons'.1 (nadj_right L _ h)).1 y hy
  simpa [hx] using h1

theorem nadj_join (L R : List Blk) (f : Blk) (hL : NoAdjFree L) (hR : NoAdjFree R)
    (h1 : ∀ y ∈ L.getLast?, y.alloc = true) (h2 : ∀ y ∈ R.head?, y.alloc = true) :
    NoAdjFree (L ++ f :: R) := by
  apply List.Chain'.append hL
  · exact List.chain'_cons'.2 ⟨fun y hy => Or.inr (h2 y hy), hR⟩
  · intro x hx y hy
    exact Or.inl (h1 x hx)

theorem headAlloc_head (R : List Blk) (h : headAlloc R = true) :
    ∀ y ∈ R.head?, y.alloc = true := by
  cases R with
  | nil => simp
  | cons n r => simpa [headAlloc] using h

theorem headAlloc_false (R : List Blk) (h : ¬ headAlloc R = true) :
    ∃ n r, R = n :: r ∧ n.alloc = false := by
  cases R with
  | nil => simp [headAlloc] at h
  | cons n r => exact ⟨n, r, rfl, by simpa [headAlloc] using h⟩

theorem starts_replace (a : Nat) (L M M1 R : List Blk) (q : Nat) (c : Blk)
    (htot : total M1 = total M) (h : (q, c) ∈ starts a (L ++ M ++ R)) :
    (q, c) ∈ starts a (L ++ M1 ++ R) ∨ (q, c) ∈ starts (a + total L) M := by
  rw [starts_append, starts_append, List.mem_append, List.mem_append] at h
  rw [starts_append, starts_append, List.mem_append, List.mem_append, total_append, htot]
  rw [total_append] at h
  tauto

theorem Heap_same_total (s s1 : State) (bs bs1 : List Blk) (h : Heap s bs)
    (hseg : Seg s1.mem (s.heap_listp - 8) (prologue :: bs1)) (htot : total bs1 = total bs)
    (hepi : GET s1.mem (s.heap_listp + total bs - 4) = 1) (hbrk : s1.mem_brk = s.mem_brk)
    (hmax : s1.mem_max_addr = s.mem_max_addr) (hlp : s1.heap_listp = s.heap_listp)
    (hn : NoAdjFree bs1) (hc : ∃ c, (s1.heap_nextp, c) ∈ starts s.heap_listp bs1) :
    Heap s1 bs1 where
  lo := by rw [hlp]; exact h.lo
  seg := by rw [hlp]; exact hseg
  epi := by rw [hlp, htot]; exact hepi
  brk := by rw [hlp, hbrk, htot]; exact h.brk
  max := by rw [hbrk, hmax]; exact h.max
  lim := by rw [hmax, hlp]; exact h.lim
  nadj := hn
  cur := by rw [hlp]; exact hc

theorem Heap_total_lt (s : State) (bs : List Blk) (h : Heap s bs) : total bs + 16 < U32 := by
  have h1 := h.brk
  have h2 := h.max
  have h3 := h.lim
  omega

theorem mm_free_spec (s : State) (bs : List Blk) (p : Nat) (b : Blk) (h : Heap s bs)
    (hp : (p, b) ∈ starts s.heap_listp bs) :
    ∃ L M1 M2 R, bs = L ++ (M1 ++ b :: M2) ++ R ∧ p = s.heap_listp + total L + total M1 ∧
      (∀ x ∈ M1 ++ M2, x.alloc = false) ∧
      Heap (mm_free s p) (L ++ ⟨total (M1 ++ b :: M2), false⟩ :: R) ∧
      (∀ x, x < s.heap_listp + total L - 4 ∨
          s.heap_listp + total L + total (M1 ++ b :: M2) - 4 ≤ x →
        (mm_free s p).mem x = s.mem x) ∧
      (mm_free s p).heap_nextp =
        (if M1 = [] ∧ M2 = [] then s.heap_nextp else s.heap_listp + total L) ∧
      (mm_free s p).mem_brk = s.mem_brk ∧ (mm_free s p).mem_max_addr = s.mem_max_addr ∧
      (mm_free s p).heap_listp = s.heap_listp ∧ (mm_free s p).count = s.count + 1 := by
  obtain ⟨pre, post, rfl, hpp⟩ := mem_starts_split _ _ _ _ hp
  have hlo := h.lo
  have htl := Heap_total_lt s _ h
  have hU : U32 = 4294967296 := rfl
  obtain ⟨pre1, pb, hpre1⟩ : ∃ pre1 pb, prologue :: pre = pre1 ++ [pb] := by
    rcases List.eq_nil_or_concat pre with rfl | ⟨L, x, rfl⟩
    · exact ⟨[], prologue, rfl⟩
    · exact ⟨prologue :: L, x, by simp⟩
  have hF : prologue :: (pre ++ b :: post) = pre1 ++ pb :: b :: post := by
    rw [← List.cons_append, hpre1]; simp
  have htp : 8 + total pre = total pre1 + pb.size := by
    have h1 := congrArg total hpre1
    simp only [total, total_append, prologue] at h1; omega
  have htF : total (pre1 ++ pb :: b :: post) = 8 + total (pre ++ b :: post) := by
    rw [← hF]; simp [total, prologue]
  have hseg := h.seg
  rw [hF] at hseg
  have hepi : GET s.mem (s.heap_listp - 8 + total (pre1 ++ pb :: b :: post) - 4) = 1 := by
    rw [htF, ← h.epi]; congr 1; omega
  obtain ⟨k1, k2, k3, k4, k5, k6, k7, k8⟩ := free_seg s (s.heap_listp - 8) p pre1 pb b post
    (by omega) hseg hepi (by rw [htF]; omega) (by omega)
  have hepi1 : GET (mm_free s p).mem (s.heap_listp + total (pre ++ b :: post) - 4) = 1 := by
    rw [← k2, htF]; congr 1; omega
  have hnadj := h.nadj
  have hbt : total (pre ++ b :: post) = total pre + (b.size + total post) := by
    simp [total_append, total]
  by_cases hpa : pb.alloc = true
  · have hcp : coalP pb p = p := by simp [coalP, hpa]
    have hlast : ∀ y ∈ pre.getLast?, y.alloc = true := by
      rcases List.eq_nil_or_concat pre with rfl | ⟨L, x, rfl⟩
      · simp
      · simp only [List.concat_eq_append, ← List.cons_append] at hpre1
        have h1 := List.append_inj' hpre1 rfl
        simp only [List.cons.injEq, and_true] at h1
        intro y hy
        simp only [List.concat_eq_append, List.getLast?_concat, Option.mem_def,
          Option.some.injEq] at hy
        rw [← hy, h1.2]; exact hpa
    by_cases hna : headAlloc post = true
    · refine ⟨pre, [], [], post, by simp, by simp [total, hpp], by simp, ?_, ?_, ?_, k5, k6, k7, k8⟩
      · have hl : coalL pb ⟨b.size, false⟩ post = pb :: ⟨b.size, false⟩ :: post := by
          cases post with
          | nil => simp [coalL, hpa]
          | cons n r => simp only [headAlloc] at hna; simp [coalL, hpa, hna]
        rw [hl] at k1
        have e1 : pre1 ++ pb :: ⟨b.size, false⟩ :: post
            = prologue :: (pre ++ ⟨b.size, false⟩ :: post) := by
          rw [← List.cons_append, hpre1]; simp
        rw [e1] at k1
        refine Heap_same_total s _ _ _ h (by simpa [total] using k1)
          (by simp [total_append, total]) hepi1 k5 k6 k7 ?_ ?_
        · simp only [List.nil_append, total, Nat.add_zero]
          exact nadj_join _ _ _ (nadj_left _ _ hnadj)
            (List.chain'_cons'.1 (nadj_right _ _ hnadj)).2 hlast (headAlloc_head _ hna)
        · rw [k4]; simp only [hpa, hna, and_self, if_true]
          obtain ⟨c, hc⟩ := h.cur
          have h2 := starts_replace s.heap_listp pre [b] [⟨b.size, false⟩] post _ c
            (by simp [total]) (by simpa using hc)
          rcases h2 with h2 | h2
          · exact ⟨c, by simpa [total] using h2⟩
          · simp only [starts, List.mem_singleton, Prod.mk.injEq] at h2
            refine ⟨⟨b.size, false⟩, ?_⟩
            rw [h2.1]
            simpa [total] using mem_starts_mid s.heap_listp pre post ⟨b.size, false⟩
      · intro x hx
        apply k3
        rw [hcp, if_pos hna]
        simp only [total, List.nil_append, Nat.add_zero] at hx
        omega
      · rw [k4]; simp [hpa, hna]
    · obtain ⟨n, r, rfl, hnf⟩ := headAlloc_false post hna
      refine ⟨pre, [], [n], r, by simp, by simp [total, hpp], by simpa using hnf, ?_, ?_, ?_,
        k5, k6, k7, k8⟩
      · have hl : coalL pb ⟨b.size, false⟩ (n :: r) = pb :: ⟨b.size + n.size, false⟩ :: r := by
          simp [coalL, hpa, hnf]
        rw [hl] at k1
        have e1 : pre1 ++ pb :: ⟨b.size + n.size, false⟩ :: r
            = prologue :: (pre ++ ⟨b.size + n.size, false⟩ :: r) := by
          rw [← List.cons_append, hpre1]; simp
        rw [e1] at k1
        refine Heap_same_total s _ _ _ h (by simpa [total] using k1)
          (by simp [total_append, total]; omega) hepi1 k5 k6 k7 ?_ ?_
        · simp only [List.nil_append, total, Nat.add_zero]
          have h3 : NoAdjFree ((pre ++ [b]) ++ n :: r) := by simpa using hnadj
          exact nadj_join _ _ _ (nadj_left _ _ hnadj)
            (List.chain'_cons'.1 (nadj_right _ _ h3)).2 hlast (nadj_head _ _ _ h3 hnf)
        · rw [k4]; simp only [hna, and_false, if_false, hcp]
          refine ⟨⟨b.size + n.size, false⟩, ?_⟩
          rw [hpp]
          simpa [total] using mem_starts_mid s.heap_listp pre r ⟨b.size + n.size, false⟩
      · intro x hx
        apply k3
        rw [hcp, if_neg hna]
        simp only [total, List.nil_append, Nat.add_zero, List.take] at hx ⊢
        omega
      · rw [k4, hcp]; simp [hna, hpp]
  · have hpf : pb.alloc = false := by simpa using hpa
    have hcp : coalP pb p = p - pb.size := by simp [coalP, hpf]
    obtain ⟨pre0, rfl, hpre0⟩ : ∃ pre0, pre = pre0 ++ [pb] ∧ pre1 = prologue :: pre0 := by
      rcases List.eq_nil_or_concat pre with rfl | ⟨L, x, rfl⟩
      · have h1 := List.append_inj' (show [] ++ [prologue] = pre1 ++ [pb] from hpre1) rfl
        simp only [List.cons.injEq, and_true] at h1
        rw [← h1.2] at hpf; simp [prologue] at hpf
      · simp only [List.concat_eq_append, ← List.cons_append] at hpre1
        have h1 := List.append_inj' hpre1 rfl
        simp only [List.cons.injEq, and_true] at h1
        exact ⟨L, by simp [h1.2], h1.1.symm⟩
    subst hpre0
    have htp0 : total (pre0 ++ [pb]) = total pre0 + pb.size := by simp [total_append, total]
    have h3 : NoAdjFree (pre0 ++ pb :: b :: post) := by simpa using hnadj
    have hlast : ∀ y ∈ pre0.getLast?, y.alloc = true := nadj_last _ _ _ h3 hpf
    by_cases hna : headAlloc post = true
    · refine ⟨pre0, [pb], [], post, by simp, by simp [total, hpp, htp0]; omega,
        by simpa using hpf, ?_, ?_, ?_, k5, k6, k7, k8⟩
      · have hl : coalL pb ⟨b.size, false⟩ post = ⟨b.size + pb.size, false⟩ :: post := by
          cases post with
          | nil => simp [coalL, hpf]
          | cons n r => simp only [headAlloc] at hna; simp [coalL, hpf, hna]
        rw [hl] at k1
        have e2 : total ([pb] ++ b :: []) = b.size + pb.size := by simp [total]; omega
        rw [e2]
        refine Heap_same_total s _ _ _ h (by simpa [total] using k1)
          (by simp [total_append, total]; omega) hepi1 k5 k6 k7 ?_ ?_
        · have h4 : NoAdjFree ((pre0 ++ [pb]) ++ b :: post) := hnadj
          exact nadj_join _ _ _ (nadj_left _ _ h3)
            (List.chain'_cons'.1 (nadj_right _ _ h4)).2 hlast (headAlloc_head _ hna)
        · rw [k4]; simp only [hpf, Bool.false_eq_true, false_and, if_false, hcp]
          refine ⟨⟨b.size + pb.size, false⟩, ?_⟩
          have e3 : p - pb.size = s.heap_listp + total pre0 := by omega
          rw [e3]
          exact mem_starts_mid s.heap_listp pre0 post ⟨b.size + pb.size, false⟩
      · intro x hx
        apply k3
        rw [hcp, if_pos hna]
        simp only [total, List.singleton_append, Nat.add_zero] at hx ⊢
        omega
      · rw [k4, hcp]; simp [hpf]; omega
    · obtain ⟨n, r, rfl, hnf⟩ := headAlloc_false post hna
      refine ⟨pre0, [pb], [n], r, by simp, by simp [total, hpp, htp0]; omega,
        by simp [hpf, hnf], ?_, ?_, ?_, k5, k6, k7, k8⟩
      · have hl : coalL pb ⟨b.size, false⟩ (n :: r)
            = ⟨b.size + (pb.size + n.size), false⟩ :: r := by
          simp [coalL, hpf, hnf]
        rw [hl] at k1
        have e2 : total ([pb] ++ b :: [n]) = b.size + (pb.size + n.size) := by
          simp [total]; omega
        rw [e2]
        refine Heap_same_total s _ _ _ h (by simpa [total] using k1)
          (by simp [total_append, total]; omega) hepi1 k5 k6 k7 ?_ ?_
        · have h4 : NoAdjFree ((pre0 ++ [pb, b]) ++ n :: r) := by simpa using hnadj
          exact nadj_join _ _ _ (nadj_left _ _ h3)
            (List.chain'_cons'.1 (nadj_right _ _ h4)).2 hlast (nadj_head _ _ _ h4 hnf)
        · rw [k4]; simp only [hpf, Bool.false_eq_true, false_and, if_false, hcp]
          refine ⟨⟨b.size + (pb.size + n.size), false⟩, ?_⟩
          have e3 : p - pb.size = s.heap_listp + total pre0 := by omega
          rw [e3]
          exact mem_starts_mid s.heap_listp pre0 r ⟨b.size + (pb.size + n.size), false⟩
      · intro x hx
        apply k3
        rw [hcp, if_neg hna]
        simp only [total, List.singleton_append, Nat.add_zero, List.take] at hx ⊢
        omega
      · rw [k4, hcp]; simp [hpf]; omega

/-! ## Writes into a payload -/

theorem Heap_payload_write (s : State) (bs : List Blk) (m1 : Mem) (p : Nat) (b : Blk)
    (h : Heap s bs) (hp : (p, b) ∈ starts s.heap_listp bs)
    (hfr : ∀ x, x < p ∨ p + b.size - 8 ≤ x → m1 x = s.mem x) :
    Heap { s with mem := m1 } bs := by
  obtain ⟨pre, post, rfl, hpp⟩ := mem_starts_split _ _ _ _ hp
  have hlo := h.lo
  have hseg := h.seg
  have e : prologue :: (pre ++ b :: post) = (prologue :: pre) ++ [b] ++ post := by simp
  have hb : Seg s.mem (s.heap_listp - 8 + total (prologue :: pre)) [b] := by
    rw [e, Seg_append, Seg_append] at hseg; exact hseg.1.2
  have e2 : s.heap_listp - 8 + total (prologue :: pre) = p := by
    simp only [total, prologue]; omega
  rw [e2] at hb
  obtain ⟨hb8, hbm, hbh, hbf, -⟩ := hb
  refine Heap_same_total s _ _ _ h ?_ rfl ?_ rfl rfl rfl h.nadj h.cur
  · rw [e]
    rw [e] at hseg
    refine Seg_replace s.mem m1 _ _ [b] [b] _ (by omega) hseg
      (fun x hx => hfr x (by rw [e2] at hx; simp only [total] at hx; omega)) ?_ rfl
    rw [e2]
    refine ⟨hb8, hbm, ?_, ?_, trivial⟩
    · rw [← hbh]; exact GET_congr _ _ _ (fun x h1 h2 => hfr x (by omega))
    · rw [← hbf]; exact GET_congr _ _ _ (fun x h1 h2 => hfr x (by omega))
  · rw [← h.epi]
    refine GET_congr _ _ _ (fun x h1 h2 => hfr x ?_)
    rw [total_append] at h1; simp only [total] at h1; omega

/-! ## The adjusted size -/

theorem adjust_spec (n : Nat) (h0 : 0 < n) (hn : n ≤ 2 ^ 31 - 16) :
    adjust n % 8 = 0 ∧ 16 ≤ adjust n ∧ n + 8 ≤ adjust n ∧ adjust n ≤ n + 15 ∧
      adjust n ≤ 2 ^ 31 - 8 := by
  have h31 : (2 : Nat) ^ 31 = 2147483648 := by norm_num
  rw [h31] at hn ⊢
  unfold adjust DSIZE U32
  split
  · omega
  · have e1 : (n + 8 + (8 - 1)) % 4294967296 = n + 15 := by omega
    have e2 : (8 * ((n + 15) / 8)) % 4294967296 = 8 * ((n + 15) / 8) := by omega
    rw [e1, e2]
    omega

theorem extendsize_eq (asize : Nat) (h : asize ≤ 2 ^ 31 - 8) :
    (MAX (toInt32 asize) (CHUNKSIZE : Int)).toNat = max asize 4096 := by
  have h31 : (2 : Nat) ^ 31 = 2147483648 := by norm_num
  rw [h31] at h
  have e1 : asize % 4294967296 = asize := by omega
  have e2 : toInt32 asize = (asize : Int) := by
    unfold toInt32 U32
    rw [e1, if_pos (by omega)]
  rw [e2]
  unfold MAX CHUNKSIZE
  split
  · rename_i hgt
    have h1 : 4096 < asize := by exact_mod_cast hgt
    rw [Int.toNat_ofNat]; omega
  · rename_i hgt
    have h1 : ¬ 4096 < asize := by intro hc; apply hgt; exact_mod_cast hc
    have h2 : ((4096 : Nat) : Int).toNat = 4096 := Int.toNat_ofNat 4096
    simp only [Nat.cast_ofNat] at h2 ⊢
    rw [h2]; omega

/-! ## `extend_heap` -/

theorem PACK_epilogue : PACK 0 1 = 1 := by
  rw [PACK_eq 0 1 (by omega) (by unfold U32; omega) (by omega)]

theorem extend_heap_fail (s : State) (words : Nat) (hw2 : words % 2 = 0)
    (hlt : words * 4 < U32) (hfail : s.mem_max_addr < s.mem_brk + words * 4) :
    extend_heap s words = (none, s) := by
  have hU : U32 = 4294967296 := rfl
  have e1 : words % U32 = words := Nat.mod_eq_of_lt (by omega)
  have e2 : (words * 4) % U32 = words * 4 := Nat.mod_eq_of_lt hlt
  unfold extend_heap mem_sbrk
  simp only [e1, hw2, WSIZE, e2]
  simp [hfail]

theorem extend_seg (s : State) (a : Nat) (pre : List Blk) (pb : Blk) (words : Nat)
    (ha : 4 ≤ a) (hseg : Seg s.mem a (pre ++ [pb])) (hbrk : s.mem_brk = a + total (pre ++ [pb]))
    (hw2 : words % 2 = 0) (hw : 2 ≤ words) (hlt : total (pre ++ [pb]) + words * 4 < U32)
    (hfit : s.mem_brk + words * 4 ≤ s.mem_max_addr) :
    (extend_heap s words).1 = some (coalP pb s.mem_brk) ∧
    Seg (extend_heap s words).2.mem a (pre ++ coalL pb ⟨words * 4, false⟩ []) ∧
    GET (extend_heap s words).2.mem (s.mem_brk + words * 4 - 4) = 1 ∧
    (∀ x, x < coalP pb s.mem_brk - 4 → (extend_heap s words).2.mem x = s.mem x) ∧
    (extend_heap s words).2.heap_nextp =
      (if pb.alloc = true then s.heap_nextp else coalP pb s.mem_brk) ∧
    (extend_heap s words).2.mem_brk = s.mem_brk + words * 4 ∧
    (extend_heap s words).2.mem_max_addr = s.mem_max_addr ∧
    (extend_heap s words).2.heap_listp = s.heap_listp ∧
    (extend_heap s words).2.count = s.count := by
  have hU : U32 = 4294967296 := rfl
  rw [total_append] at hbrk hlt
  simp only [total, Nat.add_zero] at hbrk hlt
  rw [Seg_append] at hseg
  obtain ⟨hpre, hp8, hpm, hph, hpf, -⟩ := hseg
  have e1 : words % U32 = words := Nat.mod_eq_of_lt (by omega)
  have e2 : (words * 4) % U32 = words * 4 := Nat.mod_eq_of_lt (by omega)
  have hpk : PACK (words * 4) 0 = words * 4 := by
    rw [PACK_eq (words * 4) 0 (by omega) (by omega) (by omega), Nat.add_zero]
  have h1 := GET_SIZE_PUT_PACK s.mem (s.mem_brk - 4) (words * 4) 0 (by omega) (by omega)
    (by omega)
  rw [hpk] at h1
  have h2 : FTRP (PUT s.mem (s.mem_brk - 4) (words * 4)) s.mem_brk
      = s.mem_brk + words * 4 - 8 := by
    unfold FTRP HDRP WSIZE DSIZE; rw [h1]
  have h3 : NEXT_BLKP (PUT (PUT s.mem (s.mem_brk - 4) (words * 4))
      (s.mem_brk + words * 4 - 8) (words * 4)) s.mem_brk = s.mem_brk + words * 4 := by
    unfold NEXT_BLKP WSIZE
    rw [GET_SIZE_PUT_other _ _ _ _ (by omega), h1]
  have hext : extend_heap s words =
      (some (coalesce { s with
        mem := PUT (PUT (PUT s.mem (s.mem_brk - 4) (words * 4))
          (s.mem_brk + words * 4 - 8) (words * 4)) (s.mem_brk + words * 4 - 4) 1,
        mem_brk := s.mem_brk + words * 4 } s.mem_brk).1,
       (coalesce { s with
        mem := PUT (PUT (PUT s.mem (s.mem_brk - 4) (words * 4))
          (s.mem_brk + words * 4 - 8) (words * 4)) (s.mem_brk + words * 4 - 4) 1,
        mem_brk := s.mem_brk + words * 4 } s.mem_brk).2) := by
    unfold extend_heap mem_sbrk
    simp only [e1, hw2, WSIZE, e2]
    have hnf : ¬ (s.mem_brk + words * 4 > s.mem_max_addr) := by omega
    simp [hnf, HDRP, WSIZE, hpk, h2, h3, PACK_epilogue]
  have e3 : a + total pre = s.mem_brk - pb.size := by omega
  rw [e3] at hph hpf
  obtain ⟨c1, c2, c3, c4, c5, c6, c7, c8⟩ := coalesce_spec { s with
      mem := PUT (PUT (PUT s.mem (s.mem_brk - 4) (words * 4))
        (s.mem_brk + words * 4 - 8) (words * 4)) (s.mem_brk + words * 4 - 4) 1,
      mem_brk := s.mem_brk + words * 4 } s.mem_brk pb ⟨words * 4, false⟩ [] (by omega)
    (by
      have e4 : s.mem_brk - pb.size + pb.size = s.mem_brk := by omega
      refine ⟨hp8, hpm, ?_, ?_, by simp only []; omega, by simp only []; omega, ?_, ?_, trivial⟩
      · simp only []
        rw [GET_PUT_other _ _ _ _ (by omega), GET_PUT_other _ _ _ _ (by omega),
          GET_PUT_other _ _ _ _ (by omega)]
        exact hph
      · simp only []
        rw [GET_PUT_other _ _ _ _ (by omega), GET_PUT_other _ _ _ _ (by omega),
          GET_PUT_other _ _ _ _ (by omega)]
        exact hpf
      · simp only [e4, Blk.word]
        rw [GET_PUT_other _ _ _ _ (by omega), GET_PUT_other _ _ _ _ (by omega), GET_PUT_same,
          Nat.mod_eq_of_lt (by omega)]
        simp
      · simp only [e4, Blk.word]
        rw [GET_PUT_other _ _ _ _ (by omega), GET_PUT_same, Nat.mod_eq_of_lt (by omega)]
        simp)
    (by
      simp only [total, Nat.add_zero]
      rw [GET_PUT_same]; unfold U32; rfl)
    (by simp only [total]; omega)
  simp only [] at c1 c2 c3 c4 c5 c6 c7 c8
  have hc : coalP pb s.mem_brk ≤ s.mem_brk ∧ s.mem_brk - pb.size ≤ coalP pb s.mem_brk := by
    unfold coalP; split <;> omega
  have hfr : ∀ x, x < coalP pb s.mem_brk - 4 → (extend_heap s words).2.mem x = s.mem x := by
    intro x hx
    rw [hext]; simp only []
    rw [c3 x (Or.inl hx), PUT_other _ _ _ _ (by omega), PUT_other _ _ _ _ (by omega),
      PUT_other _ _ _ _ (by omega)]
  refine ⟨by rw [hext]; simp only []; rw [c1], ?_, ?_, hfr, ?_, by rw [hext]; exact c5,
    by rw [hext]; exact c6, by rw [hext]; exact c7, by rw [hext]; exact c8⟩
  · rw [Seg_append]
    refine ⟨Seg_congr _ _ a pre ha (fun x h1 h2 => hfr x (by omega)) hpre, ?_⟩
    rw [e3, hext]; exact c2
  · rw [hext]; simp only []
    rw [GET_congr _ _ _ (fun x h1 h2 => c3 x (Or.inr (by simp [headAlloc]; omega))), GET_PUT_same]
    unfold U32; rfl
  · rw [hext]; simp only []
    rw [c4]; simp [headAlloc]

/-! ## `mm_init` -/

/-- The state in which `mm_init` calls `extend_heap`. -/
theorem mm_init_unfold (s0 : State) (h16 : s0.mem_brk + 16 ≤ s0.mem_max_addr) :
    mm_init s0 =
      match extend_heap { s0 with
          mem := PUT (PUT (PUT (PUT s0.mem s0.mem_brk 0) (s0.mem_brk + 4) 9) (s0.mem_brk + 8) 9)
            (s0.mem_brk + 12) 1,
          mem_brk := s0.mem_brk + 16,
          heap_listp := s0.mem_brk + 8 } 1024 with
      | (none, _) => none
      | (some _, s8) =>
        some { s8 with heap_listp := s8.heap_listp + 8, heap_nextp := s8.heap_listp + 8 } := by
  have hpk : PACK DSIZE 1 = 9 := by
    rw [PACK_eq DSIZE 1 (by unfold DSIZE; omega) (by unfold DSIZE U32; omega) (by omega)]
    rfl
  have hnf : ¬ (s0.mem_brk + 16 > s0.mem_max_addr) := by omega
  unfold mm_init mem_sbrk
  simp only [WSIZE, Nat.reduceMul, hnf, if_false, hpk, PACK_epilogue, CHUNKSIZE, Nat.reduceDiv,
    Nat.one_mul]

theorem mm_init_fail (s0 : State) (hlim : s0.mem_max_addr < s0.mem_brk + 4112) :
    mm_init s0 = none := by
  by_cases h16 : s0.mem_brk + 16 ≤ s0.mem_max_addr
  · rw [mm_init_unfold s0 h16, extend_heap_fail _ 1024 (by omega) (by unfold U32; omega)
      (by simp only []; omega)]
  · unfold mm_init mem_sbrk
    have hf : s0.mem_brk + 4 * WSIZE > s0.mem_max_addr := by unfold WSIZE; omega
    simp [hf]

theorem mm_init_spec (s0 : State) (hlim : s0.mem_max_addr < s0.mem_brk + U32)
    (hfit : s0.mem_brk + 4112 ≤ s0.mem_max_addr) :
    ∃ s, mm_init s0 = some s ∧ Heap s [⟨4096, false⟩] ∧ s.heap_listp = s0.mem_brk + 16 ∧
      s.heap_nextp = s0.mem_brk + 16 ∧ s.mem_brk = s0.mem_brk + 4112 ∧
      s.mem_max_addr = s0.mem_max_addr ∧ s.count = s0.count ∧
      (∀ x, x < s0.mem_brk → s.mem x = s0.mem x) := by
  have hU : U32 = 4294967296 := rfl
  obtain ⟨c1, c2, c3, c4, c5, c6, c7, c8, c9⟩ := extend_seg { s0 with
      mem := PUT (PUT (PUT (PUT s0.mem s0.mem_brk 0) (s0.mem_brk + 4) 9) (s0.mem_brk + 8) 9)
        (s0.mem_brk + 12) 1,
      mem_brk := s0.mem_brk + 16,
      heap_listp := s0.mem_brk + 8 } (s0.mem_brk + 8) [] prologue 1024 (by omega)
    (by
      have e1 : s0.mem_brk + 8 - 4 = s0.mem_brk + 4 := by omega
      have e2 : s0.mem_brk + 8 + 8 - 8 = s0.mem_brk + 8 := by omega
      refine ⟨by simp [prologue], by simp [prologue], ?_, ?_, trivial⟩
      · simp only [prologue, Blk.word, if_true, e1]
        rw [GET_PUT_other _ _ _ _ (by omega), GET_PUT_other _ _ _ _ (by omega), GET_PUT_same]
        unfold U32; rfl
      · simp only [prologue, Blk.word, if_true, e2]
        rw [GET_PUT_other _ _ _ _ (by omega), GET_PUT_same]
        unfold U32; rfl)
    (by simp [total, prologue]) (by omega) (by omega)
    (by simp only [List.nil_append, total, prologue]; omega) (by simp only []; omega)
  simp only [] at c1 c2 c3 c4 c5 c6 c7 c8 c9
  have hcp : coalP prologue (s0.mem_brk + 16) = s0.mem_brk + 16 := by simp [coalP, prologue]
  have hcl : coalL prologue ⟨1024 * 4, false⟩ [] = [prologue, ⟨4096, false⟩] := by
    simp [coalL, prologue]
  rw [hcp] at c1 c4
  rw [hcl] at c2
  rw [mm_init_unfold s0 (by omega)]
  rcases hx : extend_heap { s0 with
      mem := PUT (PUT (PUT (PUT s0.mem s0.mem_brk 0) (s0.mem_brk + 4) 9) (s0.mem_brk + 8) 9)
        (s0.mem_brk + 12) 1,
      mem_brk := s0.mem_brk + 16,
      heap_listp := s0.mem_brk + 8 } 1024 with ⟨r, s8⟩
  rw [hx] at c1 c2 c3 c4 c5 c6 c7 c8 c9
  simp only [] at c1 c2 c3 c4 c5 c6 c7 c8 c9
  subst c1
  simp only []
  refine ⟨_, rfl, ?_, by simp [c8], by simp [c8], by simp [c6], by simp [c7], by simp [c9], ?_⟩
  · refine ⟨by simp [c8], ?_, ?_, ?_, ?_, ?_, ?_, ?_⟩
    · simpa [c8] using c2
    · simp only [c8, total, Nat.add_zero]
      rw [← c3]
    · simp [c6, c8, total]
    · simp only [c6, c7]; omega
    · simp only [c7, c8]; omega
    · exact List.chain'_singleton _
    · exact ⟨⟨4096, false⟩, by simp [c8, starts]⟩
  · intro x hx1
    simp only []
    rw [c4 x (by omega), PUT_other _ _ _ _ (by omega), PUT_other _ _ _ _ (by omega),
      PUT_other _ _ _ _ (by omega), PUT_other _ _ _ _ (by omega)]

/-! ## `find_fit` on a well-formed heap -/

theorem Seg_length (m : Mem) (a : Nat) (bs : List Blk) (h : Seg m a bs) :
    8 * bs.length ≤ total bs := by
  induction bs generalizing a with
  | nil => simp [total]
  | cons b bs ih =>
    have h1 := ih _ h.2.2.2.2
    have h2 := h.1
    simp only [List.length_cons, total]; omega

theorem Heap_count (s : State) (bs : List Blk) (c : Nat) (h : Heap s bs) :
    Heap { s with count := c } bs :=
  ⟨h.lo, h.seg, h.epi, h.brk, h.max, h.lim, h.nadj, h.cur⟩

theorem Heap_seg_from (s : State) (pre post : List Blk) (h : Heap s (pre ++ post)) :
    Seg s.mem (s.heap_listp + total pre) post := by
  have h1 := h.seg
  have h2 := h.lo
  have e : prologue :: (pre ++ post) = (prologue :: pre) ++ post := by simp
  rw [e, Seg_append] at h1
  have e2 : s.heap_listp - 8 + total (prologue :: pre) = s.heap_listp + total pre := by
    simp only [total, prologue]; omega
  rw [e2] at h1
  exact h1.2

theorem find_fit_spec (s : State) (bs : List Blk) (asize : Nat) (h : Heap s bs)
    (ha : asize < U32) :
    ∃ pre post, bs = pre ++ post ∧ s.heap_nextp = s.heap_listp + total pre ∧
      ((∃ q f R, post = q ++ f :: R ∧ (∀ x ∈ q, x.alloc = true ∨ x.size < asize) ∧
          f.alloc = false ∧ asize ≤ f.size ∧
          find_fit s asize = some (some (s.heap_listp + total (pre ++ q)),
            { s with heap_nextp := s.heap_listp + total (pre ++ q) })) ∨
       ((∀ x ∈ post, x.alloc = true ∨ x.size < asize) ∧ find_fit s asize = some (none, s))) := by
  obtain ⟨c, hc⟩ := h.cur
  obtain ⟨pre, post1, rfl, hcp⟩ := mem_starts_split _ _ _ _ hc
  refine ⟨pre, c :: post1, rfl, hcp, ?_⟩
  have hseg := Heap_seg_from s pre (c :: post1) h
  have hlen := Seg_length _ _ _ h.seg
  have hbrk := h.brk
  have hlo := h.lo
  have hepi := h.epi
  rw [total_append] at hepi hbrk
  simp only [total] at hbrk
  simp only [List.length_cons, List.length_append, total, total_append, prologue] at hlen
  have e1 : asize % U32 = asize := Nat.mod_eq_of_lt ha
  rw [← hcp] at hseg
  rcases find_fit_loop_spec s.mem asize (c :: post1) s.heap_nextp s.mem_brk hseg
      (by rw [← hepi]; congr 1; omega)
      (by simp only [List.length_cons]; omega) with
    ⟨q, f, R, e, hq, hf, hfs, hres⟩ | ⟨hall, hres⟩
  · left
    refine ⟨q, f, R, e, hq, hf, hfs, ?_⟩
    unfold find_fit
    rw [e1, hres]
    simp only [total_append]
    rw [hcp, Nat.add_assoc]
  · right
    refine ⟨hall, ?_⟩
    unfold find_fit
    rw [e1, hres]

theorem total_placeL (f : Blk) (asize : Nat) (h : asize ≤ f.size) (h1 : asize % 8 = 0)
    (h2 : f.size % 8 = 0) : total (placeL f asize) = f.size := by
  unfold placeL
  split <;> simp only [total] <;> omega

theorem nadj_place (L R : List Blk) (f : Blk) (asize : Nat) (hL : NoAdjFree L)
    (hR : NoAdjFree R) (hh : ∀ y ∈ R.head?, y.alloc = true) :
    NoAdjFree (L ++ placeL f asize ++ R) := by
  unfold placeL
  split
  · rw [List.append_assoc]
    apply List.Chain'.append hL
    · exact List.chain'_cons'.2 ⟨fun y _ => Or.inl rfl, hR⟩
    · intro x _ y hy
      simp only [List.singleton_append, List.head?_cons, Option.mem_def,
        Option.some.injEq] at hy
      subst hy; exact Or.inr rfl
  · rw [List.append_assoc]
    apply List.Chain'.append hL
    · refine List.chain'_cons'.2 ⟨fun y _ => Or.inl rfl, ?_⟩
      exact List.chain'_cons'.2 ⟨fun y hy => Or.inr (hh y hy), hR⟩
    · intro x _ y hy
      simp only [List.cons_append, List.head?_cons, Option.mem_def, Option.some.injEq] at hy
      subst hy; exact Or.inr rfl

/-! ## `place` and `extend_heap` on a well-formed heap -/

theorem place_heap (s : State) (L R : List Blk) (f : Blk) (asize : Nat)
    (h : Heap s (L ++ f :: R)) (hf : f.alloc = false) (ha8 : asize % 8 = 0) (ha : 8 ≤ asize)
    (hfit : asize ≤ f.size) (hlt : asize + 8 < U32) :
    Heap (place s (s.heap_listp + total L) asize) (L ++ placeL f asize ++ R) ∧
    (∀ x, x < s.heap_listp + total L - 4 ∨ s.heap_listp + total L + f.size - 4 ≤ x →
      (place s (s.heap_listp + total L) asize).mem x = s.mem x) := by
  obtain ⟨f1, f2, f3, f4, f5⟩ := place_fields s (s.heap_listp + total L) asize
  have hlo := h.lo
  have hsegf := Heap_seg_from s L (f :: R) h
  have hf8 : f.size % 8 = 0 := hsegf.2.1
  have hsf : Seg s.mem (s.heap_listp + total L) [f] :=
    ⟨hsegf.1, hsegf.2.1, hsegf.2.2.1, hsegf.2.2.2.1, trivial⟩
  obtain ⟨p1, p2⟩ := place_spec s (s.heap_listp + total L) asize f (by omega) hsf ha8 ha hfit hlt
  refine ⟨?_, p2⟩
  have htot := total_placeL f asize hfit ha8 hf8
  have e : prologue :: (L ++ f :: R) = (prologue :: L) ++ [f] ++ R := by simp
  have e1 : prologue :: (L ++ placeL f asize ++ R) = (prologue :: L) ++ placeL f asize ++ R := by
    simp
  have e2 : s.heap_listp - 8 + total (prologue :: L) = s.heap_listp + total L := by
    simp only [total, prologue]; omega
  have hnadj := h.nadj
  refine Heap_same_total s _ _ _ h ?_ ?_ ?_ f1 f2 f3 ?_ ?_
  · rw [e1]
    have hseg := h.seg
    rw [e] at hseg
    refine Seg_replace s.mem _ _ _ [f] _ _ (by omega) hseg ?_ (by rw [e2]; exact p1)
      (by rw [htot]; simp [total])
    intro x hx
    rw [e2] at hx; simp only [total, Nat.add_zero] at hx
    exact p2 x hx
  · simp only [total_append, htot, total]; omega
  · rw [← h.epi]
    refine GET_congr _ _ _ (fun x h1 h2 => p2 x ?_)
    rw [total_append] at h1; simp only [total] at h1; omega
  · exact nadj_place L R f asize (nadj_left _ _ hnadj)
      (List.chain'_cons'.1 (nadj_right _ _ hnadj)).2 (nadj_head _ _ _ hnadj hf)
  · rw [f4]
    obtain ⟨c, hc⟩ := h.cur
    have h2 := starts_replace s.heap_listp L [f] (placeL f asize) R _ c
      (by rw [htot]; simp [total]) (by simpa using hc)
    rcases h2 with h2 | h2
    · exact ⟨c, h2⟩
    · simp only [starts, List.mem_singleton, Prod.mk.injEq] at h2
      refine ⟨⟨asize, true⟩, ?_⟩
      rw [h2.1, starts_append, starts_append]
      apply List.mem_append_left
      apply List.mem_append_right
      unfold placeL; split <;> simp [starts]

theorem extend_heap_heap (s : State) (bs : List Blk) (words : Nat) (h : Heap s bs)
    (hw2 : words % 2 = 0) (hw : 2 ≤ words) (hfit : s.mem_brk + words * 4 ≤ s.mem_max_addr) :
    ∃ L M, bs = L ++ M ∧ (M = [] ∨ ∃ f, M = [f] ∧ f.alloc = false) ∧
      (extend_heap s words).1 = some (s.heap_listp + total L) ∧
      Heap (extend_heap s words).2 (L ++ [⟨total M + words * 4, false⟩]) ∧
      (∀ x, x < s.heap_listp + total L - 4 → (extend_heap s words).2.mem x = s.mem x) ∧
      (extend_heap s words).2.heap_nextp =
        (if M = [] then s.heap_nextp else s.heap_listp + total L) ∧
      (extend_heap s words).2.mem_brk = s.mem_brk + words * 4 ∧
      (extend_heap s words).2.mem_max_addr = s.mem_max_addr ∧
      (extend_heap s words).2.heap_listp = s.heap_listp ∧
      (extend_heap s words).2.count = s.count := by
  have hlo := h.lo
  have hbrk := h.brk
  have hmax := h.max
  have hlim := h.lim
  have hnadj := h.nadj
  have hU : U32 = 4294967296 := rfl
  obtain ⟨pre1, pb, hpre1⟩ : ∃ pre1 pb, prologue :: bs = pre1 ++ [pb] := by
    rcases List.eq_nil_or_concat bs with rfl | ⟨L, x, rfl⟩
    · exact ⟨[], prologue, rfl⟩
    · exact ⟨prologue :: L, x, by simp⟩
  have htp : 8 + total bs = total (pre1 ++ [pb]) := by
    rw [← hpre1]; simp [total, prologue]
  have hseg := h.seg
  rw [hpre1] at hseg
  obtain ⟨c1, c2, c3, c4, c5, c6, c7, c8, c9⟩ := extend_seg s (s.heap_listp - 8) pre1 pb words
    (by omega) hseg (by omega) hw2 hw (by omega) hfit
  have htp1 : 8 + total bs = total pre1 + pb.size := by
    rw [htp, total_append]; simp [total]
  by_cases hpa : pb.alloc = true
  · have hcp : coalP pb s.mem_brk = s.mem_brk := by simp [coalP, hpa]
    have hl : coalL pb ⟨words * 4, false⟩ [] = [pb, ⟨words * 4, false⟩] := by simp [coalL, hpa]
    rw [hcp] at c1 c4
    rw [hl] at c2
    have hlast : ∀ y ∈ bs.getLast?, y.alloc = true := by
      rcases List.eq_nil_or_concat bs with rfl | ⟨L, x, rfl⟩
      · simp
      · simp only [List.concat_eq_append, ← List.cons_append] at hpre1
        have h1 := List.append_inj' hpre1 rfl
        simp only [List.cons.injEq, and_true] at h1
        intro y hy
        simp only [List.concat_eq_append, List.getLast?_concat, Option.mem_def,
          Option.some.injEq] at hy
        rw [← hy, h1.2]; exact hpa
    have e1 : pre1 ++ [pb, ⟨words * 4, false⟩] = prologue :: (bs ++ [⟨words * 4, false⟩]) := by
      have : pre1 ++ [pb, ⟨words * 4, false⟩] = (pre1 ++ [pb]) ++ [⟨words * 4, false⟩] := by simp
      rw [this, ← hpre1]; simp
    rw [e1] at c2
    refine ⟨bs, [], by simp, Or.inl rfl, by rw [c1, hbrk], ?_, ?_, by rw [c5]; simp [hpa],
      c6, c7, c8, c9⟩
    · simp only [total, Nat.zero_add]
      refine ⟨by rw [c8]; exact hlo, by rw [c8]; exact c2, ?_, ?_, by rw [c6, c7]; exact hfit,
        by rw [c7, c8]; exact hlim, ?_, ?_⟩
      · rw [c8, ← c3]; congr 1
        simp only [total_append, total]; omega
      · rw [c6, c8]; simp only [total_append, total]; omega
      · exact nadj_join bs [] _ hnadj List.chain'_nil hlast (by simp)
      · rw [c5, c8]; simp only [hpa, if_true]
        obtain ⟨c, hc⟩ := h.cur
        exact ⟨c, by rw [starts_append]; exact List.mem_append_left _ hc⟩
    · intro x hx
      exact c4 x (by omega)
  · have hpf : pb.alloc = false := by simpa using hpa
    have hcp : coalP pb s.mem_brk = s.mem_brk - pb.size := by simp [coalP, hpf]
    have hl : coalL pb ⟨words * 4, false⟩ [] = [⟨words * 4 + pb.size, false⟩] := by
      simp [coalL, hpf]
    rw [hcp] at c1 c4 c5
    rw [hl] at c2
    obtain ⟨bs0, rfl, hpre0⟩ : ∃ bs0, bs = bs0 ++ [pb] ∧ pre1 = prologue :: bs0 := by
      rcases List.eq_nil_or_concat bs with rfl | ⟨L, x, rfl⟩
      · have h1 := List.append_inj' (show [] ++ [prologue] = pre1 ++ [pb] from hpre1) rfl
        simp only [List.cons.injEq, and_true] at h1
        rw [← h1.2] at hpf; simp [prologue] at hpf
      · simp only [List.concat_eq_append, ← List.cons_append] at hpre1
        have h1 := List.append_inj' hpre1 rfl
        simp only [List.cons.injEq, and_true] at h1
        exact ⟨L, by simp [h1.2], h1.1.symm⟩
    subst hpre0
    have htb : total (bs0 ++ [pb]) = total bs0 + pb.size := by simp [total_append, total]
    have e3 : s.mem_brk - pb.size = s.heap_listp + total bs0 := by omega
    have hsz : total [pb] + words * 4 = words * 4 + pb.size := by simp [total]; omega
    refine ⟨bs0, [pb], rfl, Or.inr ⟨pb, rfl, hpf⟩, by rw [c1, e3], ?_, ?_,
      by rw [c5]; simp [hpf, e3], c6, c7, c8, c9⟩
    · rw [hsz]
      refine ⟨by rw [c8]; exact hlo, by rw [c8]; exact c2, ?_, ?_, by rw [c6, c7]; exact hfit,
        by rw [c7, c8]; exact hlim, ?_, ?_⟩
      · rw [c8, ← c3]; congr 1
        simp only [total_append, total]; omega
      · rw [c6, c8]; simp only [total_append, total]; omega
      · exact nadj_join bs0 [] _ (nadj_left _ _ hnadj) List.chain'_nil
          (nadj_last _ _ _ hnadj hpf) (by simp)
      · rw [c5, c8]; simp only [hpf, Bool.false_eq_true, if_false, e3]
        refine ⟨⟨words * 4 + pb.size, false⟩, ?_⟩
        exact mem_starts_mid s.heap_listp bs0 [] _
    · intro x hx
      exact c4 x (by omega)

/-! ## `mm_malloc` on a well-formed heap -/

theorem mm_malloc_zero (s : State) :
    mm_malloc s 0 = some (none, { s with count := s.count + 1 }) := by
  unfold mm_malloc; simp

theorem mm_malloc_spec (s : State) (bs : List Blk) (n : Nat) (h : Heap s bs) (h0 : 0 < n)
    (hn : n ≤ 2 ^ 31 - 16) :
    ∃ pre post, bs = pre ++ post ∧ s.heap_nextp = s.heap_listp + total pre ∧
      ((∃ q f R, post = q ++ f :: R ∧ (∀ x ∈ q, x.alloc = true ∨ x.size < adjust n) ∧
          f.alloc = false ∧ adjust n ≤ f.size ∧
          ∃ s1, mm_malloc s n = some (some (s.heap_listp + total (pre ++ q)), s1) ∧
            Heap s1 (pre ++ q ++ placeL f (adjust n) ++ R) ∧
            (∀ x, x < s.heap_listp + total (pre ++ q) - 4 ∨
                s.heap_listp + total (pre ++ q) + f.size - 4 ≤ x → s1.mem x = s.mem x) ∧
            s1.heap_nextp = s.heap_listp + total (pre ++ q) ∧ s1.mem_brk = s.mem_brk ∧
            s1.mem_max_addr = s.mem_max_addr ∧ s1.heap_listp = s.heap_listp ∧
            s1.count = s.count + 1) ∨
       ((∀ x ∈ post, x.alloc = true ∨ x.size < adjust n) ∧
         ((s.mem_max_addr < s.mem_brk + max (adjust n) 4096 ∧
             mm_malloc s n = some (none, { s with count := s.count + 1 })) ∨
          (s.mem_brk + max (adjust n) 4096 ≤ s.mem_max_addr ∧
            ∃ L M s1, bs = L ++ M ∧ (M = [] ∨ ∃ f, M = [f] ∧ f.alloc = false) ∧
              mm_malloc s n = some (some (s.heap_listp + total L), s1) ∧
              Heap s1 (L ++ placeL ⟨total M + max (adjust n) 4096, false⟩ (adjust n)) ∧
              (∀ x, x < s.heap_listp + total L - 4 → s1.mem x = s.mem x) ∧
              s1.heap_nextp = (if M = [] then s.heap_nextp else s.heap_listp + total L) ∧
              s1.mem_brk = s.mem_brk + max (adjust n) 4096 ∧
              s1.mem_max_addr = s.mem_max_addr ∧ s1.heap_listp = s.heap_listp ∧
              s1.count = s.count + 1)))) := by
  obtain ⟨a8, a16, _, _, amax⟩ := adjust_spec n h0 hn
  have h31 : (2 : Nat) ^ 31 = 2147483648 := by norm_num
  rw [h31] at amax
  have hU : U32 = 4294967296 := rfl
  have hne : n ≠ 0 := by omega
  have h1 := Heap_count s bs (s.count + 1) h
  obtain ⟨pre, post, e, hcur, hres⟩ := find_fit_spec _ bs (adjust n) h1 (by omega)
  refine ⟨pre, post, e, hcur, ?_⟩
  simp only [] at hres
  rcases hres with ⟨q, f, R, e1, hq, hf, hfs, hff⟩ | ⟨hall, hff⟩
  · left
    refine ⟨q, f, R, e1, hq, hf, hfs, ?_⟩
    have hm : mm_malloc s n = some (some (s.heap_listp + total (pre ++ q)),
        place { s with count := s.count + 1, heap_nextp := s.heap_listp + total (pre ++ q) }
          (s.heap_listp + total (pre ++ q)) (adjust n)) := by
      unfold mm_malloc
      simp only [hne, if_false, hff]
    have e2 : bs = (pre ++ q) ++ f :: R := by rw [e, e1]; simp
    have h2 : Heap
        { s with count := s.count + 1, heap_nextp := s.heap_listp + total (pre ++ q) }
        ((pre ++ q) ++ f :: R) := by
      rw [← e2]
      exact ⟨h.lo, h.seg, h.epi, h.brk, h.max, h.lim, h.nadj,
        ⟨f, by rw [e2]; exact mem_starts_mid _ _ _ _⟩⟩
    obtain ⟨p1, p2⟩ := place_heap _ (pre ++ q) R f (adjust n) h2 hf a8 (by omega) hfs (by omega)
    obtain ⟨f1, f2, f3, f4, f5⟩ := place_fields
        { s with count := s.count + 1, heap_nextp := s.heap_listp + total (pre ++ q) }
        (s.heap_listp + total (pre ++ q)) (adjust n)
    exact ⟨_, hm, p1, p2, f4, f1, f2, f3, f5⟩
  · right
    refine ⟨hall, ?_⟩
    have hex := extendsize_eq (adjust n) (by rw [h31]; exact amax)
    have hw : max (adjust n) 4096 / 4 * 4 = max (adjust n) 4096 := by
      rcases Nat.le_total (adjust n) 4096 with hle | hle
      · rw [Nat.max_eq_right hle]
      · rw [Nat.max_eq_left hle]; omega
    have hw2 : (max (adjust n) 4096 / 4) % 2 = 0 := by
      rcases Nat.le_total (adjust n) 4096 with hle | hle
      · rw [Nat.max_eq_right hle]
      · rw [Nat.max_eq_left hle]; omega
    have hwlt : max (adjust n) 4096 < 2147483648 := by
      rcases Nat.le_total (adjust n) 4096 with hle | hle
      · rw [Nat.max_eq_right hle]; omega
      · rw [Nat.max_eq_left hle]; omega
    have hwge : 4096 ≤ max (adjust n) 4096 := Nat.le_max_right _ _
    by_cases hfit : s.mem_brk + max (adjust n) 4096 ≤ s.mem_max_addr
    · right
      refine ⟨hfit, ?_⟩
      obtain ⟨L, M, eL, hM, x1, x2, x3, x4, x5, x6, x7, x8⟩ := extend_heap_heap _ bs
        (max (adjust n) 4096 / 4) h1 hw2 (by omega) (by rw [hw]; exact hfit)
      rw [hw] at x2 x5
      simp only [] at x1 x2 x3 x4 x5 x6 x7 x8
      rcases hx : extend_heap { s with count := s.count + 1 } (max (adjust n) 4096 / 4)
        with ⟨r, s2⟩
      rw [hx] at x1 x2 x3 x4 x5 x6 x7 x8
      simp only [] at x1 x2 x3 x4 x5 x6 x7 x8
      subst x1
      have hm : mm_malloc s n = some (some (s.heap_listp + total L),
          place s2 (s.heap_listp + total L) (adjust n)) := by
        unfold mm_malloc
        simp only [hne, if_false, hff, hex, WSIZE, hx]
      have hfs : adjust n ≤ total M + max (adjust n) 4096 := by
        have := Nat.le_max_left (adjust n) 4096; omega
      have x2a : Heap s2 (L ++ (⟨total M + max (adjust n) 4096, false⟩ : Blk) :: []) := x2
      obtain ⟨p1, p2⟩ := place_heap s2 L [] ⟨total M + max (adjust n) 4096, false⟩ (adjust n)
        x2a rfl a8 (by omega) hfs (by omega)
      obtain ⟨f1, f2, f3, f4, f5⟩ := place_fields s2 (s2.heap_listp + total L) (adjust n)
      rw [x7] at p1 p2 f1 f2 f3 f4 f5
      refine ⟨L, M, _, eL, hM, hm, by simpa using p1, ?_, by rw [f4, x4], by rw [f1, x5],
        by rw [f2, x6], by rw [f3], by rw [f5, x8]⟩
      intro x hx1
      rw [p2 x (Or.inl hx1), x3 x hx1]
    · left
      refine ⟨by omega, ?_⟩
      have hfail := extend_heap_fail { s with count := s.count + 1 } (max (adjust n) 4096 / 4)
        hw2 (by omega) (by rw [hw]; simp only []; omega)
      unfold mm_malloc
      simp only [hne, if_false, hff, hex, WSIZE, hfail]

/-! ## The invariant of reachable states -/

theorem mem_starts_mem (a : Nat) (bs : List Blk) (q : Nat) (c : Blk)
    (h : (q, c) ∈ starts a bs) : c ∈ bs := by
  obtain ⟨pre, post, e, -⟩ := mem_starts_split a bs q c h
  rw [e]; simp

theorem Heap_block (s : State) (bs : List Blk) (p : Nat) (b : Blk) (h : Heap s bs)
    (hp : (p, b) ∈ starts s.heap_listp bs) :
    8 ≤ b.size ∧ b.size % 8 = 0 ∧ GET s.mem (p - 4) = b.word ∧
      GET s.mem (p + b.size - 8) = b.word := by
  obtain ⟨pre, post, rfl, hpp⟩ := mem_starts_split _ _ _ _ hp
  have h1 := Heap_seg_from s pre (b :: post) h
  rw [← hpp] at h1
  exact ⟨h1.1, h1.2.1, h1.2.2.1, h1.2.2.2.1⟩

theorem mm_init_some (s0 s : State) (hlim : s0.mem_max_addr < s0.mem_brk + U32)
    (h : mm_init s0 = some s) :
    Heap s [⟨4096, false⟩] ∧ s.heap_listp = s0.mem_brk + 16 ∧
      s.heap_nextp = s0.mem_brk + 16 ∧ s.mem_brk = s0.mem_brk + 4112 ∧
      s.mem_max_addr = s0.mem_max_addr ∧ s.count = s0.count ∧
      (∀ x, x < s0.mem_brk → s.mem x = s0.mem x) := by
  by_cases hfit : s0.mem_brk + 4112 ≤ s0.mem_max_addr
  · obtain ⟨s1, e, r⟩ := mm_init_spec s0 hlim hfit
    rw [e] at h
    cases h
    exact r
  · rw [mm_init_fail s0 (by omega)] at h
    cases h

theorem live_of_replace (lp : Nat) (L M M1 R : List Blk) (q : Nat)
    (htot : total M1 = total M) (hM : ∀ x ∈ M, x.alloc = false)
    (h : LiveIn lp (L ++ M ++ R) q) : LiveIn lp (L ++ M1 ++ R) q := by
  obtain ⟨c, hc, hca⟩ := h
  rcases starts_replace lp L M M1 R q c htot hc with h1 | h1
  · exact ⟨c, h1, hca⟩
  · have := hM c (mem_starts_mem _ _ _ _ h1)
    rw [this] at hca; cases hca

theorem reach_inv (a0 : Nat) (s : State) (live : List Nat) (h : Reach a0 s live) :
    Inv a0 s live := by
  induction h with
  | init s0 s h0 hlim h =>
    obtain ⟨r1, r2, -⟩ := mm_init_some s0 s hlim h
    exact ⟨_, r1, by rw [r2, h0], by simp⟩
  | malloc s s1 live n r hr hn h ih =>
    obtain ⟨bs, hb, hlp, hlive⟩ := ih
    by_cases h0 : n = 0
    · subst h0
      rw [mm_malloc_zero] at h
      cases h
      exact ⟨bs, Heap_count s bs _ hb, hlp, hlive⟩
    · obtain ⟨pre, post, e, hcur, hres⟩ := mm_malloc_spec s bs n hb (by omega) hn
      obtain ⟨a8, a16, _, _, _⟩ := adjust_spec n (by omega) hn
      rcases hres with ⟨q, f, R, e1, hq, hf, hfs, s2, hm, hh, hfr, c1, c2, c3, c4, c5⟩ |
        ⟨hall, ⟨hlt, hm⟩ | ⟨hfit, L, M, s2, eL, hM, hm, hh, hfr, c1, c2, c3, c4, c5⟩⟩
      · rw [hm] at h
        cases h
        refine ⟨_, hh, by rw [c4, hlp], ?_⟩
        have hf8 : f.size % 8 = 0 := by
          have e2 : bs = (pre ++ q) ++ f :: R := by rw [e, e1]; simp
          rw [e2] at hb
          exact (Heap_seg_from s (pre ++ q) (f :: R) hb).2.1
        intro p hp
        rw [c4]
        simp only [List.mem_cons] at hp
        rcases hp with rfl | hp
        · refine ⟨⟨adjust n, true⟩, ?_, rfl⟩
          rw [starts_append, starts_append]
          apply List.mem_append_left
          apply List.mem_append_right
          unfold placeL; split <;> simp [starts]
        · have h1 := hlive p hp
          have e2 : bs = (pre ++ q) ++ [f] ++ R := by rw [e, e1]; simp
          rw [e2] at h1
          exact live_of_replace _ _ [f] _ _ _ (by rw [total_placeL f _ hfs a8 hf8]; simp [total])
            (by simpa using hf) h1
      · rw [hm] at h
        cases h
        exact ⟨bs, Heap_count s bs _ hb, hlp, hlive⟩
      · rw [hm] at h
        cases h
        refine ⟨_, hh, by rw [c4, hlp], ?_⟩
        intro p hp
        rw [c4]
        simp only [List.mem_cons] at hp
        rcases hp with rfl | hp
        · refine ⟨⟨adjust n, true⟩, ?_, rfl⟩
          rw [starts_append]
          apply List.mem_append_right
          unfold placeL; split <;> simp [starts]
        · obtain ⟨c, hc, hca⟩ := hlive p hp
          rw [eL, starts_append, List.mem_append] at hc
          rcases hc with hc | hc
          · exact ⟨c, by rw [starts_append]; exact List.mem_append_left _ hc, hca⟩
          · have hcm := mem_starts_mem _ _ _ _ hc
            rcases hM with rfl | ⟨f, rfl, hf⟩
            · simp at hcm
            · simp only [List.mem_singleton] at hcm
              rw [hcm, hf] at hca; cases hca
  | free s live p hr hp ih =>
    obtain ⟨bs, hb, hlp, hlive⟩ := ih
    obtain ⟨b, hpb, hba⟩ := hlive p hp
    obtain ⟨L, M1, M2, R, e, hpp, hM, hh, hfr, c1, c2, c3, c4, c5⟩ := mm_free_spec s bs p b hb hpb
    refine ⟨_, hh, by rw [c4, hlp], ?_⟩
    intro q hq
    rw [c4]
    simp only [List.mem_filter, decide_eq_true_eq] at hq
    obtain ⟨c, hc, hca⟩ := hlive q hq.1
    rw [e] at hc
    rcases starts_replace s.heap_listp L (M1 ++ b :: M2) [⟨total (M1 ++ b :: M2), false⟩] R q c
      (by simp [total]) hc with h1 | h1
    · exact ⟨c, by simpa using h1, hca⟩
    · exfalso
      rw [starts_append] at h1
      simp only [starts, List.mem_append, List.mem_cons, Prod.mk.injEq] at h1
      rcases h1 with h1 | ⟨h1, -⟩ | h1
      · have := hM c (by simp [mem_starts_mem _ _ _ _ h1])
        rw [this] at hca; cases hca
      · exact hq.2 (by omega)
      · have := hM c (by simp [mem_starts_mem _ _ _ _ h1])
        rw [this] at hca; cases hca
  | write s live p a v hr hp h1 h2 ih =>
    obtain ⟨bs, hb, hlp, hlive⟩ := ih
    obtain ⟨b, hpb, hba⟩ := hlive p hp
    obtain ⟨b8, bm, bh, bf⟩ := Heap_block s bs p b hb hpb
    have hsz : GET_SIZE s.mem (HDRP p) = b.size := word_size _ _ b bm bh
    rw [hsz] at h2
    unfold DSIZE at h2
    refine ⟨bs, Heap_payload_write s bs _ p b hb hpb ?_, hlp, hlive⟩
    intro x hx
    exact Function.update_noteq (by omega) _ _

/-! ## The walk of the block sequence; claims C2, C3 and C4 -/

theorem walk_eq (m : Mem) (a : Nat) (bs : List Blk) (fuel : Nat) (hseg : Seg m a bs)
    (hepi : GET m (a + total bs - 4) = 1) (hf : bs.length < fuel) :
    walk m fuel a = (starts a bs).map Prod.fst := by
  induction bs generalizing a fuel with
  | nil =>
    obtain ⟨f, rfl⟩ : ∃ f, fuel = f + 1 := ⟨fuel - 1, by simp at hf; omega⟩
    simp only [total, Nat.add_zero] at hepi
    simp [walk, HDRP, WSIZE, epilogue_size m _ hepi, starts]
  | cons b bs ih =>
    obtain ⟨f, rfl⟩ : ∃ f, fuel = f + 1 := ⟨fuel - 1, by simp at hf; omega⟩
    obtain ⟨h8, hm, hh, hft, hr⟩ := hseg
    have hsz : GET_SIZE m (a - 4) = b.size := word_size _ _ b hm hh
    have hne : b.size ≠ 0 := by omega
    simp only [total] at hepi
    have ih1 := ih (a + b.size) f hr (by rw [← hepi]; congr 1; omega) (by simp at hf; omega)
    simp [walk, HDRP, WSIZE, hsz, hne, starts, NEXT_BLKP, ih1]

theorem blocks_eq (s : State) (bs : List Blk) (h : Heap s bs) :
    blocks s = (starts s.heap_listp bs).map Prod.fst := by
  have hseg := Heap_seg_from s [] bs (by simpa using h)
  simp only [total, Nat.add_zero] at hseg
  have hlen := Seg_length _ _ _ hseg
  have hbrk := h.brk
  have hlo := h.lo
  unfold blocks
  exact walk_eq s.mem _ bs _ hseg h.epi (by omega)

theorem headAlloc_of_head (R : List Blk) (h : ∀ y ∈ R.head?, y.alloc = true) :
    headAlloc R = true := by
  cases R with
  | nil => rfl
  | cons n r => simpa [headAlloc] using h

theorem WalkOk_of_Seg (m : Mem) (a : Nat) (bs : List Blk) (hseg : Seg m a bs)
    (ha : 4 ≤ a) (hepi : GET m (a + total bs - 4) = 1) :
    WalkOk m (a + total bs) bs.length a := by
  induction bs generalizing a with
  | nil =>
    simp only [total, Nat.add_zero] at hepi ⊢
    exact ⟨by rw [PACK_epilogue]; exact hepi, by unfold HDRP WSIZE; omega⟩
  | cons b bs ih =>
    obtain ⟨h8, hm, hh, hft, hr⟩ := hseg
    have hsz : GET_SIZE m (a - 4) = b.size := word_size _ _ b hm hh
    simp only [total] at hepi
    have ih1 := ih (a + b.size) hr (by omega) (by rw [← hepi]; congr 1; omega)
    refine ⟨by simp only [HDRP, WSIZE, hsz]; omega, by simp only [HDRP, WSIZE, hsz]; exact hm,
      ?_, ?_⟩
    · simp only [HDRP, WSIZE, FTRP, DSIZE, hsz]; rw [hh, hft]
    · simp only [NEXT_BLKP, WSIZE, hsz, total]
      rw [← Nat.add_assoc]; exact ih1

theorem total_mod8 (m : Mem) (a : Nat) (bs : List Blk) (h : Seg m a bs) : total bs % 8 = 0 := by
  induction bs generalizing a with
  | nil => rfl
  | cons b bs ih =>
    have h1 := ih _ h.2.2.2.2
    have h2 := h.2.1
    simp only [total]; omega

theorem Heap_aligned (s : State) (bs : List Blk) (p : Nat) (b : Blk) (h : Heap s bs)
    (hp : (p, b) ∈ starts s.heap_listp bs) : ∃ k, p = s.heap_listp + 8 * k := by
  obtain ⟨pre, post, rfl, hpp⟩ := mem_starts_split _ _ _ _ hp
  have h1 := h.seg
  have e : prologue :: (pre ++ b :: post) = (prologue :: pre) ++ b :: post := by simp
  rw [e, Seg_append] at h1
  have h2 := total_mod8 _ _ _ h1.1
  simp only [total, prologue] at h2
  exact ⟨total pre / 8, by omega⟩

/-- C2: in every state reached from a successful `mm_init` by `mm_malloc` calls (request
sizes at most `2 ^ 31 - 16`), `mm_free` calls on live pointers and writes of the user into
live payloads, no block of the block sequence is free together with the block that
follows it. -/
theorem no_two_adjacent_free (a0 : Nat) (s : State) (live : List Nat)
    (h : Reach a0 s live) :
    ∀ bp ∈ blocks s, ¬ (GET_ALLOC s.mem (HDRP bp) = 0 ∧
      GET_ALLOC s.mem (HDRP (NEXT_BLKP s.mem bp)) = 0) := by
  obtain ⟨bs, hb, -, -⟩ := reach_inv a0 s live h
  intro bp hbp
  rw [blocks_eq s bs hb] at hbp
  simp only [List.mem_map, Prod.exists, exists_and_right, exists_eq_right] at hbp
  obtain ⟨b, hb1⟩ := hbp
  obtain ⟨pre, post, rfl, hpp⟩ := mem_starts_split _ _ _ _ hb1
  have hseg := Heap_seg_from s pre (b :: post) hb
  rw [← hpp] at hseg
  obtain ⟨h8, hm, hh, hft, hr⟩ := hseg
  have hepi := hb.epi
  rw [total_append] at hepi
  simp only [total] at hepi
  have hsz : GET_SIZE s.mem (bp - 4) = b.size := word_size _ _ b hm hh
  have hal := word_alloc _ _ b hm hh
  have hnx := head_alloc s.mem (bp + b.size) post hr (by rw [← hepi]; congr 1; omega)
  simp only [HDRP, WSIZE, NEXT_BLKP, hsz, hal, hnx]
  intro hc
  have hbf : b.alloc = false := by
    cases hba : b.alloc
    · rfl
    · rw [hba] at hc; simp at hc
  have := headAlloc_of_head post (nadj_head _ _ _ hb.nadj hbf)
  rw [this] at hc
  simp at hc

/-- C3: in every reachable state, whatever the user wrote into payloads, the walk from
`heap_listp` that adds the size in each header visits blocks without gaps, each with a
positive size that is a multiple of 8 and with its header word equal to its footer word,
and ends at an epilogue header `PACK(0, 1)` occupying the last word of the arena. -/
theorem walk_sound (a0 : Nat) (s : State) (live : List Nat) (h : Reach a0 s live) :
    WalkOk s.mem s.mem_brk (blocks s).length s.heap_listp := by
  obtain ⟨bs, hb, -, -⟩ := reach_inv a0 s live h
  have hseg := Heap_seg_from s [] bs (by simpa using hb)
  simp only [total, Nat.add_zero] at hseg
  rw [blocks_eq s bs hb, hb.brk]
  have hlen : ((starts s.heap_listp bs).map Prod.fst).length = bs.length := by
    rw [List.length_map]
    clear hseg hb
    generalize s.heap_listp = a
    induction bs generalizing a with
    | nil => rfl
    | cons b bs ih => simp [starts, ih]
  rw [hlen]
  exact WalkOk_of_Seg s.mem _ bs hseg (by have := hb.lo; omega) hb.epi

/-- C4: when the arena start `a0` is 8-byte aligned, every non-null pointer returned by
`mm_malloc` (request size at most `2 ^ 31 - 16`) in a reachable state is a multiple
of 8. -/
theorem malloc_aligned (a0 : Nat) (s s1 : State) (live : List Nat) (n p : Nat)
    (h : Reach a0 s live) (ha : a0 % 8 = 0) (hn : n ≤ 2 ^ 31 - 16)
    (hm : mm_malloc s n = some (some p, s1)) : p % 8 = 0 := by
  have h1 := Reach.malloc s s1 live n (some p) h hn hm
  obtain ⟨bs, hb, hlp, hlive⟩ := reach_inv a0 s1 _ h1
  obtain ⟨b, hpb, -⟩ := hlive p (by simp)
  obtain ⟨k, hk⟩ := Heap_aligned s1 bs p b hb hpb
  omega

/-! ## Deterministic forms of the specifications -/

theorem adjust_bounds (n : Nat) (h0 : 0 < n) (hn : n + 15 < U32) :
    adjust n % 8 = 0 ∧ 16 ≤ adjust n ∧ n + 8 ≤ adjust n ∧ adjust n ≤ n + 15 := by
  unfold U32 at hn
  unfold adjust DSIZE U32
  split
  · omega
  · have e1 : (n + 8 + (8 - 1)) % 4294967296 = n + 15 := by omega
    have e2 : (8 * ((n + 15) / 8)) % 4294967296 = 8 * ((n + 15) / 8) := by omega
    rw [e1, e2]
    omega

theorem find_fit_loop_at (m : Mem) (asize : Nat) (q : List Blk) (f : Blk) (cur fuel : Nat)
    (hseg : Seg m cur (q ++ [f])) (hq : ∀ x ∈ q, x.alloc = true ∨ x.size < asize)
    (hf : f.alloc = false) (hfs : asize ≤ f.size) (hfuel : q.length < fuel) :
    find_fit_loop m asize fuel cur = some (some (cur + total q)) := by
  induction q generalizing cur fuel with
  | nil =>
    obtain ⟨k, rfl⟩ : ∃ k, fuel = k + 1 := ⟨fuel - 1, by simp at hfuel; omega⟩
    obtain ⟨h8, hm, hh, -, -⟩ := hseg
    have hsz : GET_SIZE m (cur - 4) = f.size := word_size _ _ f hm hh
    have hal := word_alloc _ _ f hm hh
    have hne : f.size ≠ 0 := by omega
    simp [find_fit_loop, HDRP, WSIZE, hsz, hal, hf, hfs, hne, total]
  | cons b q ih =>
    obtain ⟨k, rfl⟩ : ∃ k, fuel = k + 1 := ⟨fuel - 1, by simp at hfuel; omega⟩
    obtain ⟨h8, hm, hh, -, hr⟩ := hseg
    have hsz : GET_SIZE m (cur - 4) = b.size := word_size _ _ b hm hh
    have hal := word_alloc _ _ b hm hh
    have hne : b.size ≠ 0 := by omega
    have hb := hq b (by simp)
    have hstep : find_fit_loop m asize (k + 1) cur = find_fit_loop m asize k (cur + b.size) := by
      simp only [find_fit_loop, HDRP, WSIZE, hsz, hal, hne, ne_eq, not_false_eq_true, if_true]
      rw [if_neg]
      intro hx
      rcases hb with hb | hb
      · rw [hb] at hx; simp at hx
      · omega
    rw [hstep, ih (cur + b.size) k hr (fun x hx => hq x (by simp [hx])) (by simp at hfuel; omega)]
    simp [total]; omega

theorem mm_malloc_fit_at (s : State) (pre q : List Blk) (f : Blk) (R : List Blk) (n : Nat)
    (h : Heap s (pre ++ q ++ f :: R)) (hcur : s.heap_nextp = s.heap_listp + total pre)
    (hq : ∀ x ∈ q, x.alloc = true ∨ x.size < adjust n) (hf : f.alloc = false)
    (hfs : adjust n ≤ f.size) (h0 : 0 < n) (hn : n + 15 < U32) :
    ∃ s1, mm_malloc s n = some (some (s.heap_listp + total (pre ++ q)), s1) ∧
      Heap s1 (pre ++ q ++ placeL f (adjust n) ++ R) ∧
      (∀ x, x < s.heap_listp + total (pre ++ q) - 4 ∨
          s.heap_listp + total (pre ++ q) + f.size - 4 ≤ x → s1.mem x = s.mem x) ∧
      s1.heap_nextp = s.heap_listp + total (pre ++ q) ∧ s1.mem_brk = s.mem_brk ∧
      s1.mem_max_addr = s.mem_max_addr ∧ s1.heap_listp = s.heap_listp ∧
      s1.count = s.count + 1 := by
  obtain ⟨a8, a16, _, amax⟩ := adjust_bounds n h0 hn
  have hU : U32 = 4294967296 := rfl
  have hne : n ≠ 0 := by omega
  have hsegq : Seg s.mem (s.heap_listp + total pre) (q ++ [f]) := by
    have e : pre ++ q ++ f :: R = pre ++ ((q ++ [f]) ++ R) := by simp
    rw [e] at h
    have h1 := Heap_seg_from s pre _ h
    rw [Seg_append] at h1
    exact h1.1
  have hlen := Seg_length _ _ _ h.seg
  have hbrk := h.brk
  have hlo := h.lo
  have htl := Heap_total_lt s _ h
  simp only [List.length_cons, List.length_append, total, total_append, prologue] at hlen hbrk htl
  have hloop := find_fit_loop_at s.mem (adjust n) q f s.heap_nextp s.mem_brk
    (by rw [hcur]; exact hsegq) hq hf hfs (by omega)
  have hff : find_fit { s with count := s.count + 1 } (adjust n) =
      some (some (s.heap_listp + total (pre ++ q)),
        { s with count := s.count + 1, heap_nextp := s.heap_listp + total (pre ++ q) }) := by
    unfold find_fit
    simp only []
    rw [Nat.mod_eq_of_lt (by omega), hloop, hcur, total_append, Nat.add_assoc]
  have hm : mm_malloc s n = some (some (s.heap_listp + total (pre ++ q)),
      place { s with count := s.count + 1, heap_nextp := s.heap_listp + total (pre ++ q) }
        (s.heap_listp + total (pre ++ q)) (adjust n)) := by
    unfold mm_malloc
    simp only [hne, if_false, hff]
  have h2 : Heap
      { s with count := s.count + 1, heap_nextp := s.heap_listp + total (pre ++ q) }
      ((pre ++ q) ++ f :: R) :=
    ⟨h.lo, h.seg, h.epi, h.brk, h.max, h.lim, h.nadj, ⟨f, mem_starts_mid _ _ _ _⟩⟩
  obtain ⟨p1, p2⟩ := place_heap _ (pre ++ q) R f (adjust n) h2 hf a8 (by omega) hfs (by omega)
  obtain ⟨f1, f2, f3, f4, f5⟩ := place_fields
      { s with count := s.count + 1, heap_nextp := s.heap_listp + total (pre ++ q) }
      (s.heap_listp + total (pre ++ q)) (adjust n)
  exact ⟨_, hm, p1, p2, f4, f1, f2, f3, f5⟩

theorem word_inj (b c : Blk) (hb : b.size % 8 = 0) (hc : c.size % 8 = 0)
    (h : b.word = c.word) : b = c := by
  cases b with
  | mk bs ba =>
    cases c with
    | mk cs ca =>
      simp only [Blk.word] at h hb hc
      cases ba <;> cases ca <;> simp at h ⊢ <;> omega

theorem Seg_unique (m : Mem) (a : Nat) (l1 l2 : List Blk) (h1 : Seg m a l1) (h2 : Seg m a l2)
    (ht : total l1 = total l2) : l1 = l2 := by
  induction l1 generalizing a l2 with
  | nil =>
    cases l2 with
    | nil => rfl
    | cons c l2 =>
      have := h2.1
      simp only [total] at ht; omega
  | cons b l1 ih =>
    cases l2 with
    | nil =>
      have := h1.1
      simp only [total] at ht; omega
    | cons c l2 =>
      have hbc : b = c := word_inj b c h1.2.1 h2.2.1 (by rw [← h1.2.2.1, ← h2.2.2.1])
      subst hbc
      simp only [total] at ht
      rw [ih (a + b.size) l2 h1.2.2.2.2 h2.2.2.2.2 (by omega)]

theorem Heap_unique (s : State) (bs1 bs2 : List Blk) (h1 : Heap s bs1) (h2 : Heap s bs2) :
    bs1 = bs2 := by
  have e1 := h1.brk
  have e2 := h2.brk
  have h := Seg_unique s.mem _ _ _ h1.seg h2.seg (by simp only [total]; omega)
  simpa using h

theorem mm_free_at (s : State) (bs pre1 : List Blk) (pb b : Blk) (post : List Blk)
    (h : Heap s bs) (hF : prologue :: bs = pre1 ++ pb :: b :: post) :
    ∃ bs1, prologue :: bs1 = pre1 ++ coalL pb ⟨b.size, false⟩ post ∧
      Heap (mm_free s (s.heap_listp - 8 + total pre1 + pb.size)) bs1 ∧
      (mm_free s (s.heap_listp - 8 + total pre1 + pb.size)).heap_nextp =
        (if pb.alloc = true ∧ headAlloc post = true then s.heap_nextp
         else coalP pb (s.heap_listp - 8 + total pre1 + pb.size)) ∧
      (mm_free s (s.heap_listp - 8 + total pre1 + pb.size)).mem_brk = s.mem_brk ∧
      (mm_free s (s.heap_listp - 8 + total pre1 + pb.size)).heap_listp = s.heap_listp := by
  have hlo := h.lo
  have htl := Heap_total_lt s _ h
  have hU : U32 = 4294967296 := rfl
  have htF : total (pre1 ++ pb :: b :: post) = 8 + total bs := by
    rw [← hF]; simp [total, prologue]
  have hseg := h.seg
  rw [hF] at hseg
  have hepi : GET s.mem (s.heap_listp - 8 + total (pre1 ++ pb :: b :: post) - 4) = 1 := by
    rw [htF, ← h.epi]; congr 1; omega
  obtain ⟨k1, k2, k3, k4, k5, k6, k7, k8⟩ := free_seg s (s.heap_listp - 8)
    (s.heap_listp - 8 + total pre1 + pb.size) pre1 pb b post
    (by omega) hseg hepi (by rw [htF]; omega) rfl
  have hpin : (s.heap_listp - 8 + total pre1 + pb.size, b) ∈ starts s.heap_listp bs := by
    have h1 : (s.heap_listp - 8 + total (pre1 ++ [pb]), b) ∈
        starts (s.heap_listp - 8) (prologue :: bs) := by
      rw [hF]
      have := mem_starts_mid (s.heap_listp - 8) (pre1 ++ [pb]) post b
      simpa using this
    rw [total_append] at h1
    simp only [total, Nat.add_zero, starts, List.mem_cons, Prod.mk.injEq, prologue] at h1
    rcases h1 with ⟨h1, -⟩ | h1
    · have := hseg
      rw [Seg_append] at this
      have := this.2.1
      omega
    · have e : s.heap_listp - 8 + 8 = s.heap_listp := by omega
      rw [e, ← Nat.add_assoc] at h1
      exact h1
  obtain ⟨L, M1, M2, R, e, hpp, hM, hh, -⟩ := mm_free_spec s bs _ b h hpin
  refine ⟨_, ?_, hh, k4, k5, k7⟩
  have hs1 := hh.seg
  rw [k7] at hs1
  refine Seg_unique _ _ _ _ hs1 k1 ?_
  rw [e] at htF
  simp only [total_append, total_coalL, total, prologue] at htF ⊢
  omega

/-! ## Coverage by free blocks -/

theorem Heap_pos (s : State) (bs : List Blk) (h : Heap s bs) : ∀ b ∈ bs, 8 ≤ b.size := by
  intro b hb
  obtain ⟨pre, post, rfl⟩ := List.append_of_mem hb
  exact (Heap_seg_from s pre (b :: post) h).1

theorem starts_disjoint (a : Nat) (bs : List Blk) (hpos : ∀ b ∈ bs, 8 ≤ b.size)
    (q1 q2 : Nat) (f1 f2 : Blk) (h1 : (q1, f1) ∈ starts a bs) (h2 : (q2, f2) ∈ starts a bs) :
    (q1 = q2 ∧ f1 = f2) ∨ q1 + f1.size ≤ q2 ∨ q2 + f2.size ≤ q1 := by
  induction bs generalizing a with
  | nil => simp [starts] at h1
  | cons b bs ih =>
    simp only [starts, List.mem_cons, Prod.mk.injEq] at h1 h2
    rcases h1 with ⟨e1, e2⟩ | h1 <;> rcases h2 with ⟨e3, e4⟩ | h2
    · left; exact ⟨by omega, by rw [e2, e4]⟩
    · right; left
      have := (mem_starts_ge _ _ _ _ h2).1
      rw [e1, e2]; exact this
    · right; right
      have := (mem_starts_ge _ _ _ _ h1).1
      rw [e3, e4]; exact this
    · exact ih (a + b.size) (fun x hx => hpos x (by simp [hx])) h1 h2

theorem starts_adjacent (a : Nat) (bs : List Blk) (hpos : ∀ b ∈ bs, 8 ≤ b.size)
    (hn : NoAdjFree bs) (q1 q2 : Nat) (f1 f2 : Blk) (h1 : (q1, f1) ∈ starts a bs)
    (h2 : (q2, f2) ∈ starts a bs) (hadj : q1 + f1.size = q2) :
    f1.alloc = true ∨ f2.alloc = true := by
  obtain ⟨pre, post, rfl, hq1⟩ := mem_starts_split _ _ _ _ h1
  have hf1 := hpos f1 (by simp)
  rw [starts_append] at h2
  simp only [starts, List.mem_append, List.mem_cons, Prod.mk.injEq] at h2
  rcases h2 with h2 | ⟨h2, -⟩ | h2
  · have := (mem_starts_ge _ _ _ _ h2).2
    have := hpos f2 (by simp [mem_starts_mem _ _ _ _ h2])
    omega
  · omega
  · cases post with
    | nil => simp [starts] at h2
    | cons c post =>
      simp only [starts, List.mem_cons, Prod.mk.injEq] at h2
      rcases h2 with ⟨-, h2⟩ | h2
      · rw [h2]
        have h3 := (List.chain'_cons'.1 (nadj_right pre _ hn)).1 c (by simp)
        exact h3
      · have := (mem_starts_ge _ _ _ _ h2).1
        have := hpos c (by simp)
        omega

theorem cov_same (s : State) (bs : List Blk) (h : Heap s bs) (q1 q2 : Nat) (f1 f2 : Blk)
    (h1 : (q1, f1) ∈ starts s.heap_listp bs) (h2 : (q2, f2) ∈ starts s.heap_listp bs)
    (hf1 : f1.alloc = false) (hf2 : f2.alloc = false) (lo1 mid hi2 : Nat)
    (c1 : q1 ≤ lo1) (c2 : mid ≤ q1 + f1.size) (c3 : q2 ≤ mid) (c4 : hi2 ≤ q2 + f2.size)
    (hlt1 : lo1 < mid) (hlt2 : mid < hi2) : q1 = q2 ∧ f1 = f2 := by
  have hpos := Heap_pos s bs h
  rcases starts_disjoint _ bs hpos q1 q2 f1 f2 h1 h2 with h3 | h3 | h3
  · exact h3
  · have := starts_adjacent _ bs hpos h.nadj q1 q2 f1 f2 h1 h2 (by omega)
    rw [hf1, hf2] at this; simp at this
  · omega

theorem free_step (s : State) (bs : List Blk) (p : Nat) (b : Blk) (h : Heap s bs)
    (hp : (p, b) ∈ starts s.heap_listp bs) (hb : b.alloc = true) :
    ∃ bs1, Heap (mm_free s p) bs1 ∧ (mm_free s p).heap_listp = s.heap_listp ∧
      (mm_free s p).mem_brk = s.mem_brk ∧
      Cov s.heap_listp bs1 p (p + b.size) ∧
      (∀ lo hi, Cov s.heap_listp bs lo hi → Cov s.heap_listp bs1 lo hi) ∧
      (∀ q c, (q, c) ∈ starts s.heap_listp bs → c.alloc = true → q ≠ p →
        (q, c) ∈ starts s.heap_listp bs1) ∧
      ((∃ q f, (q, f) ∈ starts s.heap_listp bs ∧ f.alloc = false ∧
          (q + f.size = p ∨ q = p + b.size)) →
        ∃ f1, ((mm_free s p).heap_nextp, f1) ∈ starts s.heap_listp bs1 ∧ f1.alloc = false ∧
          (mm_free s p).heap_nextp ≤ p ∧ p + b.size ≤ (mm_free s p).heap_nextp + f1.size) ∧
      (∀ q c, (q, c) ∈ starts s.heap_listp bs → c.alloc = true → q ≠ p →
        ∀ x, q - 4 ≤ x → x + 4 < q + c.size → (mm_free s p).mem x = s.mem x) := by
  obtain ⟨L, M1, M2, R, e, hpp, hM, hh, hfr, c1, c2, c3, c4, c5⟩ := mm_free_spec s bs p b h hp
  have htM : total (M1 ++ b :: M2) = total M1 + (b.size + total M2) := by
    simp [total_append, total]
  have hmid := mem_starts_mid s.heap_listp L R ⟨total (M1 ++ b :: M2), false⟩
  have hpos := Heap_pos s bs h
  have hb8 := hpos b (mem_starts_mem _ _ _ _ hp)
  refine ⟨_, hh, c4, c2, ?_, ?_, ?_, ?_, ?_⟩
  · exact ⟨_, _, hmid, rfl, by omega, by simp only []; omega⟩
  · rintro lo hi ⟨q, f, hq, hf, hlo, hhi⟩
    rw [e] at hq
    rcases starts_replace s.heap_listp L (M1 ++ b :: M2) [⟨total (M1 ++ b :: M2), false⟩] R q f
      (by simp [total]) hq with h1 | h1
    · exact ⟨q, f, by simpa using h1, hf, hlo, hhi⟩
    · have := mem_starts_ge _ _ _ _ h1
      exact ⟨_, _, hmid, rfl, by omega, by simp only []; omega⟩
  · intro q c hc hca hqp
    rw [e] at hc
    rcases starts_replace s.heap_listp L (M1 ++ b :: M2) [⟨total (M1 ++ b :: M2), false⟩] R q c
      (by simp [total]) hc with h1 | h1
    · simpa using h1
    · exfalso
      rw [starts_append] at h1
      simp only [starts, List.mem_append, List.mem_cons, Prod.mk.injEq] at h1
      rcases h1 with h1 | ⟨h1, -⟩ | h1
      · have := hM c (by simp [mem_starts_mem _ _ _ _ h1])
        rw [this] at hca; cases hca
      · exact hqp (by omega)
      · have := hM c (by simp [mem_starts_mem _ _ _ _ h1])
        rw [this] at hca; cases hca
  · rintro ⟨q, f, hq, hf, hadj⟩
    have hne : ¬ (M1 = [] ∧ M2 = []) := by
      rintro ⟨rfl, rfl⟩
      simp only [List.nil_append, total, Nat.add_zero] at hh hpp e
      have hq1 : (q, f) ∈ starts s.heap_listp (L ++ ⟨b.size, false⟩ :: R) := by
        rw [e] at hq
        rcases starts_replace s.heap_listp L [b] [⟨b.size, false⟩] R q f
          (by simp [total]) (by simpa using hq) with h1 | h1
        · simpa using h1
        · simp only [starts, List.mem_singleton, Prod.mk.injEq] at h1
          rw [h1.2, hb] at hf; cases hf
      have hp1 : (p, (⟨b.size, false⟩ : Blk)) ∈ starts s.heap_listp (L ++ ⟨b.size, false⟩ :: R) := by
        rw [hpp]; exact mem_starts_mid _ _ _ _
      have hpos1 := Heap_pos _ _ hh
      have hn1 := hh.nadj
      rcases hadj with hadj | hadj
      · have := starts_adjacent _ _ hpos1 hn1 q p f _ hq1 hp1 hadj
        rw [hf] at this; simp at this
      · have := starts_adjacent _ _ hpos1 hn1 p q _ f hp1 hq1 (by simp only []; omega)
        rw [hf] at this; simp at this
    rw [c1, if_neg hne]
    exact ⟨_, hmid, rfl, by omega, by simp only []; omega⟩
  · intro q c hc hca hqp x hx1 hx2
    apply hfr
    rw [e] at hc
    rw [starts_append, starts_append, List.mem_append, List.mem_append] at hc
    rcases hc with (hc | hc) | hc
    · have := (mem_starts_ge _ _ _ _ hc).2
      left; omega
    · exfalso
      rw [starts_append] at hc
      simp only [starts, List.mem_append, List.mem_cons, Prod.mk.injEq] at hc
      rcases hc with h1 | ⟨h1, -⟩ | h1
      · have := hM c (by simp [mem_starts_mem _ _ _ _ h1])
        rw [this] at hca; cases hca
      · exact hqp (by omega)
      · have := hM c (by simp [mem_starts_mem _ _ _ _ h1])
        rw [this] at hca; cases hca
    · have := (mem_starts_ge _ _ _ _ hc).1
      rw [total_append] at this
      have hc8 := hpos c (by rw [e]; simp [mem_starts_mem _ _ _ _ hc])
      right; omega

theorem block_of_ptr (s : State) (bs : List Blk) (p : Nat) (h : Heap s bs)
    (hp : p ∈ blocks s) :
    ∃ b, (p, b) ∈ starts s.heap_listp bs ∧ GET_SIZE s.mem (HDRP p) = b.size ∧
      GET_ALLOC s.mem (HDRP p) = (if b.alloc then 1 else 0) := by
  rw [blocks_eq s bs h] at hp
  simp only [List.mem_map, Prod.exists, exists_and_right, exists_eq_right] at hp
  obtain ⟨b, hb⟩ := hp
  obtain ⟨_, bm, bh, _⟩ := Heap_block s bs p b h hb
  exact ⟨b, hb, word_size _ _ b bm bh, word_alloc _ _ b bm bh⟩

theorem next_block (s : State) (bs : List Blk) (p : Nat) (b : Blk) (h : Heap s bs)
    (hp : (p, b) ∈ starts s.heap_listp bs) (hne : GET_SIZE s.mem (HDRP (p + b.size)) ≠ 0) :
    ∃ c, (p + b.size, c) ∈ starts s.heap_listp bs ∧
      GET_SIZE s.mem (HDRP (p + b.size)) = c.size ∧
      GET_ALLOC s.mem (HDRP (p + b.size)) = (if c.alloc then 1 else 0) := by
  obtain ⟨pre, post, rfl, hpp⟩ := mem_starts_split _ _ _ _ hp
  cases post with
  | nil =>
    exfalso
    apply hne
    have hepi := h.epi
    rw [total_append] at hepi
    simp only [total, Nat.add_zero] at hepi
    have e : p + b.size - 4 = s.heap_listp + (total pre + b.size) - 4 := by omega
    unfold HDRP WSIZE
    rw [e]
    exact epilogue_size _ _ hepi
  | cons c post =>
    have hc : (p + b.size, c) ∈ starts s.heap_listp (pre ++ b :: c :: post) := by
      have := mem_starts_mid s.heap_listp (pre ++ [b]) post c
      rw [total_append] at this
      simp only [total, Nat.add_zero, List.append_assoc, List.singleton_append] at this
      rw [hpp, Nat.add_assoc]; exact this
    obtain ⟨_, cm, ch, _⟩ := Heap_block s _ _ c h hc
    exact ⟨c, hc, word_size _ _ c cm ch, word_alloc _ _ c cm ch⟩

theorem alloc_of_bit (b : Blk) (h : (if b.alloc then 1 else 0) = 1) : b.alloc = true := by
  cases hb : b.alloc
  · rw [hb] at h; simp at h
  · rfl

/-! ## Claim C5: three adjacent blocks -/

theorem three_free (s : State) (bs : List Blk) (h : Heap s bs) (x y z : Nat) (X Y Z : Blk)
    (hx : (x, X) ∈ starts s.heap_listp bs) (hy : (y, Y) ∈ starts s.heap_listp bs)
    (hz : (z, Z) ∈ starts s.heap_listp bs)
    (aX : X.alloc = true) (aY : Y.alloc = true) (aZ : Z.alloc = true)
    (hxy : x ≠ y) (hxz : x ≠ z) (hyz : y ≠ z)
    (hadj : x + X.size = z ∨ z + Z.size = x ∨ y + Y.size = z ∨ z + Z.size = y) :
    ∃ bs3, Heap (mm_free (mm_free (mm_free s x) y) z) bs3 ∧
      (mm_free (mm_free (mm_free s x) y) z).heap_listp = s.heap_listp ∧
      (mm_free (mm_free (mm_free s x) y) z).mem_brk = s.mem_brk ∧
      Cov s.heap_listp bs3 x (x + X.size) ∧ Cov s.heap_listp bs3 y (y + Y.size) ∧
      Cov s.heap_listp bs3 z (z + Z.size) ∧
      ∃ f, ((mm_free (mm_free (mm_free s x) y) z).heap_nextp, f) ∈ starts s.heap_listp bs3 ∧
        f.alloc = false ∧ (mm_free (mm_free (mm_free s x) y) z).heap_nextp ≤ z ∧
        z + Z.size ≤ (mm_free (mm_free (mm_free s x) y) z).heap_nextp + f.size := by
  obtain ⟨bs1, h1, l1, b1, cov1, mono1, keep1, -, -⟩ := free_step s bs x X h hx aX
  have hy1 := keep1 y Y hy aY (Ne.symm hxy)
  have hz1 := keep1 z Z hz aZ (Ne.symm hxz)
  rw [← l1] at hy1 hz1 cov1 mono1
  obtain ⟨bs2, h2, l2, b2, cov2, mono2, keep2, -, -⟩ := free_step _ bs1 y Y h1 hy1 aY
  have hz2 := keep2 z Z hz1 aZ (Ne.symm hyz)
  have cx2 := mono2 _ _ cov1
  rw [← l2] at hz2 cov2 cx2
  obtain ⟨bs3, h3, l3, b3, cov3, mono3, keep3, cur3, -⟩ := free_step _ bs2 z Z h2 hz2 aZ
  have hpos2 := Heap_pos _ _ h2
  have hX8 := Heap_pos s bs h X (mem_starts_mem _ _ _ _ hx)
  have hY8 := Heap_pos s bs h Y (mem_starts_mem _ _ _ _ hy)
  have hZ8 := Heap_pos s bs h Z (mem_starts_mem _ _ _ _ hz)
  have hll : (mm_free (mm_free s x) y).heap_listp = s.heap_listp := by rw [l2, l1]
  -- in the heap before the third call, a neighbour of `z` is free
  have key : ∀ (w : Nat) (W : Blk), Cov (mm_free (mm_free s x) y).heap_listp bs2 w (w + W.size) → 8 ≤ W.size →
      (w + W.size = z ∨ z + Z.size = w) →
      ∃ q f, (q, f) ∈ starts (mm_free (mm_free s x) y).heap_listp bs2 ∧ f.alloc = false ∧
        (q + f.size = z ∨ q = z + Z.size) := by
    rintro w W ⟨q, f, hq, hf, c1, c2⟩ hW hwz
    refine ⟨q, f, hq, hf, ?_⟩
    rcases starts_disjoint _ bs2 hpos2 q z f Z hq hz2 with ⟨-, e⟩ | hd | hd
    · rw [e, aZ] at hf; cases hf
    · rcases hwz with hwz | hwz
      · left; omega
      · omega
    · rcases hwz with hwz | hwz
      · omega
      · right; omega
  have hnb : ∃ q f, (q, f) ∈ starts (mm_free (mm_free s x) y).heap_listp bs2 ∧ f.alloc = false ∧
      (q + f.size = z ∨ q = z + Z.size) := by
    rcases hadj with e | e | e | e
    · exact key x X cx2 hX8 (Or.inl e)
    · exact key x X cx2 hX8 (Or.inr e)
    · exact key y Y cov2 hY8 (Or.inl e)
    · exact key y Y cov2 hY8 (Or.inr e)
  obtain ⟨f, hf1, hf2, hf3, hf4⟩ := cur3 hnb
  rw [hll] at cov3 mono3 hf1 cov2 cx2
  exact ⟨bs3, h3, by rw [l3, hll], by rw [b3, b2, b1], mono3 _ _ cx2, mono3 _ _ cov2, cov3,
    f, hf1, hf2, hf3, hf4⟩

theorem three_merge (s : State) (bs : List Blk) (h : Heap s bs) (pA sA sB sC : Nat)
    (hA : 8 ≤ sA) (hB : 8 ≤ sB) (hC : 8 ≤ sC)
    (cA : Cov s.heap_listp bs pA (pA + sA)) (cB : Cov s.heap_listp bs (pA + sA) (pA + sA + sB))
    (cC : Cov s.heap_listp bs (pA + sA + sB) (pA + sA + sB + sC))
    (q : Nat) (f : Blk) (hq : (q, f) ∈ starts s.heap_listp bs) (hf : f.alloc = false)
    (lo hi : Nat) (hlo : pA ≤ lo) (hlh : lo < hi) (hhi : hi ≤ pA + sA + sB + sC)
    (c1 : q ≤ lo) (c2 : hi ≤ q + f.size) : sA + sB + sC ≤ f.size := by
  obtain ⟨qA, fA, hA1, hA2, hA3, hA4⟩ := cA
  obtain ⟨qB, fB, hB1, hB2, hB3, hB4⟩ := cB
  obtain ⟨qC, fC, hC1, hC2, hC3, hC4⟩ := cC
  obtain ⟨e1, e2⟩ := cov_same s bs h qA qB fA fB hA1 hB1 hA2 hB2 pA (pA + sA) (pA + sA + sB)
    hA3 hA4 hB3 hB4 (by omega) (by omega)
  obtain ⟨e3, e4⟩ := cov_same s bs h qB qC fB fC hB1 hC1 hB2 hC2 (pA + sA) (pA + sA + sB)
    (pA + sA + sB + sC) hB3 hB4 hC3 hC4 (by omega) (by omega)
  subst e1 e2 e3 e4
  rcases starts_disjoint _ bs (Heap_pos s bs h) q qA f fA hq hA1 with ⟨e5, e6⟩ | hd | hd
  · subst e5 e6; omega
  · omega
  · omega

theorem malloc_at_cursor (s : State) (bs : List Blk) (h : Heap s bs) (f : Blk)
    (hq : (s.heap_nextp, f) ∈ starts s.heap_listp bs) (hf : f.alloc = false) (n : Nat)
    (h0 : 0 < n) (hn : n + 15 ≤ f.size) :
    ∃ p s1, mm_malloc s n = some (some p, s1) ∧ s1.mem_brk = s.mem_brk := by
  obtain ⟨pre, post, e, hpp⟩ := mem_starts_split _ _ _ _ hq
  have htl := Heap_total_lt s bs h
  have hfs : f.size ≤ total bs := by
    rw [e, total_append]; simp only [total]; omega
  have hn1 : n + 15 < U32 := by omega
  obtain ⟨_, _, _, amax⟩ := adjust_bounds n h0 hn1
  subst e
  obtain ⟨s1, hm, -, -, -, hb, -⟩ := mm_malloc_fit_at s pre [] f post n (by simpa using h)
    hpp (by simp) hf (by omega) h0 hn1
  exact ⟨_, s1, hm, hb⟩

theorem three_blocks (s : State) (bs : List Blk) (h : Heap s bs) (pA : Nat) (A B C : Blk)
    (hA : (pA, A) ∈ starts s.heap_listp bs) (hB : (pA + A.size, B) ∈ starts s.heap_listp bs)
    (hC : (pA + A.size + B.size, C) ∈ starts s.heap_listp bs)
    (aA : A.alloc = true) (aB : B.alloc = true) (aC : C.alloc = true) (x y z : Nat)
    (hx : x = pA ∨ x = pA + A.size ∨ x = pA + A.size + B.size)
    (hy : y = pA ∨ y = pA + A.size ∨ y = pA + A.size + B.size)
    (hz : z = pA ∨ z = pA + A.size ∨ z = pA + A.size + B.size)
    (hxy : x ≠ y) (hxz : x ≠ z) (hyz : y ≠ z) (n : Nat) (h0 : 0 < n)
    (hn : n + 15 ≤ A.size + B.size + C.size) :
    ∃ p s4, mm_malloc (mm_free (mm_free (mm_free s x) y) z) n = some (some p, s4) ∧
      s4.mem_brk = s.mem_brk := by
  have hA8 := Heap_pos s bs h A (mem_starts_mem _ _ _ _ hA)
  have hB8 := Heap_pos s bs h B (mem_starts_mem _ _ _ _ hB)
  have hC8 := Heap_pos s bs h C (mem_starts_mem _ _ _ _ hC)
  have fin : ∀ (X Y Z : Blk), (x, X) ∈ starts s.heap_listp bs → (y, Y) ∈ starts s.heap_listp bs →
      (z, Z) ∈ starts s.heap_listp bs → X.alloc = true → Y.alloc = true → Z.alloc = true →
      (x + X.size = z ∨ z + Z.size = x ∨ y + Y.size = z ∨ z + Z.size = y) →
      (∀ l, Cov s.heap_listp l x (x + X.size) → Cov s.heap_listp l y (y + Y.size) →
        Cov s.heap_listp l z (z + Z.size) →
        Cov s.heap_listp l pA (pA + A.size) ∧
        Cov s.heap_listp l (pA + A.size) (pA + A.size + B.size) ∧
        Cov s.heap_listp l (pA + A.size + B.size) (pA + A.size + B.size + C.size)) →
      pA ≤ z → z + Z.size ≤ pA + A.size + B.size + C.size → 8 ≤ Z.size →
      ∃ p s4, mm_malloc (mm_free (mm_free (mm_free s x) y) z) n = some (some p, s4) ∧
        s4.mem_brk = s.mem_brk := by
    intro X Y Z hX hY hZ aX aY aZ hadj hcov hz1 hz2 hz8
    obtain ⟨bs3, h3, l3, b3, cx, cy, cz, f, hf1, hf2, hf3, hf4⟩ :=
      three_free s bs h x y z X Y Z hX hY hZ aX aY aZ hxy hxz hyz hadj
    obtain ⟨kA, kB, kC⟩ := hcov bs3 cx cy cz
    rw [← l3] at kA kB kC hf1
    have hsz := three_merge _ bs3 h3 pA A.size B.size C.size hA8 hB8 hC8 kA kB kC _ f hf1 hf2
      z (z + Z.size) hz1 (by omega) hz2 hf3 hf4
    obtain ⟨p, s4, hm, hb⟩ := malloc_at_cursor _ bs3 h3 f hf1 hf2 n h0 (by omega)
    exact ⟨p, s4, hm, by rw [hb, b3]⟩
  rcases hx with rfl | rfl | rfl <;> rcases hy with rfl | rfl | rfl <;>
    rcases hz with rfl | rfl | rfl <;> first
    | exact absurd rfl hxy
    | exact absurd rfl hxz
    | exact absurd rfl hyz
    | exact fin A B C hA hB hC aA aB aC (by omega) (fun l c1 c2 c3 => ⟨c1, c2, c3⟩)
        (by omega) (by omega) hC8
    | exact fin A C B hA hC hB aA aC aB (by omega) (fun l c1 c2 c3 => ⟨c1, c3, c2⟩)
        (by omega) (by omega) hB8
    | exact fin B A C hB hA hC aB aA aC (by omega) (fun l c1 c2 c3 => ⟨c2, c1, c3⟩)
        (by omega) (by omega) hC8
    | exact fin B C A hB hC hA aB aC aA (by omega) (fun l c1 c2 c3 => ⟨c3, c1, c2⟩)
        (by omega) (by omega) hA8
    | exact fin C A B hC hA hB aC aA aB (by omega) (fun l c1 c2 c3 => ⟨c2, c3, c1⟩)
        (by omega) (by omega) hB8
    | exact fin C B A hC hB hA aC aB aA (by omega) (fun l c1 c2 c3 => ⟨c3, c2, c1⟩)
        (by omega) (by omega) hA8

/-- C5: in a well-formed heap with three allocated blocks `pA`, `pB`, `pC` placed
adjacently in this order, of sizes at least `a + 8`, `b + 8` and `c + 8` (as blocks
obtained from requests of `a`, `b` and `c` bytes are), with `a + b + c > 8`: after
`mm_free` on the three pointers in any order, `mm_malloc(a + b + c - 8)` returns a
non-null pointer and the arena size is the one before the three calls. -/
theorem coalesce_three (s : State) (pA pB pC a b c x y z : Nat) (hwf : WellFormed s)
    (hA : pA ∈ blocks s) (hB : pB = NEXT_BLKP s.mem pA) (hC : pC = NEXT_BLKP s.mem pB)
    (hAa : GET_ALLOC s.mem (HDRP pA) = 1) (hBa : GET_ALLOC s.mem (HDRP pB) = 1)
    (hCa : GET_ALLOC s.mem (HDRP pC) = 1) (hAs : a + 8 ≤ GET_SIZE s.mem (HDRP pA))
    (hBs : b + 8 ≤ GET_SIZE s.mem (HDRP pB)) (hCs : c + 8 ≤ GET_SIZE s.mem (HDRP pC))
    (hpos : 8 < a + b + c) (hperm : [x, y, z].Perm [pA, pB, pC]) :
    ∃ p s4, mm_malloc (mm_free (mm_free (mm_free s x) y) z) (a + b + c - 8)
        = some (some p, s4) ∧ s4.mem_brk = s.mem_brk := by
  obtain ⟨bs, h⟩ := hwf
  obtain ⟨A, hA1, hA2, hA3⟩ := block_of_ptr s bs pA h hA
  have eB : pB = pA + A.size := by rw [hB]; unfold NEXT_BLKP; rw [← hA2]; rfl
  subst eB
  obtain ⟨B, hB1, hB2, hB3⟩ := next_block s bs pA A h hA1 (by omega)
  have eC : pC = pA + A.size + B.size := by rw [hC]; unfold NEXT_BLKP; rw [← hB2]; rfl
  subst eC
  obtain ⟨C, hC1, hC2, hC3⟩ := next_block s bs (pA + A.size) B h hB1 (by omega)
  rw [hA3] at hAa; rw [hB3] at hBa; rw [hC3] at hCa
  rw [hA2] at hAs; rw [hB2] at hBs; rw [hC2] at hCs
  have hA8 := Heap_pos s bs h A (mem_starts_mem _ _ _ _ hA1)
  have hB8 := Heap_pos s bs h B (mem_starts_mem _ _ _ _ hB1)
  have hx : x ∈ [pA, pA + A.size, pA + A.size + B.size] := hperm.subset (by simp)
  have hy : y ∈ [pA, pA + A.size, pA + A.size + B.size] := hperm.subset (by simp)
  have hz : z ∈ [pA, pA + A.size, pA + A.size + B.size] := hperm.subset (by simp)
  have hnd : [x, y, z].Nodup := hperm.nodup_iff.2 (by simp; omega)
  simp only [List.mem_cons, List.mem_singleton, List.not_mem_nil, or_false] at hx hy hz
  simp only [List.nodup_cons, List.mem_cons, List.mem_singleton, not_or, List.not_mem_nil,
    not_false_eq_true, List.nodup_nil, and_true] at hnd
  exact three_blocks s bs h pA A B C hA1 hB1 hC1 (alloc_of_bit A hAa) (alloc_of_bit B hBa)
    (alloc_of_bit C hCa) x y z hx hy hz hnd.1.1 hnd.1.2 hnd.2 (a + b + c - 8) (by omega)
    (by omega)

/-! ## The example scenario -/

theorem adjust_100 : adjust 100 = 112 := by decide
theorem adjust_200 : adjust 200 = 208 := by decide
theorem adjust_50 : adjust 50 = 64 := by decide

theorem scenario_chain (s0 s1 : State) (hlim : s0.mem_max_addr < s0.mem_brk + U32)
    (h1 : mm_init s0 = some s1) :
    ∃ s2 s3 s5, mm_malloc s1 100 = some (some (s0.mem_brk + 16), s2) ∧
      mm_malloc s2 200 = some (some (s0.mem_brk + 128), s3) ∧
      mm_malloc (mm_free s3 (s0.mem_brk + 16)) 50 = some (some (s0.mem_brk + 336), s5) ∧
      s5.mem_brk = s0.mem_brk + 4112 ∧ (mm_free s3 (s0.mem_brk + 16)).mem_brk = s0.mem_brk + 4112 ∧
      Heap s5 [⟨112, false⟩, ⟨208, true⟩, ⟨64, true⟩, ⟨3712, false⟩] ∧
      s5.heap_listp = s0.mem_brk + 16 := by
  obtain ⟨i1, i2, i3, i4, -⟩ := mm_init_some s0 s1 hlim h1
  have hU : U32 = 4294967296 := rfl
  -- mm_malloc(100)
  obtain ⟨s2, m1, hh2, -, c2, b2, -, l2, -⟩ := mm_malloc_fit_at s1 [] [] ⟨4096, false⟩ [] 100
    (by simpa using i1) (by simp [total, i2, i3]) (by simp) rfl (by rw [adjust_100]; simp) (by omega)
    (by omega)
  have e2 : ([] : List Blk) ++ [] ++ placeL ⟨4096, false⟩ (adjust 100) ++ []
      = [⟨112, true⟩, ⟨3984, false⟩] := by
    rw [adjust_100]; simp [placeL]
  rw [e2] at hh2
  simp only [List.append_nil, total, Nat.add_zero] at m1 c2
  rw [i2] at m1 c2 l2
  -- mm_malloc(200)
  obtain ⟨s3, m2, hh3, -, c3, b3, -, l3, -⟩ := mm_malloc_fit_at s2 [] [⟨112, true⟩]
    ⟨3984, false⟩ [] 200 (by simpa using hh2) (by simp [total, c2, l2]) (by simp) rfl
    (by rw [adjust_200]; simp) (by omega) (by omega)
  have e3 : ([] : List Blk) ++ [⟨112, true⟩] ++ placeL ⟨3984, false⟩ (adjust 200) ++ []
      = [⟨112, true⟩, ⟨208, true⟩, ⟨3776, false⟩] := by
    rw [adjust_200]; simp [placeL]
  rw [e3] at hh3
  simp only [List.nil_append, total, Nat.add_zero] at m2 c3
  rw [l2] at m2 c3 l3
  -- mm_free(p1)
  obtain ⟨bs4, e4, hh4, c4, b4, l4⟩ := mm_free_at s3 _ [] prologue ⟨112, true⟩
    [⟨208, true⟩, ⟨3776, false⟩] hh3 rfl
  have ep : s3.heap_listp - 8 + total [] + prologue.size = s0.mem_brk + 16 := by
    simp only [total, prologue, l3]; omega
  rw [ep] at hh4 c4 b4 l4
  have e5 : bs4 = [⟨112, false⟩, ⟨208, true⟩, ⟨3776, false⟩] := by
    have : coalL prologue ⟨112, false⟩ [⟨208, true⟩, ⟨3776, false⟩]
        = [prologue, ⟨112, false⟩, ⟨208, true⟩, ⟨3776, false⟩] := by
      simp [coalL, prologue]
    simp only [List.nil_append] at e4
    rw [this] at e4
    simpa using e4
  subst e5
  have c4a : (mm_free s3 (s0.mem_brk + 16)).heap_nextp = s0.mem_brk + 128 := by
    rw [c4, c3]; simp [prologue, headAlloc]
  -- mm_malloc(50)
  obtain ⟨s5, m5, hh5, -, c5, b5, -, l5, -⟩ := mm_malloc_fit_at (mm_free s3 (s0.mem_brk + 16))
    [⟨112, false⟩] [⟨208, true⟩] ⟨3776, false⟩ [] 50 (by simpa using hh4)
    (by rw [c4a, l4, l3]; simp [total]) (by simp) rfl (by rw [adjust_50]; simp) (by omega)
    (by omega)
  have e6 : [⟨112, false⟩] ++ [⟨208, true⟩] ++ placeL ⟨3776, false⟩ (adjust 50) ++ []
      = [⟨112, false⟩, ⟨208, true⟩, ⟨64, true⟩, ⟨3712, false⟩] := by
    rw [adjust_50]; simp [placeL]
  rw [e6] at hh5
  simp only [List.singleton_append, total, Nat.add_zero] at m5
  rw [l4, l3] at m5 l5
  refine ⟨s2, s3, s5, m1, m2, ?_, by rw [b5, b4, b3, b2, i4], by rw [b4, b3, b2, i4], hh5, l5⟩
  rw [m5]

/-! ## Concrete states -/

theorem afterMalloc_eq (s : State) (n : Nat) (r : Option Nat)
    (h : (mm_malloc s n).map Prod.fst = some r) : mm_malloc s n = some (r, afterMalloc s n) := by
  unfold afterMalloc
  cases hm : mm_malloc s n with
  | none => rw [hm] at h; cases h
  | some x =>
    rw [hm] at h
    simp only [Option.map_some', Option.some.injEq] at h
    subst h
    rfl

theorem demoInit_lim : demoInit.mem_max_addr < demoInit.mem_brk + U32 := by decide

theorem demoHeap_eq : mm_init demoInit = some demoHeap := by
  obtain ⟨s, hs, -⟩ := mm_init_spec demoInit demoInit_lim (by decide)
  unfold demoHeap
  rw [hs]; rfl

theorem demoLive_eq : mm_malloc demoHeap 100 = some (some 4112, demoLive) :=
  afterMalloc_eq demoHeap 100 (some 4112) (by decide)

theorem demoHeap_reach : Reach 4096 demoHeap [] :=
  Reach.init demoInit demoHeap rfl demoInit_lim demoHeap_eq

theorem demoLive_reach : Reach 4096 demoLive [4112] :=
  Reach.malloc demoHeap demoLive [] 100 (some 4112) demoHeap_reach (by norm_num) demoLive_eq

theorem demoLive_wf : WellFormed demoLive := by
  obtain ⟨bs, h, -⟩ := reach_inv _ _ _ demoLive_reach
  exact ⟨bs, h⟩

theorem demoThree_reach : Reach 4096 demoThree [4168, 4136, 4112] := by
  have h1 := Reach.malloc demoHeap _ [] 10 (some 4112) demoHeap_reach (by norm_num)
    (afterMalloc_eq demoHeap 10 (some 4112) (by decide))
  have h2 := Reach.malloc _ _ _ 20 (some 4136) h1 (by norm_num)
    (afterMalloc_eq (afterMalloc demoHeap 10) 20 (some 4136) (by decide))
  exact Reach.malloc _ _ _ 30 (some 4168) h2 (by norm_num)
    (afterMalloc_eq (afterMalloc (afterMalloc demoHeap 10) 20) 30 (some 4168) (by decide))

theorem demoThree_wf : WellFormed demoThree := by
  obtain ⟨bs, h, -⟩ := reach_inv _ _ _ demoThree_reach
  exact ⟨bs, h⟩

/-! ## Claims C7 and C8: `mm_realloc` and `exit` -/

theorem extend_heap_none (s : State) (words : Nat) :
    ((extend_heap s words).1 = none ↔ mem_sbrk s (extend_size words) = none) ∧
    ((extend_heap s words).1 = none → (extend_heap s words).2 = s) := by
  unfold extend_heap extend_size
  simp only []
  cases h : mem_sbrk s (if (words % U32) % 2 ≠ 0 then ((words % U32 + 1) * WSIZE) % U32
      else ((words % U32) * WSIZE) % U32) with
  | none => simp
  | some r => simp

theorem find_fit_state (s : State) (asize : Nat) (s1 : State)
    (h : find_fit s asize = some (none, s1)) : s1 = s := by
  unfold find_fit at h
  cases hl : find_fit_loop s.mem (asize % U32) s.mem_brk s.heap_nextp with
  | none => rw [hl] at h; cases h
  | some r =>
    rw [hl] at h
    cases r with
    | none => simp only [Option.some.injEq, Prod.mk.injEq, true_and] at h; exact h.symm
    | some bp => simp at h

theorem malloc_null_state (s : State) (n : Nat) (s1 : State)
    (h : mm_malloc s n = some (none, s1)) : s1 = { s with count := s.count + 1 } := by
  unfold mm_malloc at h
  simp only [] at h
  by_cases h0 : n = 0
  · simp only [h0, if_true, Option.some.injEq, Prod.mk.injEq, true_and] at h
    exact h.symm
  · simp only [h0, if_false] at h
    cases hf : find_fit { s with count := s.count + 1 } (adjust n) with
    | none => rw [hf] at h; cases h
    | some r =>
      obtain ⟨r1, s2⟩ := r
      rw [hf] at h
      cases r1 with
      | some bp => simp at h
      | none =>
        have e2 := find_fit_state _ _ _ hf
        subst e2
        simp only [] at h
        rcases hx : extend_heap { s with count := s.count + 1 }
          ((MAX (toInt32 (adjust n)) (CHUNKSIZE : Int)).toNat / WSIZE) with ⟨r3, s3⟩
        rw [hx] at h
        cases r3 with
        | some bp => simp at h
        | none =>
          simp only [Option.some.injEq, Prod.mk.injEq, true_and] at h
          have := (extend_heap_none { s with count := s.count + 1 }
            ((MAX (toInt32 (adjust n)) (CHUNKSIZE : Int)).toNat / WSIZE)).2 (by rw [hx])
          rw [hx] at this
          simp only [] at this
          rw [← h, this]

/-- C7 (amended): when the `mm_malloc` call made inside `mm_realloc(p, n)` fails,
`mm_realloc` terminates the process with `exit(1)`; at that point the arena contents
(and with them the block at `p` and its payload), the arena size and the cursor are
the ones before the call. -/
theorem realloc_failure_exits (s s1 : State) (p n : Nat)
    (h : mm_malloc s n = some (none, s1)) :
    mm_realloc s p n = some (Outcome.exit 1 s1) ∧ s1.mem = s.mem ∧
      s1.mem_brk = s.mem_brk ∧ s1.heap_nextp = s.heap_nextp ∧
      GET_ALLOC s1.mem (HDRP p) = GET_ALLOC s.mem (HDRP p) := by
  have e := malloc_null_state s n s1 h
  refine ⟨?_, by rw [e], by rw [e], by rw [e], by rw [e]⟩
  unfold mm_realloc
  rw [h]

/-- C8 (amended): `mm_realloc(p, 0)` terminates the process with `exit(1)`: the inner
`mm_malloc(0)` returns `NULL`. The block at `p` is not released; only `count` has
changed. -/
theorem realloc_zero_exits (s : State) (p : Nat) :
    mm_realloc s p 0 = some (Outcome.exit 1 { s with count := s.count + 1 }) := by
  unfold mm_realloc
  rw [mm_malloc_zero]

theorem demoLive_fail : mm_malloc demoLive 5000
    = some (none, { demoLive with count := demoLive.count + 1 }) := by
  have h1 : (mm_malloc demoLive 5000).map Prod.fst = some none := by decide
  cases h : mm_malloc demoLive 5000 with
  | none => rw [h] at h1; cases h1
  | some r =>
    obtain ⟨r1, s1⟩ := r
    rw [h] at h1
    simp only [Option.map_some', Option.some.injEq] at h1
    subst h1
    rw [malloc_null_state _ _ _ h]

/-- Witness of `realloc_failure_exits`: in the state after `mm_init` and
`mm_malloc(100) = 4112` on an arena of 8192 bytes, `mm_malloc(5000)` fails. -/
theorem realloc_failure_exits_witness :
    mm_malloc demoLive 5000 = some (none, { demoLive with count := demoLive.count + 1 }) ∧
    (mm_realloc demoLive 4112 5000
        = some (Outcome.exit 1 { demoLive with count := demoLive.count + 1 }) ∧
      demoLive.mem = demoLive.mem ∧ demoLive.mem_brk = demoLive.mem_brk ∧
      demoLive.heap_nextp = demoLive.heap_nextp ∧
      GET_ALLOC demoLive.mem (HDRP 4112) = GET_ALLOC demoLive.mem (HDRP 4112)) :=
  ⟨demoLive_fail, realloc_failure_exits demoLive _ 4112 5000 demoLive_fail⟩

/-- Counterexample to C7 as stated: in the reachable state `demoLive`, where 4112 is
live, the inner `mm_malloc(5000)` fails, and `mm_realloc(4112, 5000)` does not return
`NULL`: it ends in `exit(1)`. -/
theorem realloc_failure_not_null :
    Reach 4096 demoLive [4112] ∧ (mm_malloc demoLive 5000).map Prod.fst = some none ∧
    (∃ st, mm_realloc demoLive 4112 5000 = some (Outcome.exit 1 st)) ∧
    ¬ ∃ st, mm_realloc demoLive 4112 5000 = some (Outcome.ret none st) := by
  have h := demoLive_fail
  have hr : mm_realloc demoLive 4112 5000
      = some (Outcome.exit 1 { demoLive with count := demoLive.count + 1 }) := by
    unfold mm_realloc
    rw [h]
  refine ⟨demoLive_reach, by rw [h]; rfl, ⟨_, hr⟩, ?_⟩
  rintro ⟨st, hst⟩
  rw [hr] at hst
  cases hst

/-- Counterexample to C8 as stated: in the reachable state `demoLive`, where 4112 is
live, `mm_realloc(4112, 0)` does not return: it ends in `exit(1)` with the block at 4112
still allocated, whereas `mm_free(4112)` leaves that block free. -/
theorem realloc_zero_not_free :
    Reach 4096 demoLive [4112] ∧
    (∃ st, mm_realloc demoLive 4112 0 = some (Outcome.exit 1 st) ∧
      GET_ALLOC st.mem (HDRP 4112) = 1) ∧
    (¬ ∃ st, mm_realloc demoLive 4112 0 = some (Outcome.ret none st)) ∧
    GET_ALLOC (mm_free demoLive 4112).mem (HDRP 4112) = 0 := by
  have hr : mm_realloc demoLive 4112 0
      = some (Outcome.exit 1 { demoLive with count := demoLive.count + 1 }) := by
    unfold mm_realloc
    rw [mm_malloc_zero]
  refine ⟨demoLive_reach, ⟨_, hr, by decide⟩, ?_, by decide⟩
  rintro ⟨st, hst⟩
  rw [hr] at hst
  cases hst

/-! ## Claim C9: `mm_realloc` copies and releases -/

theorem mem_placeL_head (a : Nat) (f : Blk) (asize : Nat) :
    (a, (⟨asize, true⟩ : Blk)) ∈ starts a (placeL f asize) := by
  unfold placeL; split <;> simp [starts]

theorem malloc_step (s s1 : State) (bs : List Blk) (n q : Nat) (h : Heap s bs) (h0 : 0 < n)
    (hn : n ≤ 2 ^ 31 - 16) (hm : mm_malloc s n = some (some q, s1)) :
    ∃ bs1, Heap s1 bs1 ∧ s1.heap_listp = s.heap_listp ∧
      (q, (⟨adjust n, true⟩ : Blk)) ∈ starts s.heap_listp bs1 ∧
      (∀ p c, (p, c) ∈ starts s.heap_listp bs → c.alloc = true →
        (p, c) ∈ starts s.heap_listp bs1 ∧ p ≠ q ∧
        ∀ x, p - 4 ≤ x → x + 4 < p + c.size → s1.mem x = s.mem x) := by
  obtain ⟨pre, post, e, hcur, hres⟩ := mm_malloc_spec s bs n h h0 hn
  obtain ⟨a8, a16, _, _, _⟩ := adjust_spec n h0 hn
  have hpos := Heap_pos s bs h
  rcases hres with ⟨q1, f, R, e1, hq, hf, hfs, s2, hm2, hh, hfr, c1, c2, c3, c4, c5⟩ |
    ⟨hall, ⟨hlt, hm2⟩ | ⟨hfit, L, M, s2, eL, hM, hm2, hh, hfr, c1, c2, c3, c4, c5⟩⟩
  · rw [hm2] at hm
    simp only [Option.some.injEq, Prod.mk.injEq] at hm
    obtain ⟨rfl, rfl⟩ := hm
    have e2 : bs = (pre ++ q1) ++ [f] ++ R := by rw [e, e1]; simp
    have hfin : (s.heap_listp + total (pre ++ q1), f) ∈ starts s.heap_listp bs := by
      rw [e2]; simpa using mem_starts_mid s.heap_listp (pre ++ q1) R f
    have hf8 := hpos f (mem_starts_mem _ _ _ _ hfin)
    have hfm : f.size % 8 = 0 := (Heap_block s bs _ f h hfin).2.1
    refine ⟨_, hh, c4, ?_, ?_⟩
    · rw [starts_append, starts_append]
      apply List.mem_append_left
      apply List.mem_append_right
      exact mem_placeL_head _ _ _
    · intro p c hc hca
      have hne : ¬ (p = s.heap_listp + total (pre ++ q1) ∧ c = f) := by
        rintro ⟨-, rfl⟩; rw [hca] at hf; cases hf
      have hd : p + c.size ≤ s.heap_listp + total (pre ++ q1) ∨
          s.heap_listp + total (pre ++ q1) + f.size ≤ p := by
        rcases starts_disjoint _ bs hpos p _ c f hc hfin with hx | hx | hx
        · exact absurd hx hne
        · exact Or.inl hx
        · exact Or.inr hx
      have hc8 := hpos c (mem_starts_mem _ _ _ _ hc)
      refine ⟨?_, by omega, ?_⟩
      · rw [e2] at hc
        rcases starts_replace s.heap_listp (pre ++ q1) [f] (placeL f (adjust n)) R p c
          (by rw [total_placeL f _ hfs a8 hfm]; simp [total]) hc with h1 | h1
        · exact h1
        · simp only [starts, List.mem_singleton, Prod.mk.injEq] at h1
          exact absurd h1 hne
      · intro x hx1 hx2
        apply hfr
        omega
  · rw [hm2] at hm
    simp at hm
  · rw [hm2] at hm
    simp only [Option.some.injEq, Prod.mk.injEq] at hm
    obtain ⟨rfl, rfl⟩ := hm
    refine ⟨_, hh, c4, ?_, ?_⟩
    · rw [starts_append]
      apply List.mem_append_right
      exact mem_placeL_head _ _ _
    · intro p c hc hca
      rw [eL, starts_append, List.mem_append] at hc
      rcases hc with hc | hc
      · have := (mem_starts_ge _ _ _ _ hc).2
        have hc8 := hpos c (by rw [eL]; simp [mem_starts_mem _ _ _ _ hc])
        refine ⟨by rw [starts_append]; exact List.mem_append_left _ hc, by omega, ?_⟩
        intro x hx1 hx2
        apply hfr
        omega
      · exfalso
        have hcm := mem_starts_mem _ _ _ _ hc
        rcases hM with rfl | ⟨f, rfl, hf⟩
        · simp at hcm
        · simp only [List.mem_singleton] at hcm
          rw [hcm, hf] at hca; cases hca

theorem mem_blocks (s : State) (bs : List Blk) (p : Nat) (b : Blk) (h : Heap s bs)
    (hp : (p, b) ∈ starts s.heap_listp bs) : p ∈ blocks s := by
  rw [blocks_eq s bs h]
  exact List.mem_map.2 ⟨(p, b), hp, rfl⟩

/-- C9: in a well-formed heap, for an allocated block `p` and a request size `n` with
`0 < n ≤ 2 ^ 31 - 16` whose inner `mm_malloc` returns the non-null pointer `q`:
`mm_realloc(p, n)` returns `q`, `q` differs from `p`, the first `min(n, c)` bytes at `q`
after the call are the first `min(n, c)` bytes at `p` before it (`c` the size of the
block of `p` minus 8), the block at `q` is allocated, and the bytes of the former block
of `p` lie inside a free block. The heap is well-formed again. -/
theorem realloc_copies (s s1 : State) (p n q : Nat) (hwf : WellFormed s)
    (hp : p ∈ blocks s) (hpa : GET_ALLOC s.mem (HDRP p) = 1) (h0 : 0 < n)
    (hn : n ≤ 2 ^ 31 - 16) (hm : mm_malloc s n = some (some q, s1)) :
    ∃ s2, mm_realloc s p n = some (Outcome.ret (some q) s2) ∧ q ≠ p ∧
      (∀ i, i < min n (GET_SIZE s.mem (HDRP p) - 8) → s2.mem (q + i) = s.mem (p + i)) ∧
      q ∈ blocks s2 ∧ GET_ALLOC s2.mem (HDRP q) = 1 ∧
      (∃ fb ∈ blocks s2, GET_ALLOC s2.mem (HDRP fb) = 0 ∧ fb ≤ p ∧
        p + GET_SIZE s.mem (HDRP p) ≤ fb + GET_SIZE s2.mem (HDRP fb)) ∧
      WellFormed s2 := by
  obtain ⟨bs, h⟩ := hwf
  obtain ⟨b, hb1, hb2, hb3⟩ := block_of_ptr s bs p h hp
  rw [hb3] at hpa
  have hba := alloc_of_bit b hpa
  obtain ⟨a8, a16, an, _, _⟩ := adjust_spec n h0 hn
  obtain ⟨bs1, h1, l1, hq1, keep⟩ := malloc_step s s1 bs n q h h0 hn hm
  obtain ⟨hp1, hpq, hfr1⟩ := keep p b hb1 hba
  rw [← l1] at hp1 hq1
  obtain ⟨b8, bm, bh, bf⟩ := Heap_block s1 bs1 p b h1 hp1
  have hsz1 : GET_SIZE s1.mem (HDRP p) = b.size := word_size _ _ b bm bh
  -- the copy
  have h2 : Heap
      { s1 with mem := memcpy s1.mem q p (if n < b.size then n else b.size) } bs1 := by
    refine Heap_payload_write s1 bs1 _ q ⟨adjust n, true⟩ h1 hq1 ?_
    intro x hx
    simp only [] at hx
    unfold memcpy
    rw [if_neg]
    split <;> omega
  -- the release
  obtain ⟨bs3, h3, l3, -, cov3, -, keep3, -, fr3⟩ := free_step _ bs1 p b h2 hp1 hba
  have hq3 := keep3 q _ hq1 rfl (Ne.symm hpq)
  have hfr3 := fr3 q _ hq1 rfl (Ne.symm hpq)
  simp only [] at hq3 hfr3 cov3 l3
  have hr : mm_realloc s p n = some (Outcome.ret (some q)
      (mm_free { s1 with mem := memcpy s1.mem q p (if n < b.size then n else b.size) } p)) := by
    unfold mm_realloc
    rw [hm]
    simp only [hsz1]
  rw [← l3] at hq3 cov3
  refine ⟨_, hr, Ne.symm hpq, ?_, mem_blocks _ bs3 q _ h3 hq3, ?_, ?_, ⟨bs3, h3⟩⟩
  · intro i hi
    rw [hb2] at hi
    rw [hfr3 (q + i) (by omega) (by omega)]
    unfold memcpy
    rw [if_pos (by constructor <;> [omega; (split <;> omega)])]
    have e : q + i - q = i := by omega
    rw [e]
    exact hfr1 (p + i) (by omega) (by omega)
  · obtain ⟨_, qm, qh, _⟩ := Heap_block _ bs3 q _ h3 hq3
    simp only [HDRP, WSIZE]
    rw [word_alloc _ _ _ qm qh]; rfl
  · obtain ⟨fq, f, hf1, hf2, hf3, hf4⟩ := cov3
    obtain ⟨_, fm, fh, _⟩ := Heap_block _ bs3 fq f h3 hf1
    refine ⟨fq, mem_blocks _ bs3 fq f h3 hf1, ?_, hf3, ?_⟩
    · simp only [HDRP, WSIZE]
      rw [word_alloc _ _ _ fm fh, hf2]; rfl
    · rw [hb2]
      simp only [HDRP, WSIZE]
      rw [word_size _ _ _ fm fh]; exact hf4

/-! ## Claim C10: when `mm_malloc` returns `NULL` -/

theorem adjust_lt (n : Nat) : adjust n < U32 := by
  unfold adjust
  split
  · unfold DSIZE U32; omega
  · exact Nat.mod_lt _ (by unfold U32; omega)

theorem mem_sbrk_none_iff (s : State) (x : Nat) :
    mem_sbrk s x = none ↔ s.mem_max_addr < s.mem_brk + x := by
  unfold mem_sbrk
  split <;> simp <;> omega

/-- C10: in a well-formed heap and for every 32-bit size `n`, `mm_malloc(n)` returns;
it returns `NULL` exactly when `n` is 0, or no free block met by the scan from the cursor
has at least the adjusted size and `mem_sbrk` reports exhaustion for the bytes that
`extend_heap` asks for; and when it returns `NULL`, the arena contents, the arena size
and the cursor are unchanged. -/
theorem malloc_null_iff (s : State) (n : Nat) (hwf : WellFormed s) (hn : n < U32) :
    ∃ r s1, mm_malloc s n = some (r, s1) ∧
      (r = none ↔ (n = 0 ∨
        ((∀ bp ∈ walk s.mem s.mem_brk s.heap_nextp,
            GET_ALLOC s.mem (HDRP bp) = 0 → GET_SIZE s.mem (HDRP bp) < adjust n) ∧
          mem_sbrk s (extend_size ((MAX (toInt32 (adjust n)) (CHUNKSIZE : Int)).toNat / WSIZE))
            = none))) ∧
      (r = none → s1.mem = s.mem ∧ s1.mem_brk = s.mem_brk ∧ s1.heap_nextp = s.heap_nextp) := by
  obtain ⟨bs, h⟩ := hwf
  have hstate : ∀ s1, mm_malloc s n = some (none, s1) →
      s1.mem = s.mem ∧ s1.mem_brk = s.mem_brk ∧ s1.heap_nextp = s.heap_nextp := by
    intro s1 hm
    rw [malloc_null_state s n s1 hm]
    exact ⟨rfl, rfl, rfl⟩
  by_cases h0 : n = 0
  · subst h0
    refine ⟨none, _, mm_malloc_zero s, by simp, fun _ => hstate _ (mm_malloc_zero s)⟩
  · have h1 := Heap_count s bs (s.count + 1) h
    obtain ⟨pre, post, e, hcur, hres⟩ := find_fit_spec _ bs (adjust n) h1 (adjust_lt n)
    simp only [] at hcur hres
    subst e
    have hseg := Heap_seg_from s pre post h
    have hlen := Seg_length _ _ _ h.seg
    have hbrk := h.brk
    have hlo := h.lo
    have hepi := h.epi
    simp only [List.length_cons, List.length_append, total, total_append, prologue] at hlen hbrk
    rw [total_append] at hepi
    have hwalk : walk s.mem s.mem_brk s.heap_nextp
        = (starts (s.heap_listp + total pre) post).map Prod.fst := by
      rw [hcur]
      exact walk_eq s.mem _ post _ hseg (by rw [← hepi]; congr 1; omega) (by omega)
    have hblk : ∀ bp c, (bp, c) ∈ starts (s.heap_listp + total pre) post →
        GET_SIZE s.mem (HDRP bp) = c.size ∧
        GET_ALLOC s.mem (HDRP bp) = (if c.alloc then 1 else 0) := by
      intro bp c hc
      have hc1 : (bp, c) ∈ starts s.heap_listp (pre ++ post) := by
        rw [starts_append]; exact List.mem_append_right _ hc
      obtain ⟨_, cm, ch, _⟩ := Heap_block s _ bp c h hc1
      exact ⟨word_size _ _ c cm ch, word_alloc _ _ c cm ch⟩
    rcases hres with ⟨q1, f, R, e1, hq, hf, hfs, hff⟩ | ⟨hall, hff⟩
    · have hm : mm_malloc s n = some (some (s.heap_listp + total (pre ++ q1)),
          place { s with count := s.count + 1, heap_nextp := s.heap_listp + total (pre ++ q1) }
            (s.heap_listp + total (pre ++ q1)) (adjust n)) := by
        unfold mm_malloc
        simp only [h0, if_false, hff]
      refine ⟨_, _, hm, ?_, by simp⟩
      simp only [reduceCtorEq, false_iff, not_or, not_and]
      refine ⟨h0, fun hall => ?_⟩
      exfalso
      have hin : (s.heap_listp + total pre + total q1, f) ∈
          starts (s.heap_listp + total pre) post := by
        rw [e1]; exact mem_starts_mid _ _ _ _
      obtain ⟨k1, k2⟩ := hblk _ _ hin
      have := hall (s.heap_listp + total pre + total q1)
        (by rw [hwalk]; exact List.mem_map.2 ⟨_, hin, rfl⟩) (by rw [k2, hf]; rfl)
      rw [k1] at this
      omega
    · have hscan : ∀ bp ∈ walk s.mem s.mem_brk s.heap_nextp,
          GET_ALLOC s.mem (HDRP bp) = 0 → GET_SIZE s.mem (HDRP bp) < adjust n := by
        intro bp hbp ha
        rw [hwalk] at hbp
        simp only [List.mem_map, Prod.exists, exists_and_right, exists_eq_right] at hbp
        obtain ⟨c, hc⟩ := hbp
        obtain ⟨k1, k2⟩ := hblk _ _ hc
        rw [k1]
        rcases hall c (mem_starts_mem _ _ _ _ hc) with hca | hcs
        · rw [k2, hca] at ha; simp at ha
        · exact hcs
      obtain ⟨x1, x2⟩ := extend_heap_none { s with count := s.count + 1 }
        ((MAX (toInt32 (adjust n)) (CHUNKSIZE : Int)).toNat / WSIZE)
      have hsb : mem_sbrk { s with count := s.count + 1 }
          (extend_size ((MAX (toInt32 (adjust n)) (CHUNKSIZE : Int)).toNat / WSIZE)) = none ↔
          mem_sbrk s (extend_size ((MAX (toInt32 (adjust n)) (CHUNKSIZE : Int)).toNat / WSIZE))
            = none := by
        rw [mem_sbrk_none_iff, mem_sbrk_none_iff]
      rcases hx : extend_heap { s with count := s.count + 1 }
        ((MAX (toInt32 (adjust n)) (CHUNKSIZE : Int)).toNat / WSIZE) with ⟨r3, s3⟩
      rw [hx] at x1 x2
      simp only [] at x1 x2
      cases r3 with
      | none =>
        have hm : mm_malloc s n = some (none, s3) := by
          unfold mm_malloc
          simp only [h0, if_false, hff, hx]
        refine ⟨_, _, hm, ?_, fun _ => hstate _ hm⟩
        simp only [true_iff]
        exact Or.inr ⟨hscan, hsb.1 (x1.1 rfl)⟩
      | some bp =>
        have hm : mm_malloc s n = some (some bp, place s3 bp (adjust n)) := by
          unfold mm_malloc
          simp only [h0, if_false, hff, hx]
        refine ⟨_, _, hm, ?_, by simp⟩
        simp only [reduceCtorEq, false_iff, not_or, not_and]
        refine ⟨h0, fun _ hc => ?_⟩
        have := x1.2 (hsb.2 hc)
        cases this

/-! ## Claims C1 and C6, and witnesses -/

/-- C1 at the failing input: after `mm_init` on a fresh arena, `mm_malloc(4294967295)`
returns the non-null pointer 4112 to a block marked allocated whose size field is 8
(the adjusted size wraps around to 8), so the block has no payload byte and its footer
word is at 4112 itself. -/
theorem malloc_wraps_to_empty_block :
    (mm_malloc demoHeap 4294967295).map
      (fun r => (r.1, GET_SIZE r.2.mem (HDRP 4112), GET_ALLOC r.2.mem (HDRP 4112),
        FTRP r.2.mem 4112)) = some (some 4112, 8, 1, 4112) := by
  decide

/-- Witness of `no_two_adjacent_free` in the state after `mm_init`, `mm_malloc(10)`,
`mm_malloc(20)` and `mm_malloc(30)`. -/
theorem no_two_adjacent_free_witness :
    Reach 4096 demoThree [4168, 4136, 4112] ∧
    ∀ bp ∈ blocks demoThree, ¬ (GET_ALLOC demoThree.mem (HDRP bp) = 0 ∧
      GET_ALLOC demoThree.mem (HDRP (NEXT_BLKP demoThree.mem bp)) = 0) :=
  ⟨demoThree_reach, no_two_adjacent_free 4096 demoThree _ demoThree_reach⟩

/-- Witness of `walk_sound` in the state after `mm_init` and three `mm_malloc` calls. -/
theorem walk_sound_witness :
    Reach 4096 demoThree [4168, 4136, 4112] ∧
    WalkOk demoThree.mem demoThree.mem_brk (blocks demoThree).length demoThree.heap_listp :=
  ⟨demoThree_reach, walk_sound 4096 demoThree _ demoThree_reach⟩

/-- Witness of `malloc_aligned`: `mm_malloc(100)` right after `mm_init` on an arena
starting at 4096 returns 4112. -/
theorem malloc_aligned_witness :
    Reach 4096 demoHeap [] ∧ 4096 % 8 = 0 ∧ 100 ≤ 2 ^ 31 - 16 ∧
    mm_malloc demoHeap 100 = some (some 4112, demoLive) ∧ 4112 % 8 = 0 :=
  ⟨demoHeap_reach, by decide, by norm_num, demoLive_eq,
    malloc_aligned 4096 demoHeap demoLive [] 100 4112 demoHeap_reach (by decide) (by norm_num)
      demoLive_eq⟩

/-- Witness of `coalesce_three`: the blocks 4112, 4136 and 4168 obtained from requests
of 10, 20 and 30 bytes, released in the order 4136, 4168, 4112. -/
theorem coalesce_three_witness :
    WellFormed demoThree ∧ 4112 ∈ blocks demoThree ∧
    4136 = NEXT_BLKP demoThree.mem 4112 ∧ 4168 = NEXT_BLKP demoThree.mem 4136 ∧
    GET_ALLOC demoThree.mem (HDRP 4112) = 1 ∧ GET_ALLOC demoThree.mem (HDRP 4136) = 1 ∧
    GET_ALLOC demoThree.mem (HDRP 4168) = 1 ∧
    10 + 8 ≤ GET_SIZE demoThree.mem (HDRP 4112) ∧ 20 + 8 ≤ GET_SIZE demoThree.mem (HDRP 4136) ∧
    30 + 8 ≤ GET_SIZE demoThree.mem (HDRP 4168) ∧ 8 < 10 + 20 + 30 ∧
    [4136, 4168, 4112].Perm [4112, 4136, 4168] ∧
    ∃ p s4, mm_malloc (mm_free (mm_free (mm_free demoThree 4136) 4168) 4112) (10 + 20 + 30 - 8)
        = some (some p, s4) ∧ s4.mem_brk = demoThree.mem_brk :=
  ⟨demoThree_wf, by decide, by decide, by decide, by decide, by decide, by decide, by decide,
    by decide, by decide, by decide, by decide,
    coalesce_three demoThree 4112 4136 4168 10 20 30 4136 4168 4112 demoThree_wf (by decide)
      (by decide) (by decide) (by decide) (by decide) (by decide) (by decide) (by decide)
      (by decide) (by decide) (by decide)⟩

/-- C6 (amended): after `mm_init` on a fresh arena starting at `a0`, `mm_malloc(100)`
returns `p1 = a0 + 16` and `mm_malloc(200)` returns `p2 = a0 + 128`; after `mm_free(p1)`,
`mm_malloc(50)` returns `p3 = p2 + 208`, the start of the free block that follows the
block of `p2`: the scan starts at the cursor, which is at `p2`, so the block vacated by
`p1` is not reused and stays free. The last call does not grow the arena. -/
theorem example_scenario (s0 s1 : State) (hlim : s0.mem_max_addr < s0.mem_brk + U32)
    (h1 : mm_init s0 = some s1) :
    ∃ s2 s3 s5, mm_malloc s1 100 = some (some (s0.mem_brk + 16), s2) ∧
      mm_malloc s2 200 = some (some (s0.mem_brk + 128), s3) ∧
      mm_malloc (mm_free s3 (s0.mem_brk + 16)) 50 = some (some (s0.mem_brk + 128 + 208), s5) ∧
      s5.mem_brk = (mm_free s3 (s0.mem_brk + 16)).mem_brk ∧
      GET_ALLOC s5.mem (HDRP (s0.mem_brk + 16)) = 0 := by
  obtain ⟨s2, s3, s5, m1, m2, m3, b5, b4, hh, l5⟩ := scenario_chain s0 s1 hlim h1
  refine ⟨s2, s3, s5, m1, m2, m3, by rw [b5, b4], ?_⟩
  have hin : (s5.heap_listp, (⟨112, false⟩ : Blk)) ∈ starts s5.heap_listp
      [⟨112, false⟩, ⟨208, true⟩, ⟨64, true⟩, ⟨3712, false⟩] := by simp [starts]
  obtain ⟨_, bm, bh, _⟩ := Heap_block s5 _ _ _ hh hin
  rw [← l5]
  simp only [HDRP, WSIZE]
  rw [word_alloc _ _ _ bm bh]; rfl

/-- Witness of `example_scenario` on the fresh arena `demoInit`. -/
theorem example_scenario_witness :
    demoInit.mem_max_addr < demoInit.mem_brk + U32 ∧ mm_init demoInit = some demoHeap ∧
    ∃ s2 s3 s5, mm_malloc demoHeap 100 = some (some (demoInit.mem_brk + 16), s2) ∧
      mm_malloc s2 200 = some (some (demoInit.mem_brk + 128), s3) ∧
      mm_malloc (mm_free s3 (demoInit.mem_brk + 16)) 50
        = some (some (demoInit.mem_brk + 128 + 208), s5) ∧
      s5.mem_brk = (mm_free s3 (demoInit.mem_brk + 16)).mem_brk ∧
      GET_ALLOC s5.mem (HDRP (demoInit.mem_brk + 16)) = 0 :=
  ⟨demoInit_lim, demoHeap_eq, example_scenario demoInit demoHeap demoInit_lim demoHeap_eq⟩

/-- Counterexample to C6 as stated: on the fresh arena `demoInit` the scenario yields
`p1 = 4112` and `p3 = 4432`, so `p3` is not `p1`. -/
theorem example_scenario_no_reuse :
    ∃ s1 s2 s3 s5 p1 p2 p3, mm_init demoInit = some s1 ∧
      mm_malloc s1 100 = some (some p1, s2) ∧ mm_malloc s2 200 = some (some p2, s3) ∧
      mm_malloc (mm_free s3 p1) 50 = some (some p3, s5) ∧ p1 = 4112 ∧ p3 = 4432 ∧ p3 ≠ p1 := by
  obtain ⟨s2, s3, s5, m1, m2, m3, -⟩ := scenario_chain demoInit demoHeap demoInit_lim demoHeap_eq
  exact ⟨demoHeap, s2, s3, s5, _, _, _, demoHeap_eq, m1, m2, m3, rfl, rfl, by decide⟩

/-- Witness of `realloc_copies`: `mm_realloc(4112, 150)` in the state after `mm_init`
and `mm_malloc(100) = 4112`; the inner `mm_malloc(150)` returns 4224. -/
theorem realloc_copies_witness :
    WellFormed demoLive ∧ 4112 ∈ blocks demoLive ∧ GET_ALLOC demoLive.mem (HDRP 4112) = 1 ∧
    0 < 150 ∧ 150 ≤ 2 ^ 31 - 16 ∧ mm_malloc demoLive 150 = some (some 4224, demoMoved) ∧
    ∃ s2, mm_realloc demoLive 4112 150 = some (Outcome.ret (some 4224) s2) ∧ 4224 ≠ 4112 ∧
      (∀ i, i < min 150 (GET_SIZE demoLive.mem (HDRP 4112) - 8) →
        s2.mem (4224 + i) = demoLive.mem (4112 + i)) ∧
      4224 ∈ blocks s2 ∧ GET_ALLOC s2.mem (HDRP 4224) = 1 ∧
      (∃ fb ∈ blocks s2, GET_ALLOC s2.mem (HDRP fb) = 0 ∧ fb ≤ 4112 ∧
        4112 + GET_SIZE demoLive.mem (HDRP 4112) ≤ fb + GET_SIZE s2.mem (HDRP fb)) ∧
      WellFormed s2 :=
  ⟨demoLive_wf, by decide, by decide, by decide, by norm_num,
    afterMalloc_eq demoLive 150 (some 4224) (by decide),
    realloc_copies demoLive demoMoved 4112 150 4224 demoLive_wf (by decide) (by decide)
      (by decide) (by norm_num) (afterMalloc_eq demoLive 150 (some 4224) (by decide))⟩

/-- Witness of `malloc_null_iff`: `mm_malloc(5000)` in the state after `mm_init` and
`mm_malloc(100)` on an arena of 8192 bytes. -/
theorem malloc_null_iff_witness :
    WellFormed demoLive ∧ 5000 < U32 ∧
    ∃ r s1, mm_malloc demoLive 5000 = some (r, s1) ∧
      (r = none ↔ (5000 = 0 ∨
        ((∀ bp ∈ walk demoLive.mem demoLive.mem_brk demoLive.heap_nextp,
            GET_ALLOC demoLive.mem (HDRP bp) = 0 →
              GET_SIZE demoLive.mem (HDRP bp) < adjust 5000) ∧
          mem_sbrk demoLive
            (extend_size ((MAX (toInt32 (adjust 5000)) (CHUNKSIZE : Int)).toNat / WSIZE))
            = none))) ∧
      (r = none → s1.mem = demoLive.mem ∧ s1.mem_brk = demoLive.mem_brk ∧
        s1.heap_nextp = demoLive.heap_nextp) :=
  ⟨demoLive_wf, by decide, malloc_null_iff demoLive 5000 demoLive_wf (by decide)⟩

/-! ## Claims C11 to C15: the failing inputs -/

theorem demoPast_reach : Reach 4096 demoPast [4224] := by
  have h1 := Reach.malloc demoLive _ [4112] 3976 (some 4224) demoLive_reach (by norm_num)
    (afterMalloc_eq demoLive 3976 (some 4224) (by decide))
  have h2 := Reach.free _ _ 4112 h1 (List.mem_cons_of_mem _ (List.mem_singleton.2 rfl))
  have e : ([4224, 4112] : List Nat).filter (fun q => decide (q ≠ 4112)) = [4224] := by decide
  rw [e] at h2
  exact h2

theorem demoPast_wf : WellFormed demoPast := by
  obtain ⟨bs, h, -⟩ := reach_inv _ _ _ demoPast_reach
  exact ⟨bs, h⟩

theorem coalesce_brk (s : State) (bp : Nat) : (coalesce s bp).2.mem_brk = s.mem_brk := by
  unfold coalesce
  simp only []
  split_ifs <;> rfl

theorem extend_heap_brk (s : State) (words : Nat) (h : (extend_heap s words).1 ≠ none) :
    (extend_heap s words).2.mem_brk = s.mem_brk + extend_size words := by
  unfold extend_heap extend_size at *
  simp only [] at h ⊢
  generalize (if (words % U32) % 2 ≠ 0 then ((words % U32 + 1) * WSIZE) % U32
      else ((words % U32) * WSIZE) % U32) = sz at h ⊢
  unfold mem_sbrk at h ⊢
  by_cases hc : s.mem_brk + sz > s.mem_max_addr
  · simp [hc] at h
  · simp only [hc, if_false]
    rw [coalesce_brk]

theorem malloc_grow_brk (s s1 s2 : State) (n p : Nat) (hn : n ≠ 0)
    (hf : find_fit { s with count := s.count + 1 } (adjust n) = some (none, s1))
    (hm : mm_malloc s n = some (some p, s2)) : s2.mem_brk = s.mem_brk + grow_request n := by
  have e1 := find_fit_state _ _ _ hf
  subst e1
  unfold mm_malloc at hm
  simp only [hn, if_false, hf] at hm
  unfold grow_request
  rcases hx : extend_heap { s with count := s.count + 1 }
    ((MAX (toInt32 (adjust n)) (CHUNKSIZE : Int)).toNat / WSIZE) with ⟨r3, s3⟩
  rw [hx] at hm
  cases r3 with
  | none => simp at hm
  | some bp =>
    simp only [Option.some.injEq, Prod.mk.injEq] at hm
    have hb := extend_heap_brk { s with count := s.count + 1 }
      ((MAX (toInt32 (adjust n)) (CHUNKSIZE : Int)).toNat / WSIZE) (by rw [hx]; simp)
    rw [hx] at hb
    simp only [] at hb
    rw [← hm.2, (place_fields s3 bp (adjust n)).1, hb]

theorem grow_request_eq (n : Nat) (h0 : 0 < n) (hn : n ≤ 2 ^ 31 - 16) :
    grow_request n = max (adjust n) 4096 := by
  obtain ⟨a8, a16, -, -, ale⟩ := adjust_spec n h0 hn
  unfold grow_request
  rw [extendsize_eq _ ale]
  have h31 : (2 : Nat) ^ 31 = 2147483648 := by norm_num
  rw [h31] at ale
  unfold extend_size WSIZE U32
  have e1 : max (adjust n) 4096 / 4 % 4294967296 = max (adjust n) 4096 / 4 := by omega
  rw [e1]
  have e2 : max (adjust n) 4096 / 4 % 2 = 0 := by omega
  rw [if_neg (by omega)]
  omega

theorem adjust_eq_spec (n : Nat) (h0 : 0 < n) (hn : n + 15 < U32) :
    adjust n = adjusted_size_spec n := by
  unfold adjust adjusted_size_spec DSIZE U32 at *
  split
  · omega
  · have e1 : (n + 8 + (8 - 1)) % 4294967296 = n + 15 := by omega
    have e2 : (8 * ((n + 15) / 8)) % 4294967296 = 8 * ((n + 15) / 8) := by omega
    rw [e1, e2]
    omega

/-- C11 at the failing input: in the well-formed state reached by `mm_init`,
`mm_malloc(100) = 4112`, `mm_malloc(3976) = 4224` and `mm_free(4112)`, the cursor is 4224
and the block 4112 before it is free with 112 bytes, yet `find_fit(64)` reports not-found:
the scan runs from the cursor to the epilogue and never returns to the first block.
`mm_malloc(50)` then tries to grow the arena and, the backing region being full, returns
`NULL`. -/
theorem find_fit_skips_block_before_cursor :
    WellFormed demoPast ∧ demoPast.heap_nextp = 4224 ∧ 4112 ∈ blocks demoPast ∧
    GET_ALLOC demoPast.mem (HDRP 4112) = 0 ∧ 64 ≤ GET_SIZE demoPast.mem (HDRP 4112) ∧
    (find_fit demoPast 64).map Prod.fst = some none ∧
    (mm_malloc demoPast 50).map Prod.fst = some none :=
  ⟨demoPast_wf, by decide, by decide, by decide, by decide, by decide, by decide⟩

/-- C12 at the failing input: right after `mm_init` on a fresh arena, `mm_checkheap(0)`
prints "Bad prologue header" (and nothing else): it tests the header in front of
`heap_listp`, which `mm_init` has moved to the first block after the prologue. -/
theorem checkheap_reports_bad_prologue :
    mm_init demoInit = some demoHeap ∧ mm_checkheap demoHeap 0 = some [Line.badPrologue] ∧
    GET demoHeap.mem (HDRP (demoHeap.heap_listp - DSIZE)) = PACK DSIZE 1 :=
  ⟨demoHeap_eq, by decide, by decide⟩

/-- C13 at the failing input: right after `mm_init` on an arena with room for almost
`2 ^ 32` bytes, `find_fit` finds no block for `mm_malloc(2147483648)`, whose adjusted size
is 2147483656; `MAX` compares it as a negative `int`, so `mm_malloc` asks for 4096 bytes,
not for 2147483656: the arena grows from 8208 to 12304, and the returned block 4112 gets a
header with size 2147483656. -/
theorem malloc_huge_asks_one_chunk :
    WellFormed demoRoomy ∧ demoRoomy.mem_brk = 8208 ∧
    (find_fit { demoRoomy with count := demoRoomy.count + 1 } (adjust 2147483648)).map Prod.fst
      = some none ∧
    max (adjusted_size_spec 2147483648) 4096 = 2147483656 ∧
    grow_request 2147483648 = 4096 ∧
    (mm_malloc demoRoomy 2147483648).map
      (fun r => (r.1, r.2.mem_brk, GET_SIZE r.2.mem (HDRP 4112))) =
      some (some 4112, 12304, 2147483656) := by
  refine ⟨?_, by decide, by decide, by decide, by decide, by decide⟩
  obtain ⟨s, hs, hh, -⟩ := mm_init_spec { mem := fun _ => 0, mem_brk := 4096, mem_max_addr := 4294967295, heap_listp := 0, heap_nextp := 0, count := 0 } (by decide) (by decide)
  refine ⟨[⟨4096, false⟩], ?_⟩
  unfold demoRoomy
  rw [hs]
  exact hh

/-- C14 at the failing input: for the 32-bit request size 4294967295 the adjusted size
computed by `mm_malloc` is 8 (the sum `size + 15` wraps around), while the larger of 16
and `n + 8` rounded up to a multiple of 8 is 4294967304; the computed value is below 16
and below `n + 8`. -/
theorem adjust_wraps_around :
    0 < 4294967295 ∧ 4294967295 < U32 ∧ adjust 4294967295 = 8 ∧
    adjusted_size_spec 4294967295 = 4294967304 ∧ ¬ 16 ≤ adjust 4294967295 ∧
    ¬ 4294967295 + 8 ≤ adjust 4294967295 := by
  decide

/-- C15 at the failing input: in the state after `mm_init` the block 4112 is free with
4096 bytes; `place(4112, 4088)` leaves a remainder of 8 bytes, and instead of marking the
whole block allocated it writes an allocated block of 4088 bytes followed by a free block
of 8 bytes at 8200 (the test is `size < asize + 8`). `mm_malloc(4080)` does so. -/
theorem place_splits_off_eight_bytes :
    GET demoHeap.mem (HDRP 4112) = PACK 4096 0 ∧ 4088 % 8 = 0 ∧ 16 ≤ 4088 ∧ 4088 ≤ 4096 ∧
    4096 - 4088 < 16 ∧
    blocks (place demoHeap 4112 4088) = [4112, 8200] ∧
    GET (place demoHeap 4112 4088).mem (HDRP 4112) = PACK 4088 1 ∧
    GET (place demoHeap 4112 4088).mem (FTRP (place demoHeap 4112 4088).mem 4112) = PACK 4088 1 ∧
    GET (place demoHeap 4112 4088).mem (HDRP 8200) = PACK 8 0 ∧
    GET (place demoHeap 4112 4088).mem (FTRP (place demoHeap 4112 4088).mem 8200) = PACK 8 0 ∧
    (mm_malloc demoHeap 4080).map (fun r => (r.1, blocks r.2)) = some (some 4112, [4112, 8200]) := by
  decide

/-! ## Claims C17 and C18: the cursor and `find_fit` -/

theorem starts_bits (s : State) (bs : List Blk) (q : Nat) (c : Blk) (h : Heap s bs)
    (hq : (q, c) ∈ starts s.heap_listp bs) :
    GET_SIZE s.mem (HDRP q) = c.size ∧ GET_ALLOC s.mem (HDRP q) = (if c.alloc then 1 else 0) := by
  obtain ⟨-, hm, hh, -⟩ := Heap_block s bs q c h hq
  simp only [HDRP, WSIZE]
  exact ⟨word_size _ _ c hm hh, word_alloc _ _ c hm hh⟩

theorem nofit_of (s : State) (bs : List Blk) (q : Nat) (c : Blk) (asize : Nat) (h : Heap s bs)
    (hq : (q, c) ∈ starts s.heap_listp bs) (hc : c.alloc = true ∨ c.size < asize) :
    ¬ (GET_ALLOC s.mem (HDRP q) = 0 ∧ asize ≤ GET_SIZE s.mem (HDRP q)) := by
  obtain ⟨e1, e2⟩ := starts_bits s bs q c h hq
  rw [e1, e2]
  rcases hc with hc | hc
  · rw [hc]; simp
  · intro hx; omega

/-- C17: in every state reached from a successful `mm_init` by `mm_malloc` calls (request
sizes at most `2 ^ 31 - 16`), `mm_free` calls on live pointers and writes into live
payloads, the cursor `heap_nextp` is the block pointer of one of the blocks met by the
walk from `heap_listp` before the epilogue. -/
theorem cursor_on_block (a0 : Nat) (s : State) (live : List Nat) (h : Reach a0 s live) :
    s.heap_nextp ∈ blocks s := by
  obtain ⟨bs, hb, -, -⟩ := reach_inv a0 s live h
  obtain ⟨b, hc⟩ := hb.cur
  exact mem_blocks s bs _ b hb hc

/-- Witness of `cursor_on_block` in the state after `mm_init`, `mm_malloc(100)`,
`mm_malloc(3976)` and `mm_free(4112)`, where the cursor is 4224. -/
theorem cursor_on_block_witness :
    Reach 4096 demoPast [4224] ∧ demoPast.heap_nextp ∈ blocks demoPast :=
  ⟨demoPast_reach, cursor_on_block 4096 demoPast _ demoPast_reach⟩

/-- C18: in a well-formed heap and for every 32-bit `asize`, `find_fit(asize)` returns.
When it returns a block, the block is one of the block sequence at or after the cursor, it
is free and has at least `asize` bytes, no block from the cursor up to it is free with at
least `asize` bytes, and the cursor is that block afterwards. When it returns not-found the
state, the cursor included, is unchanged (and no block at or after the cursor fits). In
both cases the arena contents and size are unchanged. -/
theorem find_fit_first_fit (s : State) (asize : Nat) (hwf : WellFormed s) (ha : asize < U32) :
    ∃ r s1, find_fit s asize = some (r, s1) ∧ s1.mem = s.mem ∧ s1.mem_brk = s.mem_brk ∧
      s1.heap_listp = s.heap_listp ∧
      match r with
      | some bp =>
        bp ∈ blocks s ∧ s.heap_nextp ≤ bp ∧ GET_ALLOC s.mem (HDRP bp) = 0 ∧
        asize ≤ GET_SIZE s.mem (HDRP bp) ∧
        (∀ q ∈ blocks s, s.heap_nextp ≤ q → q < bp →
          ¬ (GET_ALLOC s.mem (HDRP q) = 0 ∧ asize ≤ GET_SIZE s.mem (HDRP q))) ∧
        s1.heap_nextp = bp
      | none =>
        s1 = s ∧ ∀ q ∈ blocks s, s.heap_nextp ≤ q →
          ¬ (GET_ALLOC s.mem (HDRP q) = 0 ∧ asize ≤ GET_SIZE s.mem (HDRP q)) := by
  obtain ⟨bs, h⟩ := hwf
  obtain ⟨pre, post, rfl, hcur, hres⟩ := find_fit_spec s bs asize h ha
  have hpos := Heap_pos s _ h
  have hsplit : ∀ q c, (q, c) ∈ starts s.heap_listp (pre ++ post) → s.heap_nextp ≤ q →
      (q, c) ∈ starts s.heap_nextp post := by
    intro q c hqc hle
    rw [starts_append, List.mem_append] at hqc
    rcases hqc with hqc | hqc
    · have h1 := mem_starts_ge _ _ _ _ hqc
      have h2 := hpos c (List.mem_append_left _ (mem_starts_mem _ _ _ _ hqc))
      omega
    · rw [hcur]; exact hqc
  rcases hres with ⟨q1, f, R, rfl, hq, hf, hfs, hres⟩ | ⟨hall, hres⟩
  · refine ⟨_, _, hres, rfl, rfl, rfl, ?_⟩
    have hin : (s.heap_listp + total (pre ++ q1), f) ∈
        starts s.heap_listp (pre ++ (q1 ++ f :: R)) := by
      have := mem_starts_mid s.heap_listp (pre ++ q1) R f
      simpa using this
    obtain ⟨e1, e2⟩ := starts_bits s _ _ f h hin
    refine ⟨mem_blocks s _ _ f h hin, ?_, ?_, ?_, ?_, rfl⟩
    · rw [hcur, total_append]; omega
    · rw [e2, hf]; rfl
    · rw [e1]; exact hfs
    · intro q hqb hle hlt
      obtain ⟨c, hqc, -, -⟩ := block_of_ptr s _ q h hqb
      have h1 := hsplit q c hqc hle
      rw [starts_append, List.mem_append] at h1
      rcases h1 with h1 | h1
      · exact nofit_of s _ q c asize h hqc (hq c (mem_starts_mem _ _ _ _ h1))
      · have h2 := mem_starts_ge _ _ _ _ h1
        rw [total_append] at hlt
        omega
  · refine ⟨_, _, hres, rfl, rfl, rfl, rfl, ?_⟩
    intro q hqb hle
    obtain ⟨c, hqc, -, -⟩ := block_of_ptr s _ q h hqb
    have h1 := hsplit q c hqc hle
    exact nofit_of s _ q c asize h hqc (hall c (mem_starts_mem _ _ _ _ h1))

/-- Witness of `find_fit_first_fit` in the state after `mm_init` and `mm_malloc(100)`,
for a block of 64 bytes. -/
theorem find_fit_first_fit_witness :
    WellFormed demoLive ∧ 64 < U32 ∧
    ∃ r s1, find_fit demoLive 64 = some (r, s1) ∧ s1.mem = demoLive.mem ∧
      s1.mem_brk = demoLive.mem_brk ∧ s1.heap_listp = demoLive.heap_listp ∧
      match r with
      | some bp =>
        bp ∈ blocks demoLive ∧ demoLive.heap_nextp ≤ bp ∧ GET_ALLOC demoLive.mem (HDRP bp) = 0 ∧
        64 ≤ GET_SIZE demoLive.mem (HDRP bp) ∧
        (∀ q ∈ blocks demoLive, demoLive.heap_nextp ≤ q → q < bp →
          ¬ (GET_ALLOC demoLive.mem (HDRP q) = 0 ∧ 64 ≤ GET_SIZE demoLive.mem (HDRP q))) ∧
        s1.heap_nextp = bp
      | none =>
        s1 = demoLive ∧ ∀ q ∈ blocks demoLive, demoLive.heap_nextp ≤ q →
          ¬ (GET_ALLOC demoLive.mem (HDRP q) = 0 ∧ 64 ≤ GET_SIZE demoLive.mem (HDRP q)) :=
  ⟨demoLive_wf, by decide, find_fit_first_fit demoLive 64 demoLive_wf (by decide)⟩

/-! ## The bytes written by `coalesce` -/

theorem mm_free_marked (s : State) (bp : Nat) : mm_free s bp = (coalesce (freeMarked s bp) bp).2 :=
  rfl

theorem demoMerge_layout : Layout demoMerge [⟨24, false⟩, ⟨32, false⟩, ⟨4040, false⟩] := by
  decide

theorem Heap_layout (s : State) (bs : List Blk) (h : Heap s bs) : Layout s bs :=
  ⟨h.lo, h.seg, h.epi, h.brk, h.max, h.lim⟩

theorem coalesce_writes (s : State) (bp : Nat) (pb b : Blk) (rest : List Blk)
    (hbp : 4 + pb.size ≤ bp) (hseg : Seg s.mem (bp - pb.size) (pb :: b :: rest))
    (hepi : GET s.mem (bp + b.size + total rest - 4) = 1)
    (hlt : pb.size + b.size + total rest < U32) :
    ∀ x, (x < coalP pb bp - 4 ∨ coalP pb bp ≤ x) →
      (x + 8 < bp + b.size + (if headAlloc rest then 0 else total (rest.take 1)) ∨
        bp + b.size + (if headAlloc rest then 0 else total (rest.take 1)) ≤ x + 4) →
      (coalesce s bp).2.mem x = s.mem x := by
  obtain ⟨hp8, hpm, hph, hpf, hb8, hbm, hbh, hbf, hr⟩ := hseg
  have ebp : bp - pb.size + pb.size = bp := by omega
  rw [ebp] at hbh hbf hr
  have e8 : bp - pb.size + pb.size - 8 = bp - 8 := by omega
  rw [e8] at hpf
  have hU : U32 = 4294967296 := rfl
  have hprev : PREV_BLKP s.mem bp = bp - pb.size := by
    unfold PREV_BLKP DSIZE; rw [word_size _ _ pb hpm hpf]
  have hpsz : GET_SIZE s.mem (bp - pb.size - 4) = pb.size := word_size _ _ pb hpm hph
  have hpal : GET_ALLOC s.mem (bp - 8) = if pb.alloc then 1 else 0 := word_alloc _ _ pb hpm hpf
  have hbsz : GET_SIZE s.mem (bp - 4) = b.size := word_size _ _ b hbm hbh
  have hnext : NEXT_BLKP s.mem bp = bp + b.size := by
    unfold NEXT_BLKP WSIZE; rw [hbsz]
  have hnal : GET_ALLOC s.mem (bp + b.size - 4) = if headAlloc rest then 1 else 0 :=
    head_alloc _ _ rest hr hepi
  have hfp : FTRP s.mem (bp - pb.size) = bp - 8 := by
    unfold FTRP HDRP WSIZE DSIZE; rw [hpsz]; omega
  by_cases hpa : pb.alloc = true
  · by_cases hna : headAlloc rest = true
    · have hco : coalesce s bp = (bp, s) := by
        unfold coalesce
        simp [hprev, hfp, hpal, hnext, HDRP, WSIZE, hnal, hpa, hna]
      rw [hco]
      exact fun _ _ _ => rfl
    · obtain ⟨n, r, rfl, hnf⟩ : ∃ n r, rest = n :: r ∧ n.alloc = false := by
        cases rest with
        | nil => simp [headAlloc] at hna
        | cons n r => exact ⟨n, r, rfl, by simpa [headAlloc] using hna⟩
      obtain ⟨hn8, hnm, hnh, hnf1, hr1⟩ := hr
      have hnsz : GET_SIZE s.mem (bp + b.size - 4) = n.size := word_size _ _ n hnm hnh
      simp only [total] at hlt hepi
      have hpk : PACK (b.size + n.size) 0 = b.size + n.size := by
        rw [PACK_eq (b.size + n.size) 0 (by omega) (by omega) (by omega), Nat.add_zero]
      have hco : coalesce s bp = (bp, { s with
          mem := PUT (PUT s.mem (bp - 4) (b.size + n.size)) (bp + (b.size + n.size) - 8)
            (b.size + n.size),
          heap_nextp := bp }) := by
        have h1 := GET_SIZE_PUT_PACK s.mem (bp - 4) (b.size + n.size) 0 (by omega) (by omega)
          (by omega)
        rw [hpk] at h1
        have h2 : FTRP (PUT s.mem (bp - 4) (b.size + n.size)) bp = bp + (b.size + n.size) - 8 := by
          unfold FTRP HDRP WSIZE DSIZE; rw [h1]
        unfold coalesce
        simp [hprev, hfp, hpal, hnext, HDRP, WSIZE, hnal, hpa, hna, hnsz, hbsz, ite_nextp_mem,
          ite_nextp_brk, ite_nextp_max, ite_nextp_listp, ite_nextp_count, hpk, h2]
      rw [hco]
      intro x hx1 hx2
      simp [coalP, hpa, headAlloc, hnf, total] at hx1 hx2
      simp only []
      rw [PUT_other _ _ _ _ (by omega), PUT_other _ _ _ _ (by omega)]
  · have hpa0 : pb.alloc = false := by simpa using hpa
    by_cases hna : headAlloc rest = true
    · have hpk : PACK (b.size + pb.size) 0 = b.size + pb.size := by
        rw [PACK_eq (b.size + pb.size) 0 (by omega) (by omega) (by omega), Nat.add_zero]
      have hco : coalesce s bp = (bp - pb.size, { s with
          mem := PUT (PUT s.mem (bp + b.size - 8) (b.size + pb.size)) (bp - pb.size - 4)
            (b.size + pb.size),
          heap_nextp := bp - pb.size }) := by
        have h1 : FTRP s.mem bp = bp + b.size - 8 := by
          unfold FTRP HDRP WSIZE DSIZE; rw [hbsz]
        have h2 : PREV_BLKP (PUT s.mem (bp + b.size - 8) (b.size + pb.size)) bp = bp - pb.size := by
          unfold PREV_BLKP DSIZE
          rw [GET_SIZE_PUT_other _ _ _ _ (by omega), word_size _ _ pb hpm hpf]
        have h3 : PREV_BLKP (PUT (PUT s.mem (bp + b.size - 8) (b.size + pb.size))
            (bp - pb.size - 4) (b.size + pb.size)) bp = bp - pb.size := by
          unfold PREV_BLKP DSIZE
          rw [GET_SIZE_PUT_other _ _ _ _ (by omega), GET_SIZE_PUT_other _ _ _ _ (by omega),
            word_size _ _ pb hpm hpf]
        unfold coalesce
        simp [hprev, hfp, hpal, hnext, HDRP, WSIZE, hnal, hpa0, hna, hbsz, hpsz, ite_nextp_mem,
          ite_nextp_brk, ite_nextp_max, ite_nextp_listp, ite_nextp_count, hpk, h1, h2, h3]
      rw [hco]
      intro x hx1 hx2
      simp [coalP, hpa0, hna] at hx1 hx2
      simp only []
      rw [PUT_other _ _ _ _ (by omega), PUT_other _ _ _ _ (by omega)]
    · obtain ⟨n, r, rfl, hnf⟩ : ∃ n r, rest = n :: r ∧ n.alloc = false := by
        cases rest with
        | nil => simp [headAlloc] at hna
        | cons n r => exact ⟨n, r, rfl, by simpa [headAlloc] using hna⟩
      obtain ⟨hn8, hnm, hnh, hnf1, hr1⟩ := hr
      have hnsz : GET_SIZE s.mem (bp + b.size - 4) = n.size := word_size _ _ n hnm hnh
      have hnsz1 : GET_SIZE s.mem (bp + b.size + n.size - 8) = n.size := word_size _ _ n hnm hnf1
      simp only [total] at hlt hepi
      have hpk : PACK (b.size + (pb.size + n.size)) 0 = b.size + (pb.size + n.size) := by
        rw [PACK_eq (b.size + (pb.size + n.size)) 0 (by omega) (by omega) (by omega), Nat.add_zero]
      have hco : coalesce s bp = (bp - pb.size, { s with
          mem := PUT (PUT s.mem (bp - pb.size - 4) (b.size + (pb.size + n.size)))
            (bp + b.size + n.size - 8) (b.size + (pb.size + n.size)),
          heap_nextp := bp - pb.size }) := by
        have h0 : FTRP s.mem (bp + b.size) = bp + b.size + n.size - 8 := by
          unfold FTRP HDRP WSIZE DSIZE; rw [hnsz]
        have h1 : NEXT_BLKP (PUT s.mem (bp - pb.size - 4) (b.size + (pb.size + n.size))) bp
            = bp + b.size := by
          unfold NEXT_BLKP WSIZE
          rw [GET_SIZE_PUT_other _ _ _ _ (by omega), hbsz]
        have h2 : FTRP (PUT s.mem (bp - pb.size - 4) (b.size + (pb.size + n.size))) (bp + b.size)
            = bp + b.size + n.size - 8 := by
          unfold FTRP HDRP WSIZE DSIZE
          rw [GET_SIZE_PUT_other _ _ _ _ (by omega), hnsz]
        have h3 : PREV_BLKP (PUT (PUT s.mem (bp - pb.size - 4) (b.size + (pb.size + n.size)))
            (bp + b.size + n.size - 8) (b.size + (pb.size + n.size))) bp = bp - pb.size := by
          unfold PREV_BLKP DSIZE
          rw [GET_SIZE_PUT_other _ _ _ _ (by omega), GET_SIZE_PUT_other _ _ _ _ (by omega),
            word_size _ _ pb hpm hpf]
        unfold coalesce
        simp [hprev, hfp, hpal, hnext, HDRP, WSIZE, hnal, hpa0, hna, hbsz, hpsz, ite_nextp_mem,
          ite_nextp_brk, ite_nextp_max, ite_nextp_listp, ite_nextp_count, hpk, h0, h1, h2, h3,
          hnsz1]
      rw [hco]
      intro x hx1 hx2
      simp [coalP, hpa0, headAlloc, hnf, total] at hx1 hx2
      simp only []
      rw [PUT_other _ _ _ _ (by omega), PUT_other _ _ _ _ (by omega)]

/-! ## Claims C16 and C20: `coalesce` -/

theorem Layout_total_lt (s : State) (bs : List Blk) (h : Layout s bs) : total bs + 16 < U32 := by
  obtain ⟨h1, h2, h3, h4, h5, h6⟩ := h
  omega

theorem coalesce_at (s : State) (bs : List Blk) (bp : Nat) (b : Blk) (hl : Layout s bs)
    (hb : (bp, b) ∈ starts s.heap_listp bs) :
    ∃ pb rest, 4 + pb.size ≤ bp ∧ Seg s.mem (bp - pb.size) (pb :: b :: rest) ∧
      GET s.mem (bp + b.size + total rest - 4) = 1 ∧ pb.size + b.size + total rest < U32 ∧
      s.heap_listp ≤ bp ∧ bp + b.size + total rest = s.mem_brk ∧
      PREV_BLKP s.mem bp = bp - pb.size ∧ NEXT_BLKP s.mem bp = bp + b.size ∧
      GET_SIZE s.mem (HDRP bp) = b.size ∧
      prev_alloc s.mem bp = (if pb.alloc then 1 else 0) ∧
      next_alloc s.mem bp = (if headAlloc rest then 1 else 0) ∧
      GET_SIZE s.mem (HDRP (PREV_BLKP s.mem bp)) = pb.size ∧
      GET_SIZE s.mem (HDRP (NEXT_BLKP s.mem bp)) = total (rest.take 1) := by
  have htl := Layout_total_lt s bs hl
  obtain ⟨hlo, hseg, hepi, hbrk, hmax, hlim⟩ := hl
  obtain ⟨pre, post, rfl, hpp⟩ := mem_starts_split _ _ _ _ hb
  have hU : U32 = 4294967296 := rfl
  obtain ⟨pre1, pb, hpre1⟩ : ∃ pre1 pb, prologue :: pre = pre1 ++ [pb] := by
    rcases List.eq_nil_or_concat pre with rfl | ⟨L, x, rfl⟩
    · exact ⟨[], prologue, rfl⟩
    · exact ⟨prologue :: L, x, by simp⟩
  have hF : prologue :: (pre ++ b :: post) = pre1 ++ pb :: b :: post := by
    have : prologue :: (pre ++ b :: post) = (prologue :: pre) ++ b :: post := rfl
    rw [this, hpre1]; simp
  have htot : 8 + total pre = total pre1 + pb.size := by
    have := congrArg total hpre1
    simp only [total, total_append, prologue, Nat.add_zero] at this
    exact this
  rw [hF, Seg_append] at hseg
  obtain ⟨-, hseg⟩ := hseg
  rw [total_append] at hepi hbrk htl
  simp only [total] at hepi hbrk htl
  have ea : s.heap_listp - 8 + total pre1 = bp - pb.size := by omega
  rw [ea] at hseg
  have hseg0 := hseg
  obtain ⟨hp8, hpm, hph, hpf, hb8, hbm, hbh, hbf, hr⟩ := hseg
  have ebp : bp - pb.size + pb.size = bp := by omega
  rw [ebp] at hbh hbf hr
  have e8 : bp - pb.size + pb.size - 8 = bp - 8 := by omega
  rw [e8] at hpf
  have hepi1 : GET s.mem (bp + b.size + total post - 4) = 1 := by
    rw [← hepi]; congr 1; omega
  have hprev : PREV_BLKP s.mem bp = bp - pb.size := by
    unfold PREV_BLKP DSIZE; rw [word_size _ _ pb hpm hpf]
  have hpsz : GET_SIZE s.mem (bp - pb.size - 4) = pb.size := word_size _ _ pb hpm hph
  have hpal : GET_ALLOC s.mem (bp - 8) = if pb.alloc then 1 else 0 := word_alloc _ _ pb hpm hpf
  have hbsz : GET_SIZE s.mem (bp - 4) = b.size := word_size _ _ b hbm hbh
  have hnext : NEXT_BLKP s.mem bp = bp + b.size := by
    unfold NEXT_BLKP WSIZE; rw [hbsz]
  have hnal : GET_ALLOC s.mem (bp + b.size - 4) = if headAlloc post then 1 else 0 :=
    head_alloc _ _ post hr hepi1
  have hfp : FTRP s.mem (bp - pb.size) = bp - 8 := by
    unfold FTRP HDRP WSIZE DSIZE; rw [hpsz]; omega
  refine ⟨pb, post, by omega, hseg0, hepi1, by omega, by omega, by omega, hprev, hnext, ?_, ?_,
    ?_, ?_, ?_⟩
  · simp only [HDRP, WSIZE]; exact hbsz
  · unfold prev_alloc; rw [hprev, hfp]; exact hpal
  · unfold next_alloc; rw [hnext]; simp only [HDRP, WSIZE]; exact hnal
  · rw [hprev]; simp only [HDRP, WSIZE]; exact hpsz
  · rw [hnext]; simp only [HDRP, WSIZE]
    cases post with
    | nil =>
      simp only [total, Nat.add_zero] at hepi1
      simpa [total] using epilogue_size _ _ hepi1
    | cons n r =>
      obtain ⟨hn8, hnm, hnh, -⟩ := hr
      simp only [List.take, total, Nat.add_zero]
      exact word_size _ _ n hnm hnh

theorem coalL_split (pb b : Blk) (rest : List Blk) (hf : b.alloc = false) :
    ∃ L R, coalL pb b rest = L ++ (⟨b.size + (if pb.alloc then 0 else pb.size)
        + (if headAlloc rest then 0 else total (rest.take 1)), false⟩ : Blk) :: R ∧
      total L = (if pb.alloc then pb.size else 0) := by
  have hbe : b = ⟨b.size, false⟩ := by cases b; simp at hf; simp [hf]
  cases hpa : pb.alloc
  · cases rest with
    | nil => exact ⟨[], [], by simp [coalL, hpa, headAlloc], by simp [total]⟩
    | cons n r =>
      cases hna : n.alloc
      · exact ⟨[], r, by simp [coalL, hpa, hna, headAlloc, total]; omega, by simp [total]⟩
      · exact ⟨[], n :: r, by simp [coalL, hpa, hna, headAlloc], by simp [total]⟩
  · cases rest with
    | nil =>
      refine ⟨[pb], [], ?_, by simp [total]⟩
      simp only [coalL, hpa, headAlloc, if_true, Nat.add_zero]
      rw [List.cons_append, List.nil_append]
      exact congrArg (fun x => [pb, x]) hbe
    | cons n r =>
      cases hna : n.alloc
      · exact ⟨[pb], r, by simp [coalL, hpa, hna, headAlloc, total], by simp [total]⟩
      · refine ⟨[pb], n :: r, ?_, by simp [total]⟩
        simp only [coalL, hpa, hna, headAlloc, if_true, Nat.add_zero]
        rw [List.cons_append, List.nil_append]
        exact congrArg (fun x => pb :: x :: n :: r) hbe

theorem demoMerge_listp : demoMerge.heap_listp = 4112 := by decide

theorem demoMerge_block : (4136, (⟨32, false⟩ : Blk)) ∈
    starts demoMerge.heap_listp [⟨24, false⟩, ⟨32, false⟩, ⟨4040, false⟩] := by
  rw [demoMerge_listp]; decide

theorem merged_size_eq (s : State) (bp : Nat) (pb b : Blk) (rest : List Blk)
    (h1 : GET_SIZE s.mem (HDRP bp) = b.size)
    (h2 : prev_alloc s.mem bp = (if pb.alloc then 1 else 0))
    (h3 : next_alloc s.mem bp = (if headAlloc rest then 1 else 0))
    (h4 : GET_SIZE s.mem (HDRP (PREV_BLKP s.mem bp)) = pb.size)
    (h5 : GET_SIZE s.mem (HDRP (NEXT_BLKP s.mem bp)) = total (rest.take 1)) :
    merged_size s.mem bp = b.size + (if pb.alloc then 0 else pb.size)
      + (if headAlloc rest then 0 else total (rest.take 1)) := by
  unfold merged_size
  rw [h1, h2, h3, h4, h5]
  cases pb.alloc <;> cases headAlloc rest <;> simp

theorem merged_arith (bp ps bs tr dp dn S q E : Nat) (hbp : 4 + ps ≤ bp) (hp8 : ps % 8 = 0)
    (hb8 : 8 ≤ bs) (hbm : bs % 8 = 0) (hlt : ps + bs + tr < 4294967296) (hdp : dp = 0 ∨ dp = ps)
    (hdn : dn ≤ tr) (hdn8 : dn % 8 = 0) (hS : S = bs + dp + dn) (hq : q = bp - dp)
    (hE : E = bp + bs + dn) :
    S % 8 = 0 ∧ S < 4294967296 ∧ 8 ≤ S ∧ 4 ≤ q ∧ E = q + S ∧ q + S = bp + bs + dn := by
  subst hS hq hE
  rcases hdp with h | h <;> subst h <;> omega

theorem frame_arith (q S x E : Nat) (hE : E = q + S) (h4 : 4 ≤ q) (hS : 8 ≤ S)
    (hcon : ¬ ((q - 4 ≤ x ∧ x < q - 4 + 4) ∨ (q + S - 8 ≤ x ∧ x < q + S - 8 + 4))) :
    (x < q - 4 ∨ q ≤ x) ∧ (x + 8 < E ∨ E ≤ x + 4) := by
  subst hE
  omega

/-- C16: in a heap laid out as a prologue, blocks and an epilogue, for a free block `bp`:
`coalesce(bp)` returns `bp` when the predecessor is allocated and the predecessor's block
pointer when it is free; the header and the footer of the returned block both hold, with
the allocated bit clear, the size of `bp` plus the sizes of exactly those neighbours that
were free; the returned block ends where the last merged block ended; and every byte that
changed lies in the header word or the footer word of the returned block. -/
theorem coalesce_merges (s : State) (bs : List Blk) (bp : Nat) (b : Blk) (hl : Layout s bs)
    (hb : (bp, b) ∈ starts s.heap_listp bs) (hfree : b.alloc = false) :
    ∃ q s1, coalesce s bp = (q, s1) ∧
      q = (if prev_alloc s.mem bp ≠ 0 then bp else PREV_BLKP s.mem bp) ∧
      GET s1.mem (HDRP q) = PACK (merged_size s.mem bp) 0 ∧
      GET s1.mem (FTRP s1.mem q) = PACK (merged_size s.mem bp) 0 ∧
      GET_SIZE s1.mem (HDRP q) = merged_size s.mem bp ∧ GET_ALLOC s1.mem (HDRP q) = 0 ∧
      NEXT_BLKP s1.mem q = (if next_alloc s.mem bp ≠ 0 then NEXT_BLKP s.mem bp
        else NEXT_BLKP s.mem (NEXT_BLKP s.mem bp)) ∧
      ∀ x, s1.mem x ≠ s.mem x →
        (HDRP q ≤ x ∧ x < HDRP q + WSIZE) ∨ (FTRP s1.mem q ≤ x ∧ x < FTRP s1.mem q + WSIZE) := by
  obtain ⟨pb, rest, hbp, hseg, hepi, hlt, hlo, hend, hprev, hnext, hsz, hpa, hna, hps, hns⟩ :=
    coalesce_at s bs bp b hl hb
  obtain ⟨c1, c2, -, -⟩ := coalesce_spec s bp pb b rest hbp hseg hepi hlt
  have cw := coalesce_writes s bp pb b rest hbp hseg hepi hlt
  have hms := merged_size_eq s bp pb b rest hsz hpa hna hps hns
  have ht1 : total (rest.take 1) ≤ total rest ∧ total (rest.take 1) % 8 = 0 := by
    cases rest with
    | nil => simp [total]
    | cons n r => simp only [List.take, total, Nat.add_zero]; exact ⟨by omega, hseg.2.2.2.2.2.2.2.2.2.1⟩
  have har := merged_arith bp pb.size b.size (total rest)
    (if pb.alloc then 0 else pb.size) (if headAlloc rest then 0 else total (rest.take 1))
    (merged_size s.mem bp) (coalP pb bp)
    (bp + b.size + (if headAlloc rest then 0 else total (rest.take 1)))
    hbp hseg.2.1 hseg.2.2.2.2.1 hseg.2.2.2.2.2.1 hlt (by split <;> simp)
    (by split; exact Nat.zero_le _; exact ht1.1) (by split; rfl; exact ht1.2) hms
    (by unfold coalP; split <;> rfl) rfl
  obtain ⟨hm8, hmlt, hS8, hq4, hE, hqS⟩ := har
  obtain ⟨L, R, hL, htL⟩ := coalL_split pb b rest hfree
  rw [hL, Seg_append] at c2
  have eq : bp - pb.size + total L = coalP pb bp := by
    rw [htL]; unfold coalP; split <;> omega
  rw [eq, ← hms] at c2
  obtain ⟨-, -, -, hh, hft, -⟩ := c2
  simp only [Blk.word, Bool.false_eq_true, if_false, Nat.add_zero] at hh hft
  clear hL htL eq cw
  have hpk : PACK (merged_size s.mem bp) 0 = merged_size s.mem bp := by
    rw [PACK_eq _ 0 hm8 hmlt (Nat.zero_le _), Nat.add_zero]
  have hgs : GET_SIZE (coalesce s bp).2.mem (coalP pb bp - 4) = merged_size s.mem bp :=
    word_size _ _ ⟨merged_size s.mem bp, false⟩ hm8 (by simpa [Blk.word] using hh)
  have hga : GET_ALLOC (coalesce s bp).2.mem (coalP pb bp - 4) = 0 := by
    have := word_alloc _ _ ⟨merged_size s.mem bp, false⟩ hm8 (by simpa [Blk.word] using hh)
    simpa using this
  have hftr : FTRP (coalesce s bp).2.mem (coalP pb bp) = coalP pb bp + merged_size s.mem bp - 8 := by
    unfold FTRP HDRP WSIZE DSIZE; rw [hgs]
  refine ⟨(coalesce s bp).1, (coalesce s bp).2, rfl, ?_, ?_, ?_, ?_, ?_, ?_, ?_⟩
  · rw [c1, hpa, hprev]; unfold coalP; cases pb.alloc <;> simp
  · rw [c1, hpk]; simp only [HDRP, WSIZE]; exact hh
  · rw [c1, hftr, hpk]; exact hft
  · rw [c1]; simp only [HDRP, WSIZE]; exact hgs
  · rw [c1]; simp only [HDRP, WSIZE]; exact hga
  · rw [c1]
    have e1 : NEXT_BLKP (coalesce s bp).2.mem (coalP pb bp) = coalP pb bp + merged_size s.mem bp := by
      unfold NEXT_BLKP WSIZE; rw [hgs]
    have e2 : NEXT_BLKP s.mem (bp + b.size) = bp + b.size + total (rest.take 1) := by
      have hs2 := hns
      rw [hnext] at hs2
      simp only [HDRP, WSIZE] at hs2
      unfold NEXT_BLKP WSIZE; rw [hs2]
    rw [e1, hqS, hna, hnext, e2]
    cases headAlloc rest <;> simp
  · intro x hx
    rw [c1, hftr]
    simp only [HDRP, WSIZE]
    by_contra hcon
    obtain ⟨a1, a2⟩ := frame_arith _ _ x _ hE hq4 hS8 hcon
    exact hx (coalesce_writes s bp pb b rest hbp hseg hepi hlt x a1 a2)

/-- Witness of `coalesce_merges`: inside `mm_free(4136)`, with the blocks 4112, 4136 and
4168 all free, `coalesce(4136)` merges the three blocks. -/
theorem coalesce_merges_witness :
    Layout demoMerge [⟨24, false⟩, ⟨32, false⟩, ⟨4040, false⟩] ∧
    (4136, (⟨32, false⟩ : Blk)) ∈
      starts demoMerge.heap_listp [⟨24, false⟩, ⟨32, false⟩, ⟨4040, false⟩] ∧
    ∃ q s1, coalesce demoMerge 4136 = (q, s1) ∧
      q = (if prev_alloc demoMerge.mem 4136 ≠ 0 then 4136 else PREV_BLKP demoMerge.mem 4136) ∧
      GET s1.mem (HDRP q) = PACK (merged_size demoMerge.mem 4136) 0 ∧
      GET s1.mem (FTRP s1.mem q) = PACK (merged_size demoMerge.mem 4136) 0 ∧
      GET_SIZE s1.mem (HDRP q) = merged_size demoMerge.mem 4136 ∧ GET_ALLOC s1.mem (HDRP q) = 0 ∧
      NEXT_BLKP s1.mem q = (if next_alloc demoMerge.mem 4136 ≠ 0 then NEXT_BLKP demoMerge.mem 4136
        else NEXT_BLKP demoMerge.mem (NEXT_BLKP demoMerge.mem 4136)) ∧
      ∀ x, s1.mem x ≠ demoMerge.mem x →
        (HDRP q ≤ x ∧ x < HDRP q + WSIZE) ∨ (FTRP s1.mem q ≤ x ∧ x < FTRP s1.mem q + WSIZE) :=
  ⟨demoMerge_layout, demoMerge_block,
    coalesce_merges demoMerge _ 4136 ⟨32, false⟩ demoMerge_layout demoMerge_block rfl⟩

/-- C20: in a heap laid out as a prologue, blocks and an epilogue, for a free block `bp`:
after `coalesce(bp)` the cursor is unchanged when both neighbours of `bp` are allocated,
and it is the returned merged block when at least one neighbour is free, whatever the
cursor was before the call. -/
theorem coalesce_cursor (s : State) (bs : List Blk) (bp : Nat) (b : Blk) (hl : Layout s bs)
    (hb : (bp, b) ∈ starts s.heap_listp bs) (hfree : b.alloc = false) :
    (prev_alloc s.mem bp ≠ 0 ∧ next_alloc s.mem bp ≠ 0 →
      (coalesce s bp).2.heap_nextp = s.heap_nextp) ∧
    (prev_alloc s.mem bp = 0 ∨ next_alloc s.mem bp = 0 →
      (coalesce s bp).2.heap_nextp = (coalesce s bp).1) := by
  obtain ⟨pb, rest, hbp, hseg, hepi, hlt, hlo, hend, hprev, hnext, hsz, hpa, hna, hps, hns⟩ :=
    coalesce_at s bs bp b hl hb
  obtain ⟨c1, -, -, c4, -⟩ := coalesce_spec s bp pb b rest hbp hseg hepi hlt
  rw [c1, c4, hpa, hna]
  cases pb.alloc <;> cases headAlloc rest <;> simp

/-- Witness of `coalesce_cursor`: inside `mm_free(4136)`, with the blocks 4112, 4136 and
4168 all free. -/
theorem coalesce_cursor_witness :
    Layout demoMerge [⟨24, false⟩, ⟨32, false⟩, ⟨4040, false⟩] ∧
    (4136, (⟨32, false⟩ : Blk)) ∈
      starts demoMerge.heap_listp [⟨24, false⟩, ⟨32, false⟩, ⟨4040, false⟩] ∧
    (prev_alloc demoMerge.mem 4136 ≠ 0 ∧ next_alloc demoMerge.mem 4136 ≠ 0 →
      (coalesce demoMerge 4136).2.heap_nextp = demoMerge.heap_nextp) ∧
    (prev_alloc demoMerge.mem 4136 = 0 ∨ next_alloc demoMerge.mem 4136 = 0 →
      (coalesce demoMerge 4136).2.heap_nextp = (coalesce demoMerge 4136).1) :=
  ⟨demoMerge_layout, demoMerge_block,
    coalesce_cursor demoMerge _ 4136 ⟨32, false⟩ demoMerge_layout demoMerge_block rfl⟩

/-! ## The bytes written by `place` -/

theorem TagL_mid (a : Nat) (L M R : List Blk) (x : Nat) (h : TagL (a + total L) M x) :
    TagL a (L ++ M ++ R) x := by
  obtain ⟨q, c, hq, hx⟩ := h
  refine ⟨q, c, ?_, hx⟩
  rw [starts_append, starts_append]
  exact List.mem_append_left _ (List.mem_append_right _ hq)

theorem TagL_last (a : Nat) (bs : List Blk) (x : Nat) (hne : bs ≠ [])
    (h1 : a + total bs - 8 ≤ x) (h2 : x < a + total bs - 4) : TagL a bs x := by
  rcases List.eq_nil_or_concat bs with rfl | ⟨L, c, rfl⟩
  · exact absurd rfl hne
  · simp only [List.concat_eq_append, total_append, total, Nat.add_zero] at h1 h2 ⊢
    refine ⟨a + total L, c, mem_starts_mid a L [] c, Or.inr ⟨by omega, by omega⟩⟩

theorem place_writes (s : State) (bp asize : Nat) (b : Blk) (hbp : 4 ≤ bp)
    (hseg : Seg s.mem bp [b]) (ha8 : asize % 8 = 0) (ha : 8 ≤ asize) (hfit : asize ≤ b.size)
    (hlt : asize + 8 < U32) :
    ∀ x, (place s bp asize).mem x ≠ s.mem x → TagL bp (placeL b asize) x := by
  obtain ⟨h8, hm, hh, hf, -⟩ := hseg
  have hsz : GET_SIZE s.mem (bp - 4) = b.size := word_size _ _ b hm hh
  have hblt : b.size < U32 := word_lt _ _ b hh
  have hU : U32 = 4294967296 := rfl
  have e1 : asize % U32 = asize := Nat.mod_eq_of_lt (by omega)
  have e2 : (asize + 8) % U32 = asize + 8 := Nat.mod_eq_of_lt hlt
  unfold place placeL
  simp only [hsz, e1, e2, HDRP, WSIZE]
  by_cases hc : b.size < asize + 8
  · have hbe : b.size = asize := by omega
    simp only [hc, if_true]
    have hsz1 : GET_SIZE (PUT s.mem (bp - 4) (PACK asize 1)) (bp - 4) = asize := by
      rw [GET_SIZE_eq]
      rw [GET_PUT_PACK _ _ _ _ ha8 (by omega) (by omega)]; omega
    intro x hx
    by_contra hcon
    apply hx
    have t1 : ¬ (bp - 4 ≤ x ∧ x < bp) :=
      fun h => hcon ⟨bp, ⟨asize, true⟩, by simp [starts], Or.inl h⟩
    have t2 : ¬ (bp + asize - 8 ≤ x ∧ x < bp + asize - 4) :=
      fun h => hcon ⟨bp, ⟨asize, true⟩, by simp [starts], Or.inr h⟩
    clear hx hcon
    simp only [FTRP, HDRP, WSIZE, hsz1, DSIZE]
    rw [PUT_other _ _ _ _ (by omega), PUT_other _ _ _ _ (by omega)]
  · simp only [hc, if_false]
    intro x hx
    by_contra hcon
    apply hx
    have t1 : ¬ (bp - 4 ≤ x ∧ x < bp) :=
      fun h => hcon ⟨bp, ⟨asize, true⟩, by simp [starts], Or.inl h⟩
    have t2 : ¬ (bp + asize - 8 ≤ x ∧ x < bp + asize - 4) :=
      fun h => hcon ⟨bp, ⟨asize, true⟩, by simp [starts], Or.inr h⟩
    have t3 : ¬ (bp + asize - 4 ≤ x ∧ x < bp + asize) :=
      fun h => hcon ⟨bp + asize, ⟨b.size - asize, false⟩, by simp [starts], Or.inl h⟩
    have t4 : ¬ (bp + asize + (b.size - asize) - 8 ≤ x ∧ x < bp + asize + (b.size - asize) - 4) :=
      fun h => hcon ⟨bp + asize, ⟨b.size - asize, false⟩, by simp [starts], Or.inr h⟩
    clear hx hcon
    rw [PUT_other _ _ _ _ (by omega), PUT_other _ _ _ _ (by omega),
      PUT_other _ _ _ _ (by omega), PUT_other _ _ _ _ (by omega)]

/-! ## The bytes written by `extend_heap` and `mm_free` -/

theorem extend_writes (s : State) (a : Nat) (pre : List Blk) (pb : Blk) (words : Nat)
    (ha : 4 ≤ a) (hseg : Seg s.mem a (pre ++ [pb])) (hbrk : s.mem_brk = a + total (pre ++ [pb]))
    (hw2 : words % 2 = 0) (hw : 2 ≤ words) (hlt : total (pre ++ [pb]) + words * 4 < U32)
    (hfit : s.mem_brk + words * 4 ≤ s.mem_max_addr) :
    ∀ x, (x < coalP pb s.mem_brk - 4 ∨ coalP pb s.mem_brk ≤ x) →
      (x < s.mem_brk - 4 ∨ s.mem_brk ≤ x) →
      (x + 8 < s.mem_brk + words * 4 ∨ s.mem_brk + words * 4 ≤ x) →
      (extend_heap s words).2.mem x = s.mem x := by
  have hU : U32 = 4294967296 := rfl
  rw [total_append] at hbrk hlt
  simp only [total, Nat.add_zero] at hbrk hlt
  rw [Seg_append] at hseg
  obtain ⟨hpre, hp8, hpm, hph, hpf, -⟩ := hseg
  have e1 : words % U32 = words := Nat.mod_eq_of_lt (by omega)
  have e2 : (words * 4) % U32 = words * 4 := Nat.mod_eq_of_lt (by omega)
  have hpk : PACK (words * 4) 0 = words * 4 := by
    rw [PACK_eq (words * 4) 0 (by omega) (by omega) (by omega), Nat.add_zero]
  have h1 := GET_SIZE_PUT_PACK s.mem (s.mem_brk - 4) (words * 4) 0 (by omega) (by omega)
    (by omega)
  rw [hpk] at h1
  have h2 : FTRP (PUT s.mem (s.mem_brk - 4) (words * 4)) s.mem_brk
      = s.mem_brk + words * 4 - 8 := by
    unfold FTRP HDRP WSIZE DSIZE; rw [h1]
  have h3 : NEXT_BLKP (PUT (PUT s.mem (s.mem_brk - 4) (words * 4))
      (s.mem_brk + words * 4 - 8) (words * 4)) s.mem_brk = s.mem_brk + words * 4 := by
    unfold NEXT_BLKP WSIZE
    rw [GET_SIZE_PUT_other _ _ _ _ (by omega), h1]
  have hext : extend_heap s words =
      (some (coalesce { s with
        mem := PUT (PUT (PUT s.mem (s.mem_brk - 4) (words * 4))
          (s.mem_brk + words * 4 - 8) (words * 4)) (s.mem_brk + words * 4 - 4) 1,
        mem_brk := s.mem_brk + words * 4 } s.mem_brk).1,
       (coalesce { s with
        mem := PUT (PUT (PUT s.mem (s.mem_brk - 4) (words * 4))
          (s.mem_brk + words * 4 - 8) (words * 4)) (s.mem_brk + words * 4 - 4) 1,
        mem_brk := s.mem_brk + words * 4 } s.mem_brk).2) := by
    unfold extend_heap mem_sbrk
    simp only [e1, hw2, WSIZE, e2]
    have hnf : ¬ (s.mem_brk + words * 4 > s.mem_max_addr) := by omega
    simp [hnf, HDRP, WSIZE, hpk, h2, h3, PACK_epilogue]
  have e3 : a + total pre = s.mem_brk - pb.size := by omega
  rw [e3] at hph hpf
  have cw := coalesce_writes { s with
      mem := PUT (PUT (PUT s.mem (s.mem_brk - 4) (words * 4))
        (s.mem_brk + words * 4 - 8) (words * 4)) (s.mem_brk + words * 4 - 4) 1,
      mem_brk := s.mem_brk + words * 4 } s.mem_brk pb ⟨words * 4, false⟩ [] (by omega)
    (by
      have e4 : s.mem_brk - pb.size + pb.size = s.mem_brk := by omega
      refine ⟨hp8, hpm, ?_, ?_, by simp only []; omega, by simp only []; omega, ?_, ?_, trivial⟩
      · simp only []
        rw [GET_PUT_other _ _ _ _ (by omega), GET_PUT_other _ _ _ _ (by omega),
          GET_PUT_other _ _ _ _ (by omega)]
        exact hph
      · simp only []
        rw [GET_PUT_other _ _ _ _ (by omega), GET_PUT_other _ _ _ _ (by omega),
          GET_PUT_other _ _ _ _ (by omega)]
        exact hpf
      · simp only [e4, Blk.word]
        rw [GET_PUT_other _ _ _ _ (by omega), GET_PUT_other _ _ _ _ (by omega), GET_PUT_same,
          Nat.mod_eq_of_lt (by omega)]
        simp
      · simp only [e4, Blk.word]
        rw [GET_PUT_other _ _ _ _ (by omega), GET_PUT_same, Nat.mod_eq_of_lt (by omega)]
        simp)
    (by
      simp only [total, Nat.add_zero]
      rw [GET_PUT_same]; unfold U32; rfl)
    (by simp only [total]; omega)
  simp only [headAlloc, if_true, Nat.add_zero] at cw
  intro x hx1 hx2 hx3
  rw [hext]; simp only []
  rw [cw x hx1 (by omega), PUT_other _ _ _ _ (by omega), PUT_other _ _ _ _ (by omega),
    PUT_other _ _ _ _ (by omega)]

theorem free_writes (s : State) (a p : Nat) (pre : List Blk) (pb b : Blk) (post : List Blk)
    (ha : 4 ≤ a) (hseg : Seg s.mem a (pre ++ pb :: b :: post))
    (hepi : GET s.mem (a + total (pre ++ pb :: b :: post) - 4) = 1)
    (hlt : total (pre ++ pb :: b :: post) < U32) (hp : p = a + total pre + pb.size) :
    ∀ x, (x < coalP pb p - 4 ∨ coalP pb p ≤ x) → (x < p - 4 ∨ p ≤ x) →
      (x + 8 < p + b.size ∨ p + b.size ≤ x + 4) →
      (x + 8 < p + b.size + (if headAlloc post then 0 else total (post.take 1)) ∨
        p + b.size + (if headAlloc post then 0 else total (post.take 1)) ≤ x + 4) →
      (mm_free s p).mem x = s.mem x := by
  rw [Seg_append] at hseg
  obtain ⟨hpre, hmid⟩ := hseg
  have hmid0 := hmid
  obtain ⟨hp8, hpm, hph, hpf, hb8, hbm, hbh, hbf, hr⟩ := hmid
  rw [total_append] at hepi hlt
  simp only [total] at hepi hlt
  have ep : a + total pre + pb.size = p := hp.symm
  rw [ep] at hbh hbf hr
  have hbsz : GET_SIZE s.mem (p - 4) = b.size := word_size _ _ b hbm hbh
  have hpk : PACK b.size 0 = b.size := by
    rw [PACK_eq b.size 0 hbm (by omega) (by omega), Nat.add_zero]
  have hU : U32 = 4294967296 := rfl
  have hsz1 := GET_SIZE_PUT_PACK s.mem (p - 4) b.size 0 hbm (by omega) (by omega)
  rw [hpk] at hsz1
  have hfree : mm_free s p = (coalesce { s with
      mem := PUT (PUT s.mem (p - 4) b.size) (p + b.size - 8) b.size,
      count := s.count + 1 } p).2 := by
    unfold mm_free
    simp [HDRP, WSIZE, hbsz, hpk, FTRP, DSIZE, hsz1]
  have hseg2 : Seg (PUT (PUT s.mem (p - 4) b.size) (p + b.size - 8) b.size) (p - pb.size)
      (pb :: ⟨b.size, false⟩ :: post) := by
    have e1 : p - pb.size = a + total pre := by omega
    rw [e1]
    have := Seg_replace s.mem (PUT (PUT s.mem (p - 4) b.size) (p + b.size - 8) b.size)
      (a + total pre) [pb] [b] [⟨b.size, false⟩] post (by omega) (by simpa using hmid0)
      (by
        intro x hx
        simp only [total] at hx
        rw [PUT_other _ _ _ _ (by omega), PUT_other _ _ _ _ (by omega)])
      (by
        simp only [total, Nat.add_zero, ep]
        refine ⟨hb8, hbm, ?_, ?_, trivial⟩
        · simp only [Blk.word]
          rw [GET_PUT_other _ _ _ _ (by omega), GET_PUT_same, Nat.mod_eq_of_lt (by omega)]; simp
        · simp only [Blk.word]
          rw [GET_PUT_same, Nat.mod_eq_of_lt (by omega)]; simp)
      (by simp [total])
    simpa using this
  have hepi2 : GET (PUT (PUT s.mem (p - 4) b.size) (p + b.size - 8) b.size)
      (p + b.size + total post - 4) = 1 := by
    rw [GET_PUT_other _ _ _ _ (by omega), GET_PUT_other _ _ _ _ (by omega), ← hepi]
    congr 1; omega
  have cw := coalesce_writes { s with
      mem := PUT (PUT s.mem (p - 4) b.size) (p + b.size - 8) b.size,
      count := s.count + 1 } p pb ⟨b.size, false⟩ post (by omega) hseg2 hepi2
      (by simp only []; omega)
  simp only [] at cw
  intro x hx1 hx2 hx3 hx4
  rw [hfree, cw x hx1 hx4, PUT_other _ _ _ _ (by omega), PUT_other _ _ _ _ (by omega)]

/-! ## Header and footer words of a well-formed heap -/

theorem TagL_IsTag (s : State) (bs : List Blk) (x : Nat) (h : Heap s bs)
    (ht : TagL s.heap_listp bs x) : IsTag s x := by
  obtain ⟨q, c, hq, hx⟩ := ht
  obtain ⟨e1, -⟩ := starts_bits s bs q c h hq
  obtain ⟨h8, -, -, -⟩ := Heap_block s bs q c h hq
  left
  refine ⟨q, mem_blocks s bs q c h hq, ?_⟩
  unfold FTRP
  rw [e1]
  simp only [HDRP, WSIZE, DSIZE]
  rcases hx with hx | hx
  · left; omega
  · right; omega

theorem InBlock_of (s : State) (bs : List Blk) (q : Nat) (c : Blk) (x : Nat) (h : Heap s bs)
    (hq : (q, c) ∈ starts s.heap_listp bs) (h1 : q - 4 ≤ x) (h2 : x < q + c.size - 4) :
    q ∈ blocks s ∧ GET_ALLOC s.mem (HDRP q) = (if c.alloc then 1 else 0) ∧ InBlock s q x := by
  obtain ⟨e1, e2⟩ := starts_bits s bs q c h hq
  refine ⟨mem_blocks s bs q c h hq, e2, ?_⟩
  unfold InBlock
  rw [e1]
  simp only [HDRP, WSIZE]
  have := (mem_starts_ge _ _ _ _ hq).1
  have := h.lo
  omega

theorem extend_heap_writes (s : State) (bs : List Blk) (words : Nat) (h : Heap s bs)
    (hw2 : words % 2 = 0) (hw : 2 ≤ words) (hfit : s.mem_brk + words * 4 ≤ s.mem_max_addr)
    (L : List Blk) (hp : (extend_heap s words).1 = some (s.heap_listp + total L)) :
    ∀ x, (x < s.heap_listp + total L - 4 ∨ s.heap_listp + total L ≤ x) →
      (x < s.mem_brk - 4 ∨ s.mem_brk ≤ x) →
      (x + 8 < s.mem_brk + words * 4 ∨ s.mem_brk + words * 4 ≤ x) →
      (extend_heap s words).2.mem x = s.mem x := by
  have hlo := h.lo
  have hbrk := h.brk
  have hmax := h.max
  have hlim := h.lim
  have hU : U32 = 4294967296 := rfl
  obtain ⟨pre1, pb, hpre1⟩ : ∃ pre1 pb, prologue :: bs = pre1 ++ [pb] := by
    rcases List.eq_nil_or_concat bs with rfl | ⟨L, x, rfl⟩
    · exact ⟨[], prologue, rfl⟩
    · exact ⟨prologue :: L, x, by simp⟩
  have htp : 8 + total bs = total (pre1 ++ [pb]) := by
    rw [← hpre1]; simp [total, prologue]
  have hseg := h.seg
  rw [hpre1] at hseg
  have a1 : 4 ≤ s.heap_listp - 8 := by omega
  have a2 : s.mem_brk = s.heap_listp - 8 + total (pre1 ++ [pb]) := by omega
  have a3 : total (pre1 ++ [pb]) + words * 4 < U32 := by omega
  obtain ⟨c1, -⟩ := extend_seg s (s.heap_listp - 8) pre1 pb words a1 hseg a2 hw2 hw a3 hfit
  have ew := extend_writes s (s.heap_listp - 8) pre1 pb words a1 hseg a2 hw2 hw a3 hfit
  rw [c1] at hp
  simp only [Option.some.injEq] at hp
  rw [hp] at ew
  exact ew

/-! ## The bytes written by `mm_malloc` on a well-formed heap -/

theorem ext_arith (x q brk ext : Nat) (hq : q ≤ brk) (he : 8 ≤ ext) (hq4 : 4 ≤ q)
    (hw : ¬ ((x < q - 4 ∨ q ≤ x) ∧ (x < brk - 4 ∨ brk ≤ x) ∧
      (x + 8 < brk + ext ∨ brk + ext ≤ x))) :
    (q - 4 ≤ x ∧ x < q) ∨ (brk - 4 ≤ x ∧ x < brk) ∨
      (brk + ext - 8 ≤ x ∧ x < brk + ext - 4) ∨ (brk + ext - 4 ≤ x ∧ x < brk + ext) := by
  omega

theorem malloc_writes (s : State) (bs : List Blk) (n : Nat) (r : Option Nat) (s1 : State)
    (h : Heap s bs) (hn : n ≤ 2 ^ 31 - 16) (hm : mm_malloc s n = some (r, s1)) :
    ∃ bs1, Heap s1 bs1 ∧ s1.heap_listp = s.heap_listp ∧ ∀ x, s1.mem x ≠ s.mem x →
      ((∃ q f, (q, f) ∈ starts s.heap_listp bs ∧ f.alloc = false ∧ q - 4 ≤ x ∧
          x < q + f.size - 4) ∨ (s.mem_brk - 4 ≤ x ∧ x < s1.mem_brk)) ∧
      (TagL s.heap_listp bs x ∨ (s.mem_brk - 4 ≤ x ∧ x < s.mem_brk) ∨
        TagL s.heap_listp bs1 x ∨ (s1.mem_brk - 4 ≤ x ∧ x < s1.mem_brk)) := by
  by_cases h0 : n = 0
  · subst h0
    rw [mm_malloc_zero] at hm
    simp only [Option.some.injEq, Prod.mk.injEq] at hm
    obtain ⟨-, rfl⟩ := hm
    exact ⟨bs, Heap_count s bs _ h, rfl, fun x hx => absurd rfl hx⟩
  have hpos : 0 < n := Nat.pos_of_ne_zero h0
  obtain ⟨a8, a16, _, _, amax⟩ := adjust_spec n hpos hn
  have h31 : (2 : Nat) ^ 31 = 2147483648 := by norm_num
  rw [h31] at amax
  have hU : U32 = 4294967296 := rfl
  have hlo := h.lo
  have h1 := Heap_count s bs (s.count + 1) h
  obtain ⟨pre, post, e, hcur, hres⟩ := find_fit_spec _ bs (adjust n) h1 (by omega)
  simp only [] at hres
  rcases hres with ⟨q, f, R, e1, hq, hf, hfs, hff⟩ | ⟨hall, hff⟩
  · have hm1 : mm_malloc s n = some (some (s.heap_listp + total (pre ++ q)),
        place { s with count := s.count + 1, heap_nextp := s.heap_listp + total (pre ++ q) }
          (s.heap_listp + total (pre ++ q)) (adjust n)) := by
      unfold mm_malloc
      simp only [h0, if_false, hff]
    rw [hm1] at hm
    simp only [Option.some.injEq, Prod.mk.injEq] at hm
    obtain ⟨-, rfl⟩ := hm
    have e2 : bs = (pre ++ q) ++ f :: R := by rw [e, e1]; simp
    have h2 : Heap
        { s with count := s.count + 1, heap_nextp := s.heap_listp + total (pre ++ q) }
        ((pre ++ q) ++ f :: R) := by
      rw [← e2]
      exact ⟨h.lo, h.seg, h.epi, h.brk, h.max, h.lim, h.nadj,
        ⟨f, by rw [e2]; exact mem_starts_mid _ _ _ _⟩⟩
    obtain ⟨p1, p2⟩ := place_heap _ (pre ++ q) R f (adjust n) h2 hf a8 (by omega) hfs (by omega)
    obtain ⟨f1, f2, f3, f4, f5⟩ := place_fields
        { s with count := s.count + 1, heap_nextp := s.heap_listp + total (pre ++ q) }
        (s.heap_listp + total (pre ++ q)) (adjust n)
    have hsegf := Heap_seg_from _ (pre ++ q) (f :: R) h2
    have hsf : Seg s.mem (s.heap_listp + total (pre ++ q)) [f] :=
      ⟨hsegf.1, hsegf.2.1, hsegf.2.2.1, hsegf.2.2.2.1, trivial⟩
    have pw := place_writes
      { s with count := s.count + 1, heap_nextp := s.heap_listp + total (pre ++ q) }
      (s.heap_listp + total (pre ++ q)) (adjust n) f (by omega) hsf a8 (by omega) hfs (by omega)
    simp only [] at p1 p2 pw
    have hin : (s.heap_listp + total (pre ++ q), f) ∈ starts s.heap_listp bs := by
      rw [e2]; exact mem_starts_mid _ _ _ _
    refine ⟨_, p1, f3, fun x hx => ⟨Or.inl ⟨_, f, hin, hf, ?_, ?_⟩,
      Or.inr (Or.inr (Or.inl (TagL_mid _ _ _ _ _ (pw x hx))))⟩⟩
    · by_contra hc
      apply hx
      clear hx
      exact p2 x (by omega)
    · by_contra hc
      apply hx
      clear hx
      exact p2 x (by omega)
  · have hex := extendsize_eq (adjust n) (by rw [h31]; exact amax)
    have hw : max (adjust n) 4096 / 4 * 4 = max (adjust n) 4096 := by
      rcases Nat.le_total (adjust n) 4096 with hle | hle
      · rw [Nat.max_eq_right hle]
      · rw [Nat.max_eq_left hle]; omega
    have hw2 : (max (adjust n) 4096 / 4) % 2 = 0 := by
      rcases Nat.le_total (adjust n) 4096 with hle | hle
      · rw [Nat.max_eq_right hle]
      · rw [Nat.max_eq_left hle]; omega
    have hwlt : max (adjust n) 4096 < 2147483648 := by
      rcases Nat.le_total (adjust n) 4096 with hle | hle
      · rw [Nat.max_eq_right hle]; omega
      · rw [Nat.max_eq_left hle]; omega
    have hwge : 4096 ≤ max (adjust n) 4096 := Nat.le_max_right _ _
    by_cases hfit : s.mem_brk + max (adjust n) 4096 ≤ s.mem_max_addr
    · obtain ⟨L, M, eL, hM, x1, x2, x3, x4, x5, x6, x7, x8⟩ := extend_heap_heap _ bs
        (max (adjust n) 4096 / 4) h1 hw2 (by omega) (by rw [hw]; exact hfit)
      have ew := extend_heap_writes _ bs (max (adjust n) 4096 / 4) h1 hw2 (by omega)
        (by rw [hw]; exact hfit) L x1
      rw [hw] at x2 x5 ew
      simp only [] at x1 x2 x3 x4 x5 x6 x7 x8 ew
      rcases hx : extend_heap { s with count := s.count + 1 } (max (adjust n) 4096 / 4)
        with ⟨r2, s2⟩
      rw [hx] at x1 x2 x3 x4 x5 x6 x7 x8 ew
      simp only [] at x1 x2 x3 x4 x5 x6 x7 x8 ew
      subst x1
      have hm1 : mm_malloc s n = some (some (s.heap_listp + total L),
          place s2 (s.heap_listp + total L) (adjust n)) := by
        unfold mm_malloc
        simp only [h0, if_false, hff, hex, WSIZE, hx]
      rw [hm1] at hm
      simp only [Option.some.injEq, Prod.mk.injEq] at hm
      obtain ⟨-, rfl⟩ := hm
      have hfs : adjust n ≤ total M + max (adjust n) 4096 := by
        have := Nat.le_max_left (adjust n) 4096; omega
      have x2a : Heap s2 (L ++ (⟨total M + max (adjust n) 4096, false⟩ : Blk) :: []) := x2
      obtain ⟨p1, p2⟩ := place_heap s2 L [] ⟨total M + max (adjust n) 4096, false⟩ (adjust n)
        x2a rfl a8 (by omega) hfs (by omega)
      obtain ⟨f1, f2, f3, f4, f5⟩ := place_fields s2 (s2.heap_listp + total L) (adjust n)
      have hsegf := Heap_seg_from _ L [⟨total M + max (adjust n) 4096, false⟩] x2a
      have pw := place_writes s2 (s2.heap_listp + total L) (adjust n)
        ⟨total M + max (adjust n) 4096, false⟩ (by rw [x7]; omega) hsegf a8 (by omega) hfs
        (by omega)
      rw [x7] at p1 p2 f1 f2 f3 f4 f5 pw
      simp only [] at p2
      have hbrk := h.brk
      have htot : total bs = total L + total M := by rw [eL, total_append]
      have hbrk1 : (place s2 (s.heap_listp + total L) (adjust n)).mem_brk
          = s.mem_brk + max (adjust n) 4096 := by rw [f1, x5]
      have htb1 : total (L ++ placeL ⟨total M + max (adjust n) 4096, false⟩ (adjust n) ++ [])
          = total L + (total M + max (adjust n) 4096) := by
        rw [total_append, total_append, total_placeL _ _ hfs a8 (by
          have := total_mod8 _ _ _ (Heap_seg_from s L M (by rw [← eL]; exact h))
          simp only []; omega)]
        simp [total]
      have hne : L ++ placeL ⟨total M + max (adjust n) 4096, false⟩ (adjust n) ++ [] ≠ [] := by
        unfold placeL; split <;> simp
      have hMt : (M = [] ∧ total M = 0) ∨ (∃ f, M = [f] ∧ f.alloc = false ∧ total M = f.size ∧
          (s.heap_listp + total L, f) ∈ starts s.heap_listp bs ∧ 8 ≤ f.size) := by
        rcases hM with rfl | ⟨f, rfl, hff1⟩
        · left; exact ⟨rfl, rfl⟩
        · right
          have hin : (s.heap_listp + total L, f) ∈ starts s.heap_listp bs := by
            rw [eL]; exact mem_starts_mid _ _ _ _
          exact ⟨f, rfl, hff1, by simp [total], hin, (Heap_block s bs _ f h hin).1⟩
      refine ⟨_, p1, f3, fun x hx => ?_⟩
      rw [hbrk1]
      by_cases hpl : (place s2 (s.heap_listp + total L) (adjust n)).mem x = s2.mem x
      · rw [hpl] at hx
        have hcase := ext_arith x (s.heap_listp + total L) s.mem_brk (max (adjust n) 4096)
          (by omega) (by omega) (by omega) (fun hc => hx (ew x hc.1 hc.2.1 hc.2.2))
        clear hx hpl
        rcases hcase with hc | hc | hc | hc
        · rcases hMt with ⟨rfl, hM0⟩ | ⟨f, rfl, hff1, hM1, hin, hf8⟩
          · have : s.heap_listp + total L = s.mem_brk := by omega
            rw [this] at hc
            exact ⟨Or.inr ⟨hc.1, by omega⟩, Or.inr (Or.inl hc)⟩
          · exact ⟨Or.inl ⟨_, f, hin, hff1, hc.1, by omega⟩, Or.inl ⟨_, f, hin, Or.inl hc⟩⟩
        · exact ⟨Or.inr ⟨hc.1, by omega⟩, Or.inr (Or.inl hc)⟩
        · refine ⟨Or.inr ⟨by omega, by omega⟩, Or.inr (Or.inr (Or.inl ?_))⟩
          exact TagL_last _ _ x hne (by rw [htb1]; omega) (by rw [htb1]; omega)
        · exact ⟨Or.inr ⟨by omega, by omega⟩, Or.inr (Or.inr (Or.inr hc))⟩
      · have ht := pw x hpl
        have hloc : s.heap_listp + total L - 4 ≤ x ∧
            x < s.heap_listp + total L + (total M + max (adjust n) 4096) - 4 := by
          constructor
          · by_contra hc
            apply hpl
            clear hx hpl
            exact p2 x (Or.inl (by omega))
          · by_contra hc
            apply hpl
            clear hx hpl
            exact p2 x (Or.inr (by omega))
        clear hx hpl
        refine ⟨?_, Or.inr (Or.inr (Or.inl (TagL_mid _ _ _ _ _ ht)))⟩
        rcases hMt with ⟨rfl, hM0⟩ | ⟨f, rfl, hff1, hM1, hin, hf8⟩
        · exact Or.inr ⟨by omega, by omega⟩
        · by_cases hxb : x < s.heap_listp + total L + f.size - 4
          · exact Or.inl ⟨_, f, hin, hff1, hloc.1, hxb⟩
          · exact Or.inr ⟨by omega, by omega⟩
    · have hfail := extend_heap_fail { s with count := s.count + 1 } (max (adjust n) 4096 / 4)
        hw2 (by omega) (by rw [hw]; simp only []; omega)
      have hm1 : mm_malloc s n = some (none, { s with count := s.count + 1 }) := by
        unfold mm_malloc
        simp only [h0, if_false, hff, hex, WSIZE, hfail]
      rw [hm1] at hm
      simp only [Option.some.injEq, Prod.mk.injEq] at hm
      obtain ⟨-, rfl⟩ := hm
      exact ⟨bs, h1, rfl, fun x hx => absurd rfl hx⟩

/-! ## The bytes written by `mm_free` on a well-formed heap -/

theorem free_arith (x q p sz e : Nat)
    (hw : ¬ ((x < q - 4 ∨ q ≤ x) ∧ (x < p - 4 ∨ p ≤ x) ∧ (x + 8 < p + sz ∨ p + sz ≤ x + 4) ∧
      (x + 8 < e ∨ e ≤ x + 4))) :
    (q - 4 ≤ x ∧ x < q) ∨ (p - 4 ≤ x ∧ x < p) ∨ (p + sz - 8 ≤ x ∧ x < p + sz - 4) ∨
      (e - 8 ≤ x ∧ x < e - 4) := by
  omega

theorem free_writes_heap (s : State) (bs : List Blk) (p : Nat) (b : Blk) (h : Heap s bs)
    (hp : (p, b) ∈ starts s.heap_listp bs) :
    ∀ x, (mm_free s p).mem x ≠ s.mem x →
      (∃ q f, (q, f) ∈ starts s.heap_listp bs ∧ (f.alloc = false ∨ q = p) ∧ q - 4 ≤ x ∧
        x < q + f.size - 4) ∧ TagL s.heap_listp bs x := by
  have hp0 := hp
  obtain ⟨pre, post, rfl, hpp⟩ := mem_starts_split _ _ _ _ hp
  have hlo := h.lo
  have htl := Heap_total_lt s _ h
  have hU : U32 = 4294967296 := rfl
  obtain ⟨pre1, pb, hpre1⟩ : ∃ pre1 pb, prologue :: pre = pre1 ++ [pb] := by
    rcases List.eq_nil_or_concat pre with rfl | ⟨L, x, rfl⟩
    · exact ⟨[], prologue, rfl⟩
    · exact ⟨prologue :: L, x, by simp⟩
  have hF : prologue :: (pre ++ b :: post) = pre1 ++ pb :: b :: post := by
    rw [← List.cons_append, hpre1]; simp
  have htp : 8 + total pre = total pre1 + pb.size := by
    have h1 := congrArg total hpre1
    simp only [total, total_append, prologue] at h1; omega
  have htF : total (pre1 ++ pb :: b :: post) = 8 + total (pre ++ b :: post) := by
    rw [← hF]; simp [total, prologue]
  have hseg := h.seg
  rw [hF] at hseg
  have hepi : GET s.mem (s.heap_listp - 8 + total (pre1 ++ pb :: b :: post) - 4) = 1 := by
    rw [htF, ← h.epi]; congr 1; omega
  have fw := free_writes s (s.heap_listp - 8) p pre1 pb b post
    (by omega) hseg hepi (by rw [htF]; omega) (by omega)
  obtain ⟨hb8, -, -, -⟩ := Heap_block s _ p b h hp0
  have hprev : (pb.alloc = true ∧ coalP pb p = p) ∨ (pb.alloc = false ∧ 8 ≤ pb.size ∧
      coalP pb p = p - pb.size ∧ pb.size ≤ p ∧
      (p - pb.size, pb) ∈ starts s.heap_listp (pre ++ b :: post)) := by
    cases hpa : pb.alloc
    · right
      obtain ⟨pre0, rfl, hpre0⟩ : ∃ pre0, pre = pre0 ++ [pb] ∧ pre1 = prologue :: pre0 := by
        rcases List.eq_nil_or_concat pre with rfl | ⟨L, x, rfl⟩
        · have h1 := List.append_inj' (show [] ++ [prologue] = pre1 ++ [pb] from hpre1) rfl
          simp only [List.cons.injEq, and_true] at h1
          rw [← h1.2] at hpa; simp [prologue] at hpa
        · simp only [List.concat_eq_append, ← List.cons_append] at hpre1
          have h1 := List.append_inj' hpre1 rfl
          simp only [List.cons.injEq, and_true] at h1
          exact ⟨L, by simp [h1.2], h1.1.symm⟩
      have hin : (s.heap_listp + total pre0, pb) ∈
          starts s.heap_listp ((pre0 ++ [pb]) ++ b :: post) := by
        have := mem_starts_mid s.heap_listp pre0 (b :: post) pb
        simpa using this
      have htp0 : total (pre0 ++ [pb]) = total pre0 + pb.size := by simp [total_append, total]
      have e3 : p - pb.size = s.heap_listp + total pre0 := by omega
      refine ⟨rfl, (Heap_block s _ _ pb h hin).1, by simp [coalP, hpa], by omega, ?_⟩
      rw [e3]; exact hin
    · left
      exact ⟨rfl, by simp [coalP, hpa]⟩
  have hnext : (headAlloc post = true ∧
        p + b.size + (if headAlloc post then 0 else total (post.take 1)) = p + b.size) ∨
      (∃ n, n.alloc = false ∧ 8 ≤ n.size ∧
        p + b.size + (if headAlloc post then 0 else total (post.take 1)) = p + b.size + n.size ∧
        (p + b.size, n) ∈ starts s.heap_listp (pre ++ b :: post)) := by
    cases hna : headAlloc post
    · right
      obtain ⟨n, r, rfl, hnf⟩ := headAlloc_false post (by simp [hna])
      have hin : (s.heap_listp + total (pre ++ [b]), n) ∈
          starts s.heap_listp ((pre ++ [b]) ++ n :: r) := mem_starts_mid _ _ _ _
      have e3 : s.heap_listp + total (pre ++ [b]) = p + b.size := by
        simp only [total_append, total]; omega
      rw [e3] at hin
      have hin2 : (p + b.size, n) ∈ starts s.heap_listp (pre ++ b :: n :: r) := by
        simpa using hin
      exact ⟨n, hnf, (Heap_block s _ _ n h hin2).1, by simp [total], hin2⟩
    · left
      exact ⟨rfl, by simp⟩
  intro x hx
  have hcase := free_arith x (coalP pb p) p b.size
    (p + b.size + (if headAlloc post then 0 else total (post.take 1)))
    (fun hc => hx (fw x hc.1 hc.2.1 hc.2.2.1 hc.2.2.2))
  clear hx fw hseg hepi
  have hown : (p - 4 ≤ x ∧ x < p) ∨ (p + b.size - 8 ≤ x ∧ x < p + b.size - 4) →
      (∃ q f, (q, f) ∈ starts s.heap_listp (pre ++ b :: post) ∧ (f.alloc = false ∨ q = p) ∧
        q - 4 ≤ x ∧ x < q + f.size - 4) ∧ TagL s.heap_listp (pre ++ b :: post) x := by
    intro hc
    exact ⟨⟨p, b, hp0, Or.inr rfl, by omega, by omega⟩, ⟨p, b, hp0, hc⟩⟩
  rcases hcase with hc | hc | hc | hc
  · rcases hprev with ⟨-, e1⟩ | ⟨hpf, hp8, e1, hle, hin⟩
    · rw [e1] at hc; exact hown (Or.inl hc)
    · rw [e1] at hc
      exact ⟨⟨_, pb, hin, Or.inl hpf, hc.1, by omega⟩, ⟨_, pb, hin, Or.inl hc⟩⟩
  · exact hown (Or.inl hc)
  · exact hown (Or.inr hc)
  · rcases hnext with ⟨-, e1⟩ | ⟨n, hnf, hn8, e1, hin⟩
    · rw [e1] at hc; exact hown (Or.inr hc)
    · rw [e1] at hc
      exact ⟨⟨_, n, hin, Or.inl hnf, by omega, by omega⟩, ⟨_, n, hin, Or.inr hc⟩⟩

/-! ## Claim C19: the frame of `mm_malloc` and `mm_free` -/

theorem payload_safe (s : State) (bs : List Blk) (q : Nat) (c : Blk) (x : Nat) (h : Heap s bs)
    (hq : (q, c) ∈ starts s.heap_listp bs) (h1 : q ≤ x) (h2 : x + 8 < q + c.size)
    (q1 : Nat) (f : Blk) (hq1 : (q1, f) ∈ starts s.heap_listp bs) (hne : ¬ (q = q1 ∧ c = f))
    (h3 : q1 - 4 ≤ x) (h4 : x < q1 + f.size - 4) : False := by
  rcases starts_disjoint s.heap_listp bs (Heap_pos s bs h) q q1 c f hq hq1 with hd | hd | hd
  · exact hne hd
  · omega
  · omega

theorem payload_below_brk (s : State) (bs : List Blk) (q : Nat) (c : Blk) (x : Nat)
    (h : Heap s bs) (hq : (q, c) ∈ starts s.heap_listp bs) (h2 : x + 8 < q + c.size) :
    x + 8 < s.mem_brk := by
  have := (mem_starts_ge _ _ _ _ hq).2
  have := h.brk
  omega

theorem block_view (s : State) (bs : List Blk) (q : Nat) (h : Heap s bs) (hq : q ∈ blocks s) :
    ∃ c, (q, c) ∈ starts s.heap_listp bs ∧ GET_ALLOC s.mem (HDRP q) = (if c.alloc then 1 else 0) ∧
      FTRP s.mem q = q + c.size - 8 ∧ 8 ≤ c.size := by
  obtain ⟨c, hc, e1, e2⟩ := block_of_ptr s bs q h hq
  refine ⟨c, hc, e2, ?_, (Heap_block s bs q c h hc).1⟩
  unfold FTRP DSIZE
  rw [e1]

theorem malloc_frame (s : State) (n : Nat) (r : Option Nat) (s1 : State) (hwf : WellFormed s)
    (hn : n ≤ 2 ^ 31 - 16) (hm : mm_malloc s n = some (r, s1)) :
    (∀ q ∈ blocks s, GET_ALLOC s.mem (HDRP q) = 1 →
      ∀ x, q ≤ x → x < FTRP s.mem q → s1.mem x = s.mem x) ∧
    (∀ x, s1.mem x ≠ s.mem x →
      ((∃ q ∈ blocks s, GET_ALLOC s.mem (HDRP q) = 0 ∧ InBlock s q x) ∨
        (s.mem_brk - WSIZE ≤ x ∧ x < s1.mem_brk)) ∧
      (IsTag s x ∨ IsTag s1 x)) := by
  obtain ⟨bs, h⟩ := hwf
  obtain ⟨bs1, hh1, hlp, mw⟩ := malloc_writes s bs n r s1 h hn hm
  constructor
  · intro q hq ha x hx1 hx2
    obtain ⟨c, hc, e2, e3, c8⟩ := block_view s bs q h hq
    rw [e3] at hx2
    rw [ha] at e2
    have hca : c.alloc = true := alloc_of_bit c e2.symm
    by_contra hne
    obtain ⟨hloc, -⟩ := mw x hne
    clear hne mw
    rcases hloc with ⟨q1, f, hq1, hf, h3, h4⟩ | ⟨h3, h4⟩
    · refine payload_safe s bs q c x h hc hx1 (by omega) q1 f hq1 ?_ h3 h4
      rintro ⟨-, rfl⟩
      rw [hca] at hf
      cases hf
    · have := payload_below_brk s bs q c x h hc (by omega)
      omega
  · intro x hx
    obtain ⟨hloc, htag⟩ := mw x hx
    clear hx mw
    constructor
    · rcases hloc with ⟨q1, f, hq1, hf, h3, h4⟩ | hb
      · left
        obtain ⟨i1, i2, i3⟩ := InBlock_of s bs q1 f x h hq1 h3 h4
        rw [hf] at i2
        exact ⟨q1, i1, i2, i3⟩
      · right; exact hb
    · rcases htag with ht | ht | ht | ht
      · exact Or.inl (TagL_IsTag s bs x h ht)
      · exact Or.inl (Or.inr ht)
      · rw [← hlp] at ht
        exact Or.inr (TagL_IsTag s1 bs1 x hh1 ht)
      · exact Or.inr (Or.inr ht)

theorem free_frame (s : State) (p : Nat) (hwf : WellFormed s) (hp : p ∈ blocks s) :
    (∀ q ∈ blocks s, GET_ALLOC s.mem (HDRP q) = 1 → q ≠ p →
      ∀ x, q ≤ x → x < FTRP s.mem q → (mm_free s p).mem x = s.mem x) ∧
    (∀ x, (mm_free s p).mem x ≠ s.mem x →
      (∃ q ∈ blocks s, (GET_ALLOC s.mem (HDRP q) = 0 ∨ q = p) ∧ InBlock s q x) ∧ IsTag s x) := by
  obtain ⟨bs, h⟩ := hwf
  obtain ⟨b, hb, -⟩ := block_of_ptr s bs p h hp
  have fw := free_writes_heap s bs p b h hb
  constructor
  · intro q hq ha hqp x hx1 hx2
    obtain ⟨c, hc, e2, e3, c8⟩ := block_view s bs q h hq
    rw [e3] at hx2
    rw [ha] at e2
    have hca : c.alloc = true := alloc_of_bit c e2.symm
    by_contra hne
    obtain ⟨⟨q1, f, hq1, hf, h3, h4⟩, -⟩ := fw x hne
    clear hne fw
    refine payload_safe s bs q c x h hc hx1 (by omega) q1 f hq1 ?_ h3 h4
    rintro ⟨rfl, rfl⟩
    rcases hf with hf | hf
    · rw [hca] at hf; cases hf
    · exact hqp hf
  · intro x hx
    obtain ⟨⟨q1, f, hq1, hf, h3, h4⟩, htag⟩ := fw x hx
    clear hx fw
    obtain ⟨i1, i2, i3⟩ := InBlock_of s bs q1 f x h hq1 h3 h4
    refine ⟨⟨q1, i1, ?_, i3⟩, TagL_IsTag s bs x h htag⟩
    rcases hf with hf | hf
    · left; rw [i2, hf]; rfl
    · right; exact hf

/-- C19: in a well-formed heap, for every call `mm_malloc(n)` with `n ≤ 2 ^ 31 - 16` that
returns, and for every call `mm_free(p)` on a block `p` of the heap: every payload byte of
an allocated block (other than `p` for `mm_free`) keeps its value, and every byte that
changes lies in the header word or the footer word of a block of the heap before or after
the call (or in an epilogue header), inside a block that was free, inside the block being
freed, or between the old epilogue header and the new end of the arena. -/
theorem allocator_frame (s : State) (hwf : WellFormed s) :
    (∀ n r s1, n ≤ 2 ^ 31 - 16 → mm_malloc s n = some (r, s1) →
      (∀ q ∈ blocks s, GET_ALLOC s.mem (HDRP q) = 1 →
        ∀ x, q ≤ x → x < FTRP s.mem q → s1.mem x = s.mem x) ∧
      (∀ x, s1.mem x ≠ s.mem x →
        ((∃ q ∈ blocks s, GET_ALLOC s.mem (HDRP q) = 0 ∧ InBlock s q x) ∨
          (s.mem_brk - WSIZE ≤ x ∧ x < s1.mem_brk)) ∧
        (IsTag s x ∨ IsTag s1 x))) ∧
    (∀ p ∈ blocks s, GET_ALLOC s.mem (HDRP p) = 1 →
      (∀ q ∈ blocks s, GET_ALLOC s.mem (HDRP q) = 1 → q ≠ p →
        ∀ x, q ≤ x → x < FTRP s.mem q → (mm_free s p).mem x = s.mem x) ∧
      (∀ x, (mm_free s p).mem x ≠ s.mem x →
        (∃ q ∈ blocks s, (GET_ALLOC s.mem (HDRP q) = 0 ∨ q = p) ∧ InBlock s q x) ∧
        IsTag s x)) :=
  ⟨fun n r s1 hn hm => malloc_frame s n r s1 hwf hn hm,
    fun p hp _ => free_frame s p hwf hp⟩

/-- Witness of `allocator_frame` in the state after `mm_init`, `mm_malloc(10)`,
`mm_malloc(20)` and `mm_malloc(30)`. -/
theorem allocator_frame_witness :
    WellFormed demoThree ∧
    (∀ n r s1, n ≤ 2 ^ 31 - 16 → mm_malloc demoThree n = some (r, s1) →
      (∀ q ∈ blocks demoThree, GET_ALLOC demoThree.mem (HDRP q) = 1 →
        ∀ x, q ≤ x → x < FTRP demoThree.mem q → s1.mem x = demoThree.mem x) ∧
      (∀ x, s1.mem x ≠ demoThree.mem x →
        ((∃ q ∈ blocks demoThree, GET_ALLOC demoThree.mem (HDRP q) = 0 ∧ InBlock demoThree q x) ∨
          (demoThree.mem_brk - WSIZE ≤ x ∧ x < s1.mem_brk)) ∧
        (IsTag demoThree x ∨ IsTag s1 x))) ∧
    (∀ p ∈ blocks demoThree, GET_ALLOC demoThree.mem (HDRP p) = 1 →
      (∀ q ∈ blocks demoThree, GET_ALLOC demoThree.mem (HDRP q) = 1 → q ≠ p →
        ∀ x, q ≤ x → x < FTRP demoThree.mem q → (mm_free demoThree p).mem x = demoThree.mem x) ∧
      (∀ x, (mm_free demoThree p).mem x ≠ demoThree.mem x →
        (∃ q ∈ blocks demoThree, (GET_ALLOC demoThree.mem (HDRP q) = 0 ∨ q = p) ∧
          InBlock demoThree q x) ∧
        IsTag demoThree x)) :=
  ⟨demoThree_wf, allocator_frame demoThree demoThree_wf⟩

/-! ## The checker `mm_checkheap` on a well-formed heap -/

theorem checkblock_ok (m : Mem) (a : Nat) (b : Blk) (hal : a % 8 = 0) (h8 : 8 ≤ b.size)
    (hm : b.size % 8 = 0) (hh : GET m (a - 4) = b.word) (hft : GET m (a + b.size - 8) = b.word) :
    checkblock m a = [] := by
  have hsz : GET_SIZE m (a - 4) = b.size := word_size _ _ b hm hh
  unfold checkblock FTRP
  simp [HDRP, WSIZE, DSIZE, hsz, hh, hft, hal]

theorem checkheap_loop_seg (m : Mem) (a : Nat) (bs : List Blk) (fuel : Nat) (hseg : Seg m a bs)
    (hepi : GET m (a + total bs - 4) = 1) (hal : a % 8 = 0) (hf : bs.length < fuel) :
    checkheap_loop m 0 fuel a = some ([], a + total bs) := by
  induction bs generalizing a fuel with
  | nil =>
    obtain ⟨f, rfl⟩ : ∃ f, fuel = f + 1 := ⟨fuel - 1, by simp at hf; omega⟩
    simp only [total, Nat.add_zero] at hepi
    simp [checkheap_loop, HDRP, WSIZE, epilogue_size m _ hepi, total]
  | cons b bs ih =>
    obtain ⟨f, rfl⟩ : ∃ f, fuel = f + 1 := ⟨fuel - 1, by simp at hf; omega⟩
    obtain ⟨h8, hm, hh, hft, hr⟩ := hseg
    have hsz : GET_SIZE m (a - 4) = b.size := word_size _ _ b hm hh
    have hpos : 0 < b.size := by omega
    simp only [total] at hepi
    have ih1 := ih (a + b.size) f hr (by rw [← hepi]; congr 1; omega) (by omega)
      (by simp at hf; omega)
    have hcb := checkblock_ok m a b hal h8 hm hh hft
    simp [checkheap_loop, HDRP, WSIZE, hsz, hpos, NEXT_BLKP, ih1, hcb, total, Nat.add_assoc]

theorem checkheap_wf (s : State) (bs : List Blk) (h : Heap s bs) (hal : s.heap_listp % 8 = 0) :
    mm_checkheap s 0 = some
      (if GET_SIZE s.mem (HDRP s.heap_listp) ≠ DSIZE ∨ GET_ALLOC s.mem (HDRP s.heap_listp) = 0
        then [Line.badPrologue] else []) := by
  have hseg := Heap_seg_from s [] bs (by simpa using h)
  simp only [total, Nat.add_zero] at hseg
  have hlen := Seg_length _ _ _ hseg
  have hbrk := h.brk
  have hlo := h.lo
  have hepi := h.epi
  have hloop := checkheap_loop_seg s.mem _ bs s.mem_brk hseg hepi hal (by omega)
  obtain ⟨c, hc⟩ := h.cur
  obtain ⟨b, bs0, rfl⟩ : ∃ b bs0, bs = b :: bs0 := by
    cases bs with
    | nil => simp [starts] at hc
    | cons b bs0 => exact ⟨b, bs0, rfl⟩
  obtain ⟨h8, hm, hh, hft, -⟩ := hseg
  have hcb := checkblock_ok s.mem _ b hal h8 hm hh hft
  have e1 : GET_SIZE s.mem (s.heap_listp + total (b :: bs0) - 4) = 0 := epilogue_size _ _ hepi
  have e2 : GET_ALLOC s.mem (s.heap_listp + total (b :: bs0) - 4) = 1 := epilogue_alloc _ _ hepi
  unfold mm_checkheap
  simp only [hloop, hcb]
  simp [HDRP, WSIZE, e1, e2]

theorem checkheap_after_init (s0 s : State) (hlim : s0.mem_max_addr < s0.mem_brk + U32)
    (hal : s0.mem_brk % 8 = 0) (h : mm_init s0 = some s) :
    mm_checkheap s 0 = some [Line.badPrologue] := by
  have hfit : s0.mem_brk + 4112 ≤ s0.mem_max_addr := by
    by_contra hc
    have := mm_init_fail s0 (by omega)
    rw [this] at h
    cases h
  obtain ⟨s', hs, hh, hlp, -⟩ := mm_init_spec s0 hlim hfit
  rw [hs] at h
  simp only [Option.some.injEq] at h
  subst h
  rw [checkheap_wf s' _ hh (by omega)]
  have hin : (s'.heap_listp, (⟨4096, false⟩ : Blk)) ∈ starts s'.heap_listp [⟨4096, false⟩] := by
    simp [starts]
  obtain ⟨-, e2⟩ := starts_bits s' _ _ _ hh hin
  rw [e2]
  simp

end Malloclab
